import Mathlib

set_option maxRecDepth 10000

/-!
Verification of the block-amortized variable-byte codec, the block allocator,
and the BFS/wBFS drivers of a shared-memory graph-processing engine.

The C++ sources are embedded shallowly:
* machine `uintE` (unsigned 32-bit) arithmetic is `Nat` with explicit `% 2^32`
  at the points where the machine wraps;
* the encoded adjacency region is a `List Nat` of bytes (each `< 256`);
* callbacks are Lean functions, and a decode returns the list of callback
  invocations it performs together with whether it stopped early.
-/

namespace BytePD


/-- PARALLEL_DEGREE from the source: maximal number of edges per block. -/
def PARALLEL_DEGREE : Nat := 1000

/-- Width of the machine word `uintE` (unsigned 32-bit). -/
def U32 : Nat := 2 ^ 32

/-- Fuel-indexed body of compressEdge; the fuel only makes the recursion
structural (the value strictly shrinks by `>>> 7` each step, so any fuel at
least `e` gives the same bytes). -/
def compressEdgeF : Nat → Nat → List Nat
  | 0, _ => []
  | fuel + 1, e =>
    if e = 0 then []
    else (if 0 < e >>> 7 then (e &&& 0x7f) ||| 0x80 else e &&& 0x7f) ::
      compressEdgeF fuel (e >>> 7)

/-- compressEdge from byte_pd_amortized.h: the 7-bit variable-byte loop.  Writes
the low 7 bits of `e` with a continuation bit while bits remain; writes nothing
at all for `e = 0`.  The same loop body also emits the continuation bytes of
`compressFirstEdge` (there operating on `toCompress = mag >>> 6`). -/
def compressEdge (e : Nat) : List Nat :=
  compressEdgeF e e

theorem compressEdgeF_congr : ∀ (f1 f2 e : Nat), e ≤ f1 → e ≤ f2 →
    compressEdgeF f1 e = compressEdgeF f2 e := by
  intro f1
  induction f1 with
  | zero =>
    intro f2 e h1 h2
    have he : e = 0 := by omega
    subst he
    cases f2 <;> simp [compressEdgeF]
  | succ f1 ih =>
    intro f2 e h1 h2
    by_cases he : e = 0
    · subst he
      cases f2 <;> simp [compressEdgeF]
    · cases f2 with
      | zero => omega
      | succ f2 =>
        simp only [compressEdgeF, if_neg he]
        have hlt : e >>> 7 < e := by
          rw [Nat.shiftRight_eq_div_pow]
          exact Nat.div_lt_self (Nat.pos_of_ne_zero he) (by norm_num)
        rw [ih f2 (e >>> 7) (by omega) (by omega)]

/-- One-step unfolding of compressEdge (the loop of the C source). -/
theorem compressEdge_unfold (e : Nat) :
    compressEdge e =
      (if e = 0 then []
       else (if 0 < e >>> 7 then (e &&& 0x7f) ||| 0x80 else e &&& 0x7f) ::
         compressEdge (e >>> 7)) := by
  by_cases he : e = 0
  · subst he
    rfl
  · rw [if_neg he]
    cases e with
    | zero => exact absurd rfl he
    | succ n =>
      simp only [compressEdge, compressEdgeF, if_neg he]
      have hlt : (n + 1) >>> 7 < n + 1 := by
        rw [Nat.shiftRight_eq_div_pow]
        exact Nat.div_lt_self (by omega) (by norm_num)
      rw [compressEdgeF_congr n ((n + 1) >>> 7) ((n + 1) >>> 7) (by omega) le_rfl]

/-- compressFirstEdge from byte_pd_amortized.h, abstracted over the signed
difference `target - source` (a C `long`).  Byte 0 carries a 6-bit magnitude,
the sign bit 0x40 and the continuation bit 0x80; `uintE toCompress =
std::abs(preCompress)` truncates the magnitude to 32 bits. -/
def compressFirstEdge (diff : Int) : List Nat :=
  let mag : Nat := diff.natAbs % U32
  let fb0 : Nat := mag &&& 0x3f
  let fb1 : Nat := if diff < 0 then fb0 ||| 0x40 else fb0
  let fb2 : Nat := if 0 < mag >>> 6 then fb1 ||| 0x80 else fb1
  fb2 :: compressEdge (mag >>> 6)

/-- Weight category of the codec: unweighted (pbbs::empty, zero bytes per
weight) or signed 32-bit integer weights. -/
inductive WMode where
  | unit : WMode
  | int : WMode
deriving DecidableEq, Repr

/-- compressWeight from byte_pd_amortized.h: no bytes for `pbbs::empty`,
`compressFirstEdge(start, offset, 0, weight)` for `intE`. -/
def compressWeight (mode : WMode) (w : Int) : List Nat :=
  match mode with
  | .unit => []
  | .int => compressFirstEdge w

/-- Continuation-byte loop of eatEdge: `edgeRead += (b & 0x7f) << shiftAmount`
into a `uintE`, advancing while the top bit of the byte just read is set.
Reading past the end of the stream is undefined behaviour in the C source and
returns the bytes consumed so far here. -/
def eatTailAdd (l : List Nat) (acc shift : Nat) : Nat × List Nat :=
  match l with
  | [] => (acc, [])
  | b :: rest =>
    let acc' := (acc + ((b &&& 0x7f) <<< shift)) % U32
    if b &&& 0x80 ≠ 0 then eatTailAdd rest acc' (shift + 7) else (acc', rest)

/-- eatEdge from byte_pd_amortized.h: unsigned variable-byte delta decode. -/
def eatEdge (l : List Nat) : Nat × List Nat :=
  eatTailAdd l 0 0

/-- Continuation-byte loop shared by eatFirstEdge and the integer eatWeight:
`edgeRead |= (b & 0x7f) << shiftAmount`, advancing while the continuation bit
of the byte just read is set (a do-while: it always consumes at least one
byte). -/
def eatTailOr (l : List Nat) (acc shift : Nat) : Nat × List Nat :=
  match l with
  | [] => (acc, [])
  | b :: rest =>
    let acc' := (acc ||| ((b &&& 0x7f) <<< shift)) % U32
    if b &&& 0x80 ≠ 0 then eatTailOr rest acc' (shift + 7) else (acc', rest)

/-- eatFirstEdge from byte_pd_amortized.h: sign-magnitude decode of the first
edge of a block relative to `source`, in `uintE` arithmetic. -/
def eatFirstEdge (source : Nat) (l : List Nat) : Nat × List Nat :=
  match l with
  | [] => (source, [])
  | fb :: rest =>
    let first :=
      if fb &&& 0x80 ≠ 0 then eatTailOr rest (fb &&& 0x3f) 6 else (fb &&& 0x3f, rest)
    let mag := first.1
    (if fb &&& 0x40 ≠ 0 then (source + (U32 - mag)) % U32 else (source + mag) % U32, first.2)

/-- Integer eatWeight from byte_pd_amortized.h: sign-magnitude decode of an
`intE` weight (`(fb & 0x40) ? -edgeRead : edgeRead`). -/
def eatWeightInt (l : List Nat) : Int × List Nat :=
  match l with
  | [] => (0, [])
  | fb :: rest =>
    let first :=
      if fb &&& 0x80 ≠ 0 then eatTailOr rest (fb &&& 0x3f) 6 else (fb &&& 0x3f, rest)
    let mag := first.1
    (if fb &&& 0x40 ≠ 0 then -(mag : Int) else (mag : Int), first.2)

/-- eatWeight, dispatched on the weight category exactly like the two
`enable_if` overloads in the source: `pbbs::empty` (modelled as the integer 0)
consumes no bytes. -/
def eatWeight (mode : WMode) (l : List Nat) : Int × List Nat :=
  match mode with
  | .unit => (0, l)
  | .int => eatWeightInt l



theorem byte_nocont_and_7f : ∀ a, a < 128 → a &&& 127 = a := by decide

theorem byte_nocont_test : ∀ a, a < 128 → a &&& 128 = 0 := by decide

theorem byte_cont_and_7f : ∀ a, a < 128 → (a ||| 128) &&& 127 = a := by decide

theorem byte_cont_test : ∀ a, a < 128 → (a ||| 128) &&& 128 ≠ 0 := by decide

theorem and_7f_eq_mod (e : Nat) : e &&& 127 = e % 128 := by
  have h : (127 : Nat) = 2 ^ 7 - 1 := by norm_num
  rw [h, Nat.and_pow_two_sub_one_eq_mod]

theorem shiftRight7_eq (e : Nat) : e >>> 7 = e / 128 := by
  rw [Nat.shiftRight_eq_div_pow]

theorem eatTailAdd_cons (b : Nat) (rest : List Nat) (acc shift : Nat) :
    eatTailAdd (b :: rest) acc shift =
      if b &&& 0x80 ≠ 0 then eatTailAdd rest ((acc + ((b &&& 0x7f) <<< shift)) % U32) (shift + 7)
      else ((acc + ((b &&& 0x7f) <<< shift)) % U32, rest) := rfl

theorem eatTailOr_cons (b : Nat) (rest : List Nat) (acc shift : Nat) :
    eatTailOr (b :: rest) acc shift =
      if b &&& 0x80 ≠ 0 then eatTailOr rest ((acc ||| ((b &&& 0x7f) <<< shift)) % U32) (shift + 7)
      else ((acc ||| ((b &&& 0x7f) <<< shift)) % U32, rest) := rfl

theorem mod128_sum (e shift : Nat) :
    e % 128 * 2 ^ shift + e / 128 * 2 ^ (shift + 7) = e * 2 ^ shift := by
  have h2 : e % 128 + 128 * (e / 128) = e := Nat.mod_add_div _ _
  calc e % 128 * 2 ^ shift + e / 128 * 2 ^ (shift + 7)
      = (e % 128 + 128 * (e / 128)) * 2 ^ shift := by rw [pow_add]; ring
  _ = e * 2 ^ shift := by rw [h2]

/-- Round trip for the unsigned continuation loop that accumulates with the
C `+=` (eatEdge), against a stream written by compressEdge. -/
theorem eatTailAdd_compressEdge : ∀ (e : Nat), 0 < e → ∀ (acc shift : Nat) (rest : List Nat),
    acc + e * 2 ^ shift < U32 →
    eatTailAdd (compressEdge e ++ rest) acc shift = (acc + e * 2 ^ shift, rest) := by
  intro e
  induction e using Nat.strong_induction_on with
  | _ e ih =>
    intro he acc shift rest hlt
    rw [compressEdge_unfold, if_neg (Nat.pos_iff_ne_zero.mp he)]
    have hmod : e &&& 127 < 128 := by rw [and_7f_eq_mod]; omega
    rcases Nat.eq_zero_or_pos (e >>> 7) with h7 | h7
    · have helt : e < 128 := by
        rw [shiftRight7_eq] at h7; omega
      rw [if_neg (by omega)]
      rw [List.cons_append, eatTailAdd_cons]
      rw [if_neg (by rw [byte_nocont_test _ hmod]; simp)]
      rw [byte_nocont_and_7f _ hmod, and_7f_eq_mod, Nat.mod_eq_of_lt helt,
        Nat.shiftLeft_eq, Nat.mod_eq_of_lt hlt]
      have : compressEdge (e >>> 7) = [] := by
        rw [compressEdge_unfold, if_pos (by omega)]
      rw [this, List.nil_append]
    · rw [if_pos h7]
      rw [List.cons_append, eatTailAdd_cons]
      rw [if_pos (byte_cont_test _ hmod)]
      rw [byte_cont_and_7f _ hmod, and_7f_eq_mod]
      have hle : e % 128 * 2 ^ shift ≤ e * 2 ^ shift :=
        Nat.mul_le_mul_right _ (Nat.mod_le _ _)
      have hacc' : acc + e % 128 * 2 ^ shift < U32 := by omega
      rw [Nat.shiftLeft_eq, Nat.mod_eq_of_lt hacc']
      have hsum := mod128_sum e shift
      have hrec := ih (e >>> 7) (by rw [shiftRight7_eq]; exact Nat.div_lt_self he (by norm_num))
        h7 (acc + e % 128 * 2 ^ shift) (shift + 7) rest ?_
      · rw [hrec, shiftRight7_eq]
        congr 1
        omega
      · rw [shiftRight7_eq]
        omega

/-- Round trip for the continuation loop that accumulates with the C `|=`
(eatFirstEdge / integer eatWeight); the accumulator occupies bits below
`shift`, so the bitwise or is an addition. -/
theorem eatTailOr_compressEdge : ∀ (e : Nat), 0 < e → ∀ (acc shift : Nat) (rest : List Nat),
    acc < 2 ^ shift → acc + e * 2 ^ shift < U32 →
    eatTailOr (compressEdge e ++ rest) acc shift = (acc + e * 2 ^ shift, rest) := by
  intro e
  induction e using Nat.strong_induction_on with
  | _ e ih =>
    intro he acc shift rest haccs hlt
    have hor : ∀ c : Nat, acc ||| c <<< shift = acc + c * 2 ^ shift := by
      intro c
      rw [Nat.shiftLeft_eq, Nat.or_comm, ← Nat.mul_comm (2 ^ shift) c,
        ← Nat.mul_add_lt_is_or haccs, Nat.mul_comm (2 ^ shift) c]
      omega
    rw [compressEdge_unfold, if_neg (Nat.pos_iff_ne_zero.mp he)]
    have hmod : e &&& 127 < 128 := by rw [and_7f_eq_mod]; omega
    rcases Nat.eq_zero_or_pos (e >>> 7) with h7 | h7
    · have helt : e < 128 := by
        rw [shiftRight7_eq] at h7; omega
      rw [if_neg (by omega)]
      rw [List.cons_append, eatTailOr_cons]
      rw [if_neg (by rw [byte_nocont_test _ hmod]; simp)]
      rw [byte_nocont_and_7f _ hmod, and_7f_eq_mod, Nat.mod_eq_of_lt helt,
        hor e, Nat.mod_eq_of_lt hlt]
      have : compressEdge (e >>> 7) = [] := by
        rw [compressEdge_unfold, if_pos (by omega)]
      rw [this, List.nil_append]
    · rw [if_pos h7]
      rw [List.cons_append, eatTailOr_cons]
      rw [if_pos (byte_cont_test _ hmod)]
      rw [byte_cont_and_7f _ hmod, and_7f_eq_mod]
      have hle : e % 128 * 2 ^ shift ≤ e * 2 ^ shift :=
        Nat.mul_le_mul_right _ (Nat.mod_le _ _)
      have hacc' : acc + e % 128 * 2 ^ shift < U32 := by omega
      rw [hor (e % 128), Nat.mod_eq_of_lt hacc']
      have hsum := mod128_sum e shift
      have hrec := ih (e >>> 7) (by rw [shiftRight7_eq]; exact Nat.div_lt_self he (by norm_num))
        h7 (acc + e % 128 * 2 ^ shift) (shift + 7) rest ?_ ?_
      · rw [hrec, shiftRight7_eq]
        congr 1
        omega
      · have h127 : e % 128 ≤ 127 := by omega
        have := Nat.mul_le_mul_right (2 ^ shift) h127
        calc acc + e % 128 * 2 ^ shift < 2 ^ shift + 127 * 2 ^ shift := by omega
        _ = 2 ^ (shift + 7) := by rw [pow_add]; ring
      · rw [shiftRight7_eq]
        omega

/-- eatEdge round trip: decoding at the position where compressEdge wrote a
positive 32-bit delta recovers the delta and leaves the rest of the stream. -/
theorem eatEdge_compressEdge (e : Nat) (he : 0 < e) (heU : e < U32) (rest : List Nat) :
    eatEdge (compressEdge e ++ rest) = (e, rest) := by
  have h := eatTailAdd_compressEdge e he 0 0 rest (by simpa using heU)
  simpa using h



theorem and_3f_eq_mod (e : Nat) : e &&& 63 = e % 64 := by
  have h : (63 : Nat) = 2 ^ 6 - 1 := by norm_num
  rw [h, Nat.and_pow_two_sub_one_eq_mod]

theorem shiftRight6_eq (e : Nat) : e >>> 6 = e / 64 := by
  rw [Nat.shiftRight_eq_div_pow]

theorem fb_plain : ∀ a, a < 64 → a &&& 63 = a ∧ a &&& 128 = 0 ∧ a &&& 64 = 0 := by decide

theorem fb_sign : ∀ a, a < 64 →
    (a ||| 64) &&& 63 = a ∧ (a ||| 64) &&& 128 = 0 ∧ (a ||| 64) &&& 64 ≠ 0 := by decide

theorem fb_cont : ∀ a, a < 64 →
    (a ||| 128) &&& 63 = a ∧ (a ||| 128) &&& 128 ≠ 0 ∧ (a ||| 128) &&& 64 = 0 := by decide

theorem fb_sign_cont : ∀ a, a < 64 →
    (a ||| 64 ||| 128) &&& 63 = a ∧ (a ||| 64 ||| 128) &&& 128 ≠ 0 ∧
    (a ||| 64 ||| 128) &&& 64 ≠ 0 := by decide

theorem eatFirstEdge_cons (fb : Nat) (rest : List Nat) (source : Nat) :
    eatFirstEdge source (fb :: rest) =
      let first :=
        if fb &&& 0x80 ≠ 0 then eatTailOr rest (fb &&& 0x3f) 6 else (fb &&& 0x3f, rest)
      (if fb &&& 0x40 ≠ 0 then (source + (U32 - first.1)) % U32
       else (source + first.1) % U32, first.2) := rfl

theorem eatWeightInt_cons (fb : Nat) (rest : List Nat) :
    eatWeightInt (fb :: rest) =
      let first :=
        if fb &&& 0x80 ≠ 0 then eatTailOr rest (fb &&& 0x3f) 6 else (fb &&& 0x3f, rest)
      (if fb &&& 0x40 ≠ 0 then -(first.1 : Int) else (first.1 : Int), first.2) := rfl

/-- The magnitude written by compressFirstEdge is recovered exactly by the
first-byte-plus-continuation read shared by eatFirstEdge and eatWeightInt. -/
theorem read_mag (fb m : Nat) (hm : m < U32) (rest : List Nat)
    (h63 : fb &&& 63 = m % 64)
    (h80p : 0 < m >>> 6 → fb &&& 128 ≠ 0)
    (h80n : m >>> 6 = 0 → fb &&& 128 = 0) :
    (if fb &&& 0x80 ≠ 0 then eatTailOr (compressEdge (m >>> 6) ++ rest) (fb &&& 0x3f) 6
     else (fb &&& 0x3f, compressEdge (m >>> 6) ++ rest)) = (m, rest) := by
  rcases Nat.eq_zero_or_pos (m >>> 6) with h | h
  · rw [if_neg (by simp [h80n h])]
    have hlt : m < 64 := by rw [shiftRight6_eq] at h; omega
    have hce : compressEdge (m >>> 6) = [] := by
      rw [compressEdge_unfold, if_pos (by omega)]
    rw [h63, Nat.mod_eq_of_lt hlt, hce, List.nil_append]
  · rw [if_pos (h80p h)]
    have hsum : m % 64 + m >>> 6 * 2 ^ 6 = m := by
      rw [shiftRight6_eq]
      have := Nat.mod_add_div m 64
      omega
    have htail := eatTailOr_compressEdge (m >>> 6) h (m % 64) 6 rest
      (by omega : m % 64 < 2 ^ 6) (by omega)
    rw [h63, htail, hsum]

/-- eatFirstEdge round trip: decoding directly after compressFirstEdge wrote
the signed difference `target - source` recovers `target`. -/
theorem eatFirstEdge_compressFirstEdge (source target : Nat) (hs : source < U32)
    (ht : target < U32) (rest : List Nat) :
    eatFirstEdge source (compressFirstEdge ((target : Int) - source) ++ rest) =
      (target, rest) := by
  have hnat : ((target : Int) - source).natAbs < U32 := by
    simp only [U32] at *
    omega
  set m := ((target : Int) - source).natAbs with hmdef
  have hmag : m % U32 = m := Nat.mod_eq_of_lt hnat
  have h63lt : m &&& 63 < 64 := by rw [and_3f_eq_mod]; omega
  simp only [compressFirstEdge, hmag, ← hmdef, List.cons_append]
  by_cases hneg : (target : Int) - (source : Int) < 0
  · rw [if_pos hneg]
    rcases Nat.eq_zero_or_pos (m >>> 6) with h6 | h6
    · rw [if_neg (by omega)]
      obtain ⟨f1, f2, f3⟩ := fb_sign (m &&& 63) h63lt
      rw [eatFirstEdge_cons]
      simp only [if_neg (by simp [f2] : ¬ ((m &&& 63 ||| 64) &&& 0x80 ≠ 0)), if_pos f3]
      have hce : compressEdge (m >>> 6) = [] := by rw [compressEdge_unfold, if_pos (by omega)]
      rw [f1, and_3f_eq_mod, hce, List.nil_append]
      have hm64 : m < 64 := by rw [shiftRight6_eq] at h6; omega
      rw [Nat.mod_eq_of_lt hm64]
      refine Prod.ext ?_ rfl
      simp only [U32] at *
      omega
    · rw [if_pos h6]
      obtain ⟨f1, f2, f3⟩ := fb_sign_cont (m &&& 63) h63lt
      rw [eatFirstEdge_cons]
      simp only [if_pos f2, if_pos f3]
      have hread := read_mag (m &&& 63 ||| 64 ||| 128) m hnat rest
        (by rw [f1, and_3f_eq_mod]) (fun _ => f2) (by omega)
      rw [if_pos f2] at hread
      rw [hread]
      refine Prod.ext ?_ rfl
      simp only [U32] at *
      omega
  · rw [if_neg hneg]
    rcases Nat.eq_zero_or_pos (m >>> 6) with h6 | h6
    · rw [if_neg (by omega)]
      obtain ⟨f1, f2, f3⟩ := fb_plain (m &&& 63) h63lt
      rw [eatFirstEdge_cons]
      simp only [if_neg (by simp [f2] : ¬ ((m &&& 63) &&& 0x80 ≠ 0)),
        if_neg (by simp [f3] : ¬ ((m &&& 63) &&& 0x40 ≠ 0))]
      have hce : compressEdge (m >>> 6) = [] := by rw [compressEdge_unfold, if_pos (by omega)]
      rw [f1, and_3f_eq_mod, hce, List.nil_append]
      have hm64 : m < 64 := by rw [shiftRight6_eq] at h6; omega
      rw [Nat.mod_eq_of_lt hm64]
      refine Prod.ext ?_ rfl
      simp only [U32] at *
      omega
    · rw [if_pos h6]
      obtain ⟨f1, f2, f3⟩ := fb_cont (m &&& 63) h63lt
      rw [eatFirstEdge_cons]
      simp only [if_pos f2, if_neg (by simp [f3] : ¬ ((m &&& 63 ||| 128) &&& 0x40 ≠ 0))]
      have hread := read_mag (m &&& 63 ||| 128) m hnat rest
        (by rw [f1, and_3f_eq_mod]) (fun _ => f2) (by omega)
      rw [if_pos f2] at hread
      rw [hread]
      refine Prod.ext ?_ rfl
      simp only [U32] at *
      omega

/-- eatWeightInt round trip: decoding directly after compressFirstEdge wrote a
signed 32-bit weight recovers the weight. -/
theorem eatWeightInt_compressFirstEdge (w : Int) (hw : w.natAbs < 2 ^ 31)
    (rest : List Nat) :
    eatWeightInt (compressFirstEdge w ++ rest) = (w, rest) := by
  have hnat : w.natAbs < U32 := by simp only [U32]; omega
  set m := w.natAbs with hmdef
  have hmag : m % U32 = m := Nat.mod_eq_of_lt hnat
  have h63lt : m &&& 63 < 64 := by rw [and_3f_eq_mod]; omega
  simp only [compressFirstEdge, hmag, ← hmdef, List.cons_append]
  by_cases hneg : w < 0
  · rw [if_pos hneg]
    rcases Nat.eq_zero_or_pos (m >>> 6) with h6 | h6
    · rw [if_neg (by omega)]
      obtain ⟨f1, f2, f3⟩ := fb_sign (m &&& 63) h63lt
      rw [eatWeightInt_cons]
      simp only [if_neg (by simp [f2] : ¬ ((m &&& 63 ||| 64) &&& 0x80 ≠ 0)), if_pos f3]
      have hce : compressEdge (m >>> 6) = [] := by rw [compressEdge_unfold, if_pos (by omega)]
      have hm64 : m < 64 := by rw [shiftRight6_eq] at h6; omega
      rw [f1, and_3f_eq_mod, hce, List.nil_append, Nat.mod_eq_of_lt hm64]
      refine Prod.ext ?_ rfl
      simp only []
      omega
    · rw [if_pos h6]
      obtain ⟨f1, f2, f3⟩ := fb_sign_cont (m &&& 63) h63lt
      rw [eatWeightInt_cons]
      simp only [if_pos f2, if_pos f3]
      have hread := read_mag (m &&& 63 ||| 64 ||| 128) m hnat rest
        (by rw [f1, and_3f_eq_mod]) (fun _ => f2) (by omega)
      rw [if_pos f2] at hread
      rw [hread]
      refine Prod.ext ?_ rfl
      simp only []
      omega
  · rw [if_neg hneg]
    rcases Nat.eq_zero_or_pos (m >>> 6) with h6 | h6
    · rw [if_neg (by omega)]
      obtain ⟨f1, f2, f3⟩ := fb_plain (m &&& 63) h63lt
      rw [eatWeightInt_cons]
      simp only [if_neg (by simp [f2] : ¬ ((m &&& 63) &&& 0x80 ≠ 0)),
        if_neg (by simp [f3] : ¬ ((m &&& 63) &&& 0x40 ≠ 0))]
      have hce : compressEdge (m >>> 6) = [] := by rw [compressEdge_unfold, if_pos (by omega)]
      have hm64 : m < 64 := by rw [shiftRight6_eq] at h6; omega
      rw [f1, and_3f_eq_mod, hce, List.nil_append, Nat.mod_eq_of_lt hm64]
      refine Prod.ext ?_ rfl
      simp only []
      omega
    · rw [if_pos h6]
      obtain ⟨f1, f2, f3⟩ := fb_cont (m &&& 63) h63lt
      rw [eatWeightInt_cons]
      simp only [if_pos f2, if_neg (by simp [f3] : ¬ ((m &&& 63 ||| 128) &&& 0x40 ≠ 0))]
      have hread := read_mag (m &&& 63 ||| 128) m hnat rest
        (by rw [f1, and_3f_eq_mod]) (fun _ => f2) (by omega)
      rw [if_pos f2] at hread
      rw [hread]
      refine Prod.ext ?_ rfl
      simp only []
      omega

/-- Validity of a weight for its weight category: the unit weight is the
integer 0, and an integer weight is a signed 32-bit value whose magnitude
stays below 2^31 (as required by the `intE` accumulation in the decoder). -/
def WOK (mode : WMode) (w : Int) : Prop :=
  match mode with
  | .unit => w = 0
  | .int => w.natAbs < 2 ^ 31

instance (mode : WMode) (w : Int) : Decidable (WOK mode w) :=
  match mode with
  | .unit => inferInstanceAs (Decidable (w = 0))
  | .int => inferInstanceAs (Decidable (w.natAbs < 2 ^ 31))

/-- eatWeight round trip against compressWeight, in either weight category. -/
theorem eatWeight_compressWeight (mode : WMode) (w : Int) (hw : WOK mode w)
    (rest : List Nat) :
    eatWeight mode (compressWeight mode w ++ rest) = (w, rest) := by
  cases mode with
  | unit =>
    simp only [WOK] at hw
    simp [eatWeight, compressWeight, hw]
  | int =>
    simp only [WOK] at hw
    simp only [eatWeight, compressWeight]
    exact eatWeightInt_compressFirstEdge w hw rest



/-- Little-endian bytes of a `uintE` store (`*((uintE*)p) = n`). -/
def w32 (n : Nat) : List Nat :=
  [n % 256, n / 256 % 256, n / 256 ^ 2 % 256, n / 256 ^ 3 % 256]

/-- Little-endian `uintE` load (`*((uintE*)p)`) from the head of a byte list. -/
def read32 (l : List Nat) : Nat :=
  l.getD 0 0 + 256 * (l.getD 1 0 + 256 * (l.getD 2 0 + 256 * l.getD 3 0))

/-- Load at a byte offset into a region. -/
def read32At (r : List Nat) (p : Nat) : Nat :=
  read32 (r.drop p)

/-- Unsigned 32-bit subtraction `a - b` (used for the consecutive-neighbor
difference `std::get<0>(nxt) - last_ngh`). -/
def sub32 (a b : Nat) : Nat :=
  (U32 + a - b) % U32

/-- Bytes of the edges of one block after the first edge: each neighbor as an
unsigned delta from its predecessor, each weight via compressWeight. -/
def encodeDeltas (mode : WMode) (prev : Nat) (edges : List (Nat × Int)) : List Nat :=
  match edges with
  | [] => []
  | (n, w) :: rest =>
    compressEdge (sub32 n prev) ++ compressWeight mode w ++ encodeDeltas mode n rest

/-- Bytes of the edges of one block: the first edge as a signed difference from
the source, then unsigned deltas, weights interleaved. -/
def encodeBlockBody (mode : WMode) (src : Nat) (edges : List (Nat × Int)) : List Nat :=
  match edges with
  | [] => []
  | (n, w) :: rest =>
    compressFirstEdge ((n : Int) - src) ++ compressWeight mode w ++ encodeDeltas mode n rest

/-- One block as written by sequentialCompressEdgeSet: its cumulative edge
start index `o` (the `*block_deg = o` store) followed by the edge bytes. -/
def encodeBlock (mode : WMode) (src o : Nat) (edges : List (Nat × Int)) : List Nat :=
  w32 o ++ encodeBlockBody mode src edges

/-- The block list written by sequentialCompressEdgeSet: edges are cut into
chunks of PARALLEL_DEGREE, block `i` storing cumulative start index
`o + i * PARALLEL_DEGREE`. -/
def encodeBlocksF (mode : WMode) (src : Nat) : Nat → List (Nat × Int) → Nat →
    List (List Nat)
  | 0, _, _ => []
  | fuel + 1, edges, o =>
    if edges = [] then []
    else encodeBlock mode src o (edges.take PARALLEL_DEGREE) ::
      encodeBlocksF mode src fuel (edges.drop PARALLEL_DEGREE) (o + PARALLEL_DEGREE)

def encodeBlocks (mode : WMode) (src : Nat) (edges : List (Nat × Int)) (o : Nat) :
    List (List Nat) :=
  encodeBlocksF mode src edges.length edges o

theorem encodeBlocksF_congr (mode : WMode) (src : Nat) :
    ∀ (f1 f2 : Nat) (edges : List (Nat × Int)) (o : Nat),
      edges.length ≤ f1 → edges.length ≤ f2 →
      encodeBlocksF mode src f1 edges o = encodeBlocksF mode src f2 edges o := by
  intro f1
  induction f1 with
  | zero =>
    intro f2 edges o h1 h2
    have he : edges = [] := List.length_eq_zero.mp (by omega)
    subst he
    cases f2 <;> simp [encodeBlocksF]
  | succ f1 ih =>
    intro f2 edges o h1 h2
    by_cases he : edges = []
    · subst he
      cases f2 <;> simp [encodeBlocksF]
    · cases f2 with
      | zero =>
        have := List.length_pos.mpr he
        omega
      | succ f2 =>
        simp only [encodeBlocksF, if_neg he]
        have := List.length_pos.mpr he
        rw [ih f2 (edges.drop PARALLEL_DEGREE) (o + PARALLEL_DEGREE)
          (by simp only [List.length_drop, PARALLEL_DEGREE]; omega)
          (by simp only [List.length_drop, PARALLEL_DEGREE]; omega)]

/-- One-step unfolding of encodeBlocks (the block loop of the C source). -/
theorem encodeBlocks_unfold (mode : WMode) (src : Nat) (edges : List (Nat × Int)) (o : Nat) :
    encodeBlocks mode src edges o =
      (if edges = [] then []
       else encodeBlock mode src o (edges.take PARALLEL_DEGREE) ::
         encodeBlocks mode src (edges.drop PARALLEL_DEGREE) (o + PARALLEL_DEGREE)) := by
  by_cases he : edges = []
  · subst he
    rfl
  · rw [if_neg he]
    cases edges with
    | nil => exact absurd rfl he
    | cons e tl =>
      simp only [encodeBlocks, List.length_cons, encodeBlocksF, if_neg he]
      rw [encodeBlocksF_congr mode src tl.length ((e :: tl).drop PARALLEL_DEGREE).length
        ((e :: tl).drop PARALLEL_DEGREE) (o + PARALLEL_DEGREE)
        (by simp only [List.length_drop, List.length_cons, PARALLEL_DEGREE]; omega) le_rfl]

/-- Byte positions just after each successive block, starting from `pos`; all
but the last are exactly the stored block offsets. -/
def offsetsFrom (pos : Nat) (blocks : List (List Nat)) : List Nat :=
  match blocks with
  | [] => []
  | b :: bs => (pos + b.length) :: offsetsFrom (pos + b.length) bs

/-- sequentialCompressEdgeSet from byte_pd_amortized.h, producing the encoded
region of one vertex (the caller passes the region base and offset 0): the
virtual degree, `num_blocks - 1` block offsets, then the blocks. -/
def sequentialCompressEdgeSet (mode : WMode) (src : Nat) (edges : List (Nat × Int)) :
    List Nat :=
  if edges = [] then []
  else
    let d := edges.length
    let nb := 1 + (d - 1) / PARALLEL_DEGREE
    let blocks := encodeBlocks mode src edges 0
    w32 d ++ (((offsetsFrom (4 * nb) blocks).dropLast).map w32).flatten ++ blocks.flatten

/-- num_blocks as recomputed by every reader: `1 + (virtual_degree - 1) /
PARALLEL_DEGREE`. -/
def numBlocksOf (vd : Nat) : Nat :=
  1 + (vd - 1) / PARALLEL_DEGREE

/-- block_offsets[i] of a region (`*(uintE*)(edge_start + sizeof(uintE) + 4i)`). -/
def blockOffset (r : List Nat) (i : Nat) : Nat :=
  read32At r (4 + 4 * i)

/-- The byte suffix of the region at which block `i` starts: block 0 right
after the header (`nghs_start`), later blocks at their stored offsets. -/
def fingerAt (r : List Nat) (nb i : Nat) : List Nat :=
  if i = 0 then r.drop (4 * nb) else r.drop (blockOffset r (i - 1))

/-- The cumulative start index stored at the head of block `i`. -/
def startOf (r : List Nat) (nb i : Nat) : Nat :=
  read32 (fingerAt r nb i)

/-- The end index of block `i`: the next block's stored start index, or the
degree for the last block. -/
def endOf (r : List Nat) (nb d i : Nat) : Nat :=
  if i = nb - 1 then d else read32At r (blockOffset r i)

/-- The edge loop of a decode after the first edge of a block: reads `k` more
(delta, weight) pairs, invoking the callback on each; stops inside the block
when the callback returns false.  Returns the invocations performed and
whether it stopped. -/
def eatEdges (mode : WMode) (cb : Nat → Nat → Int → Nat → Bool) (src : Nat) :
    Nat → Nat → Nat → List Nat → List (Nat × Int × Nat) × Bool
  | 0, _, _, _ => ([], false)
  | k + 1, prev, eid, bytes =>
    let de := eatEdge bytes
    let ngh := (prev + de.1) % U32
    let wb := eatWeight mode de.2
    if cb src ngh wb.1 eid then
      let rest := eatEdges mode cb src k ngh (eid + 1) wb.2
      ((ngh, wb.1, eid) :: rest.1, rest.2)
    else ([(ngh, wb.1, eid)], true)

/-- Decoding of one block of `endIdx - startIdx` edges from its edge bytes
(`start_offset < end_offset` guard, eatFirstEdge, then the edge loop). -/
def processBlock (mode : WMode) (cb : Nat → Nat → Int → Nat → Bool) (src : Nat)
    (startIdx endIdx : Nat) (bytes : List Nat) : List (Nat × Int × Nat) × Bool :=
  if startIdx < endIdx then
    let fe := eatFirstEdge src bytes
    let wb := eatWeight mode fe.2
    if cb src fe.1 wb.1 startIdx then
      let rest := eatEdges mode cb src (endIdx - startIdx - 1) fe.1 (startIdx + 1) wb.2
      ((fe.1, wb.1, startIdx) :: rest.1, rest.2)
    else ([(fe.1, wb.1, startIdx)], true)
  else ([], false)

/-- Decoding of block `i` of a region: locate the finger, read the start and
end offsets, and process the block. -/
def decodeBlockAt (mode : WMode) (cb : Nat → Nat → Int → Nat → Bool) (src : Nat)
    (r : List Nat) (nb d i : Nat) : List (Nat × Int × Nat) × Bool :=
  processBlock mode cb src (startOf r nb i) (endOf r nb d i) ((fingerAt r nb i).drop 4)

/-- Unweighted decode from byte_pd_amortized.h (the `pbbs::empty` overload):
the first chunk is done inline and a false callback there returns from the
whole decode; blocks 1.. are iterated (sequentially or in parallel) and a
false callback there only ends that block. -/
def decodeUnit (cb : Nat → Nat → Int → Nat → Bool) (r : List Nat) (src d : Nat) :
    List (Nat × Int × Nat) :=
  if d = 0 then []
  else if (decodeBlockAt .unit cb src r (numBlocksOf (read32 r)) d 0).2 then
    (decodeBlockAt .unit cb src r (numBlocksOf (read32 r)) d 0).1
  else (decodeBlockAt .unit cb src r (numBlocksOf (read32 r)) d 0).1 ++
    ((List.range (numBlocksOf (read32 r) - 1)).map
      (fun j => (decodeBlockAt .unit cb src r (numBlocksOf (read32 r)) d (j + 1)).1)).flatten

/-- Sequential block iteration of the weighted decode: a false callback in any
block returns from the whole decode. -/
def decodeSeqBlocks (mode : WMode) (cb : Nat → Nat → Int → Nat → Bool) (src : Nat)
    (r : List Nat) (nb d : Nat) (is : List Nat) : List (Nat × Int × Nat) :=
  match is with
  | [] => []
  | i :: is =>
    let p := decodeBlockAt mode cb src r nb d i
    if p.2 then p.1 else p.1 ++ decodeSeqBlocks mode cb src r nb d is

/-- Weighted decode from byte_pd_amortized.h (the `intE` overload): all blocks
sequentially, `return` on a false callback anywhere. -/
def decodeInt (cb : Nat → Nat → Int → Nat → Bool) (r : List Nat) (src d : Nat) :
    List (Nat × Int × Nat) :=
  if d = 0 then []
  else decodeSeqBlocks .int cb src r (numBlocksOf (read32 r)) d
    (List.range (numBlocksOf (read32 r)))

/-- decode, dispatched on the weight category exactly like the two `enable_if`
overloads of the source. -/
def decode (mode : WMode) (cb : Nat → Nat → Int → Nat → Bool) (r : List Nat)
    (src d : Nat) : List (Nat × Int × Nat) :=
  match mode with
  | .unit => decodeUnit cb r src d
  | .int => decodeInt cb r src d



/-- Reference behaviour of a block decode: visit the listed (neighbor, weight,
index) triples in order, stopping right after the first for which the callback
returns false. -/
def visitUntil (cb : Nat → Nat → Int → Nat → Bool) (src : Nat)
    (ts : List (Nat × Int × Nat)) : List (Nat × Int × Nat) × Bool :=
  match ts with
  | [] => ([], false)
  | t :: ts =>
    if cb src t.1 t.2.1 t.2.2 then
      let r := visitUntil cb src ts
      (t :: r.1, r.2)
    else ([t], true)

/-- The (neighbor, weight, index) triples of an edge list starting at edge
index `o`. -/
def triplesFrom (o : Nat) (edges : List (Nat × Int)) : List (Nat × Int × Nat) :=
  (edges.enumFrom o).map fun p => (p.2.1, p.2.2, p.1)

theorem triplesFrom_nil (o : Nat) : triplesFrom o [] = [] := rfl

theorem triplesFrom_cons (o : Nat) (e : Nat × Int) (edges : List (Nat × Int)) :
    triplesFrom o (e :: edges) = (e.1, e.2, o) :: triplesFrom (o + 1) edges := rfl

/-- Edge-list validity for a block or region: the source and all neighbors are
32-bit values, the weights fit their category, and neighbors strictly
increase. -/
def ValidEdges (mode : WMode) (src : Nat) (edges : List (Nat × Int)) : Prop :=
  src < U32 ∧ (∀ e ∈ edges, e.1 < U32 ∧ WOK mode e.2) ∧
    List.Chain' (· < ·) (edges.map Prod.fst)

/-- Executable strict-ascending check, used to discharge Chain' hypotheses on
concrete inputs by kernel computation. -/
def chainLtB : List Nat → Bool
  | [] => true
  | [_] => true
  | a :: b :: rest => a < b && chainLtB (b :: rest)

theorem chainLt_of_B : ∀ (l : List Nat), chainLtB l = true → List.Chain' (· < ·) l := by
  intro l
  induction l with
  | nil => intro _; exact List.chain'_nil
  | cons a l ih =>
    cases l with
    | nil => intro _; simp
    | cons b rest =>
      intro h
      simp only [chainLtB, Bool.and_eq_true, decide_eq_true_eq] at h
      exact List.Chain'.cons (by simpa using h.1) (ih (by simpa using h.2))

/-- The edge loop of a decode reproduces, on bytes written by encodeDeltas and
followed by anything, exactly the visit-until behaviour on the real triples. -/
theorem eatEdges_encodeDeltas (mode : WMode) (cb : Nat → Nat → Int → Nat → Bool)
    (src : Nat) :
    ∀ (edges : List (Nat × Int)) (prev eid : Nat) (rest : List Nat),
      prev < U32 → (∀ e ∈ edges, e.1 < U32 ∧ WOK mode e.2) →
      List.Chain' (· < ·) (prev :: edges.map Prod.fst) →
      eatEdges mode cb src edges.length prev eid (encodeDeltas mode prev edges ++ rest) =
        visitUntil cb src (triplesFrom eid edges) := by
  intro edges
  induction edges with
  | nil => intro prev eid rest _ _ _; rfl
  | cons e tl ih =>
    intro prev eid rest hprev hvals hchain
    obtain ⟨n, w⟩ := e
    have hn : n < U32 ∧ WOK mode w := hvals _ (List.mem_cons_self _ _)
    have hlt : prev < n := by
      have := List.chain'_cons.mp hchain
      simpa using this.1
    have hchain' : List.Chain' (· < ·) (n :: tl.map Prod.fst) := by
      have := List.chain'_cons.mp hchain
      simpa using this.2
    have hsub : sub32 n prev = n - prev := by
      simp only [sub32, U32] at *
      omega
    simp only [List.length_cons, encodeDeltas, List.append_assoc]
    simp only [eatEdges, hsub]
    rw [eatEdge_compressEdge (n - prev) (by omega) (by simp only [U32] at *; omega)]
    have hngh : (prev + (n - prev)) % U32 = n := by
      simp only [U32] at *
      omega
    simp only [hngh]
    rw [eatWeight_compressWeight mode w hn.2]
    rw [triplesFrom_cons]
    simp only [visitUntil]
    by_cases hcb : cb src n w eid
    · rw [if_pos hcb, if_pos hcb]
      rw [ih n (eid + 1) rest hn.1 (fun e he => hvals e (List.mem_cons_of_mem _ he)) hchain']
    · rw [if_neg hcb, if_neg hcb]

/-- A block decode reproduces, on bytes written by encodeBlockBody followed by
anything, exactly the visit-until behaviour on the block's triples. -/
theorem processBlock_encodeBlockBody (mode : WMode) (cb : Nat → Nat → Int → Nat → Bool)
    (src : Nat) (edges : List (Nat × Int)) (o : Nat) (rest : List Nat)
    (hv : ValidEdges mode src edges) :
    processBlock mode cb src o (o + edges.length) (encodeBlockBody mode src edges ++ rest) =
      visitUntil cb src (triplesFrom o edges) := by
  obtain ⟨hsrc, hvals, hchain⟩ := hv
  cases edges with
  | nil => simp [processBlock, visitUntil, triplesFrom]
  | cons e tl =>
    obtain ⟨n, w⟩ := e
    have hn : n < U32 ∧ WOK mode w := hvals _ (List.mem_cons_self _ _)
    simp only [encodeBlockBody, List.append_assoc, processBlock, List.length_cons]
    rw [if_pos (by omega)]
    rw [eatFirstEdge_compressFirstEdge src n hsrc hn.1]
    rw [eatWeight_compressWeight mode w hn.2]
    rw [triplesFrom_cons]
    simp only [visitUntil]
    by_cases hcb : cb src n w o
    · rw [if_pos hcb, if_pos hcb]
      have hlen : o + (tl.length + 1) - o - 1 = tl.length := by omega
      rw [hlen]
      rw [eatEdges_encodeDeltas mode cb src tl n (o + 1) rest hn.1
        (fun e he => hvals e (List.mem_cons_of_mem _ he)) (by simpa using hchain)]
    · rw [if_neg hcb, if_neg hcb]



theorem w32_length (n : Nat) : (w32 n).length = 4 := rfl

theorem read32_w32 (n : Nat) (h : n < U32) (rest : List Nat) :
    read32 (w32 n ++ rest) = n := by
  simp only [w32, read32, List.cons_append, List.getD_cons_zero, List.getD_cons_succ]
  simp only [U32] at h
  omega

theorem w32_append_drop4 (n : Nat) (rest : List Nat) : (w32 n ++ rest).drop 4 = rest := rfl

theorem drop_len_add (a : List Nat) (m : Nat) (x : List Nat) :
    (a ++ x).drop (a.length + m) = x.drop m := by
  induction a with
  | nil => simp
  | cons b bs ih =>
    simp only [List.cons_append, List.length_cons]
    rw [(by ring : bs.length + 1 + m = bs.length + m + 1), List.drop_succ_cons, ih]

/-- Total byte length of a list of blocks. -/
def lenSum (bs : List (List Nat)) : Nat :=
  (bs.map List.length).sum

theorem lenSum_nil : lenSum [] = 0 := rfl

theorem lenSum_cons (b : List Nat) (bs : List (List Nat)) :
    lenSum (b :: bs) = b.length + lenSum bs := by
  simp [lenSum]

theorem drop_flatten_append (t : List Nat) :
    ∀ (bs : List (List Nat)) (k : Nat),
      (bs.flatten ++ t).drop (lenSum (bs.take k)) = (bs.drop k).flatten ++ t := by
  intro bs
  induction bs with
  | nil => intro k; simp [lenSum]
  | cons b bs ih =>
    intro k
    cases k with
    | zero => simp [lenSum]
    | succ k =>
      simp only [List.take_succ_cons, lenSum_cons, List.flatten_cons, List.drop_succ_cons,
        List.append_assoc]
      rw [drop_len_add b _ _, ih k]

theorem flatten_map_w32_length (ns : List Nat) : ((ns.map w32).flatten).length = 4 * ns.length := by
  induction ns with
  | nil => rfl
  | cons n ns ih => simp [w32, ih]; ring

theorem drop_flatten_w32 (t : List Nat) :
    ∀ (ns : List Nat) (k : Nat), k ≤ ns.length →
      ((ns.map w32).flatten ++ t).drop (4 * k) = ((ns.drop k).map w32).flatten ++ t := by
  intro ns
  induction ns with
  | nil =>
    intro k hk
    simp at hk
    simp [hk]
  | cons n ns ih =>
    intro k hk
    cases k with
    | zero => simp
    | succ k =>
      simp only [List.map_cons, List.flatten_cons, List.drop_succ_cons, List.append_assoc]
      have h4 : 4 * (k + 1) = (w32 n).length + 4 * k := by simp [w32_length]; ring
      rw [h4, drop_len_add, ih k (by simpa using hk)]

theorem offsetsFrom_length (bs : List (List Nat)) :
    ∀ pos, (offsetsFrom pos bs).length = bs.length := by
  induction bs with
  | nil => intro pos; rfl
  | cons b bs ih => intro pos; simp [offsetsFrom, ih]

theorem offsetsFrom_getD (bs : List (List Nat)) :
    ∀ (pos i : Nat), i < bs.length →
      (offsetsFrom pos bs).getD i 0 = pos + lenSum (bs.take (i + 1)) := by
  induction bs with
  | nil => intro pos i h; simp at h
  | cons b bs ih =>
    intro pos i h
    cases i with
    | zero => simp [offsetsFrom, lenSum_cons, lenSum_nil]
    | succ i =>
      simp only [offsetsFrom, List.getD_cons_succ, List.take_succ_cons, lenSum_cons]
      rw [ih (pos + b.length) i (by simpa using h)]
      ring

theorem getD_dropLast (l : List Nat) (i : Nat) (h : i + 1 < l.length) :
    (l.dropLast).getD i 0 = l.getD i 0 := by
  have h1 : i < l.dropLast.length := by
    simp only [List.length_dropLast]
    omega
  have h2 : i < l.length := by omega
  rw [List.getD_eq_getElem _ _ h1, List.getD_eq_getElem _ _ h2]
  apply List.getElem_dropLast



theorem lenSum_take_le (bs : List (List Nat)) (k : Nat) : lenSum (bs.take k) ≤ lenSum bs := by
  induction bs generalizing k with
  | nil => simp [lenSum]
  | cons b bs ih =>
    cases k with
    | zero => simp [lenSum]
    | succ k =>
      simp only [List.take_succ_cons, lenSum_cons]
      exact Nat.add_le_add_left (ih k) _

/-- A region as laid out by the writers: virtual degree, stored block offsets,
the blocks, then whatever bytes follow the encoding. -/
def mkRegion (blocks : List (List Nat)) (vd : Nat) (tail : List Nat) : List Nat :=
  w32 vd ++ (((offsetsFrom (4 * blocks.length) blocks).dropLast).map w32).flatten ++
    blocks.flatten ++ tail

theorem mkRegion_read32 (blocks : List (List Nat)) (vd : Nat) (tail : List Nat)
    (hvd : vd < U32) : read32 (mkRegion blocks vd tail) = vd := by
  rw [mkRegion, List.append_assoc, List.append_assoc]
  exact read32_w32 vd hvd _

theorem drop_at (n : Nat) (a x : List Nat) (h : n = a.length) : (a ++ x).drop n = x := by
  subst h
  simp

theorem drop_at_add (n m : Nat) (a x : List Nat) (h : n = a.length + m) :
    (a ++ x).drop n = x.drop m := by
  subst h
  exact drop_len_add a m x

theorem mkRegion_assoc1 (blocks : List (List Nat)) (vd : Nat) (tail : List Nat) :
    mkRegion blocks vd tail =
      (w32 vd ++ (((offsetsFrom (4 * blocks.length) blocks).dropLast).map w32).flatten) ++
        (blocks.flatten ++ tail) := by
  simp [mkRegion, List.append_assoc]

theorem mkRegion_assoc2 (blocks : List (List Nat)) (vd : Nat) (tail : List Nat) :
    mkRegion blocks vd tail =
      w32 vd ++ ((((offsetsFrom (4 * blocks.length) blocks).dropLast).map w32).flatten ++
        (blocks.flatten ++ tail)) := by
  simp [mkRegion, List.append_assoc]

theorem mkRegion_finger (blocks : List (List Nat)) (vd : Nat) (tail : List Nat)
    (htot : 4 * blocks.length + lenSum blocks < U32) :
    ∀ i, i < blocks.length →
      fingerAt (mkRegion blocks vd tail) blocks.length i = (blocks.drop i).flatten ++ tail := by
  intro i hi
  have hOSfull : (offsetsFrom (4 * blocks.length) blocks).length = blocks.length :=
    offsetsFrom_length _ _
  have hOSlen : ((offsetsFrom (4 * blocks.length) blocks).dropLast).length =
      blocks.length - 1 := by
    simp [List.length_dropLast, hOSfull]
  have hpre : (w32 vd ++
      (((offsetsFrom (4 * blocks.length) blocks).dropLast).map w32).flatten).length =
      4 * blocks.length := by
    simp only [List.length_append, flatten_map_w32_length, w32_length, hOSlen]
    omega
  rcases Nat.eq_zero_or_pos i with h0 | h0
  · subst h0
    rw [fingerAt, if_pos rfl, mkRegion_assoc1]
    rw [drop_at _ _ _ hpre.symm]
    simp
  · rw [fingerAt, if_neg (by omega)]
    have hi1 : i - 1 < ((offsetsFrom (4 * blocks.length) blocks).dropLast).length := by
      omega
    have hoff : blockOffset (mkRegion blocks vd tail) (i - 1) =
        4 * blocks.length + lenSum (blocks.take i) := by
      rw [blockOffset, read32At, mkRegion_assoc2]
      rw [drop_at_add _ (4 * (i - 1)) _ _ (by rw [w32_length])]
      rw [drop_flatten_w32 _ _ (i - 1) (by omega)]
      rw [List.drop_eq_getElem_cons hi1]
      simp only [List.map_cons, List.flatten_cons, List.append_assoc]
      have hval : ((offsetsFrom (4 * blocks.length) blocks).dropLast)[i - 1] =
          4 * blocks.length + lenSum (blocks.take i) := by
        rw [← List.getD_eq_getElem _ 0 hi1]
        rw [getD_dropLast _ _ (by omega)]
        have := offsetsFrom_getD blocks (4 * blocks.length) (i - 1) (by omega)
        rw [this, (by omega : i - 1 + 1 = i)]
      rw [hval]
      exact read32_w32 _ (by have := lenSum_take_le blocks i; omega) _
    rw [hoff, mkRegion_assoc1]
    rw [drop_at_add _ (lenSum (blocks.take i)) _ _ (by rw [hpre])]
    exact drop_flatten_append tail blocks i

theorem mkRegion_start (blocks : List (List Nat)) (vd : Nat) (tail : List Nat)
    (starts : Nat → Nat)
    (htot : 4 * blocks.length + lenSum blocks < U32)
    (hblocks : ∀ i, i < blocks.length → ∃ body, blocks.getD i [] = w32 (starts i) ++ body)
    (hstarts : ∀ i, i < blocks.length → starts i < U32) :
    ∀ i, i < blocks.length →
      startOf (mkRegion blocks vd tail) blocks.length i = starts i := by
  intro i hi
  rw [startOf, mkRegion_finger blocks vd tail htot i hi]
  obtain ⟨body, hbody⟩ := hblocks i hi
  rw [List.drop_eq_getElem_cons hi, ← List.getD_eq_getElem _ [] hi, hbody]
  simp only [List.flatten_cons, List.append_assoc]
  exact read32_w32 _ (hstarts i hi) _

theorem mkRegion_endOf (blocks : List (List Nat)) (vd : Nat) (tail : List Nat)
    (starts : Nat → Nat) (d : Nat)
    (htot : 4 * blocks.length + lenSum blocks < U32)
    (hblocks : ∀ i, i < blocks.length → ∃ body, blocks.getD i [] = w32 (starts i) ++ body)
    (hstarts : ∀ i, i < blocks.length → starts i < U32) :
    ∀ i, i + 1 < blocks.length →
      endOf (mkRegion blocks vd tail) blocks.length d i = starts (i + 1) := by
  intro i hi
  rw [endOf, if_neg (by omega)]
  have hfi : read32At (mkRegion blocks vd tail) (blockOffset (mkRegion blocks vd tail) i) =
      startOf (mkRegion blocks vd tail) blocks.length (i + 1) := by
    rw [startOf, fingerAt, if_neg (Nat.succ_ne_zero i)]
    rfl
  rw [hfi]
  exact mkRegion_start blocks vd tail starts htot hblocks hstarts (i + 1) hi


theorem encodeBlocks_nil (mode : WMode) (src o : Nat) :
    encodeBlocks mode src [] o = [] := rfl

theorem encodeBlocks_cons (mode : WMode) (src o : Nat) (edges : List (Nat × Int))
    (h : edges ≠ []) :
    encodeBlocks mode src edges o =
      encodeBlock mode src o (edges.take PARALLEL_DEGREE) ::
        encodeBlocks mode src (edges.drop PARALLEL_DEGREE) (o + PARALLEL_DEGREE) := by
  rw [encodeBlocks_unfold, if_neg h]

theorem encodeBlocks_length (mode : WMode) (src : Nat) :
    ∀ (n : Nat) (edges : List (Nat × Int)) (o : Nat), edges.length ≤ n → edges ≠ [] →
      (encodeBlocks mode src edges o).length = 1 + (edges.length - 1) / PARALLEL_DEGREE := by
  intro n
  induction n with
  | zero =>
    intro edges o hlen hne
    cases edges with
    | nil => exact absurd rfl hne
    | cons e tl => simp at hlen
  | succ n ih =>
    intro edges o hlen hne
    rw [encodeBlocks_cons mode src o edges hne, List.length_cons]
    have hpos : 0 < edges.length := List.length_pos.mpr hne
    by_cases hsmall : edges.length ≤ PARALLEL_DEGREE
    · have hdrop : edges.drop PARALLEL_DEGREE = [] := by
        apply List.drop_eq_nil_of_le
        exact hsmall
      rw [hdrop, encodeBlocks_nil]
      simp only [List.length_nil, PARALLEL_DEGREE] at *
      omega
    · push_neg at hsmall
      have hne' : edges.drop PARALLEL_DEGREE ≠ [] := by
        apply List.ne_nil_of_length_pos
        simp only [List.length_drop, PARALLEL_DEGREE] at *
        omega
      rw [ih _ _ (by simp only [List.length_drop, PARALLEL_DEGREE] at *; omega) hne']
      simp only [List.length_drop, PARALLEL_DEGREE] at *
      omega

theorem encodeBlocks_getD (mode : WMode) (src : Nat) :
    ∀ (n : Nat) (edges : List (Nat × Int)) (o i : Nat), edges.length ≤ n →
      i < (encodeBlocks mode src edges o).length →
      (encodeBlocks mode src edges o).getD i [] =
        encodeBlock mode src (o + PARALLEL_DEGREE * i)
          ((edges.drop (PARALLEL_DEGREE * i)).take PARALLEL_DEGREE) := by
  intro n
  induction n with
  | zero =>
    intro edges o i hlen hi
    cases edges with
    | nil => rw [encodeBlocks_nil] at hi; simp at hi
    | cons e tl => simp at hlen
  | succ n ih =>
    intro edges o i hlen hi
    have hne : edges ≠ [] := by
      intro h
      rw [h, encodeBlocks_nil] at hi
      simp at hi
    rw [encodeBlocks_cons mode src o edges hne] at hi ⊢
    cases i with
    | zero => simp
    | succ i =>
      simp only [List.getD_cons_succ]
      rw [ih (edges.drop PARALLEL_DEGREE) (o + PARALLEL_DEGREE) i
        (by simp only [List.length_drop, PARALLEL_DEGREE] at *; omega) (by simpa using hi)]
      rw [List.drop_drop]
      have h1 : o + PARALLEL_DEGREE + PARALLEL_DEGREE * i = o + PARALLEL_DEGREE * (i + 1) := by
        ring
      have h2 : PARALLEL_DEGREE * i + PARALLEL_DEGREE = PARALLEL_DEGREE * (i + 1) := by
        ring
      have h3 : PARALLEL_DEGREE + PARALLEL_DEGREE * i = PARALLEL_DEGREE * (i + 1) := by
        ring
      rw [h1]
      first
      | rw [h2]
      | rw [h3]

/-- The region written by sequentialCompressEdgeSet, followed by any garbage,
is an mkRegion over its blocks. -/
theorem sequentialCompressEdgeSet_eq_mkRegion (mode : WMode) (src : Nat)
    (edges : List (Nat × Int)) (tail : List Nat) (hne : edges ≠ []) :
    sequentialCompressEdgeSet mode src edges ++ tail =
      mkRegion (encodeBlocks mode src edges 0) edges.length tail := by
  rw [sequentialCompressEdgeSet, if_neg hne]
  have hlen := encodeBlocks_length mode src edges.length edges 0 le_rfl hne
  rw [mkRegion, hlen]


theorem ValidEdges_sublist (mode : WMode) (src : Nat) (edges edges' : List (Nat × Int))
    (hsub : edges'.Sublist edges) (hv : ValidEdges mode src edges) :
    ValidEdges mode src edges' := by
  obtain ⟨hsrc, hvals, hchain⟩ := hv
  refine ⟨hsrc, fun e he => hvals e (hsub.mem he), ?_⟩
  rw [List.chain'_iff_pairwise] at hchain ⊢
  exact List.Pairwise.sublist (hsub.map Prod.fst) hchain

/-- The chunk of edges encoded in block `i`. -/
def chunkAt (edges : List (Nat × Int)) (i : Nat) : List (Nat × Int) :=
  (edges.drop (PARALLEL_DEGREE * i)).take PARALLEL_DEGREE

theorem ValidEdges_chunkAt (mode : WMode) (src : Nat) (edges : List (Nat × Int))
    (hv : ValidEdges mode src edges) (i : Nat) :
    ValidEdges mode src (chunkAt edges i) :=
  ValidEdges_sublist mode src edges _
    ((List.take_sublist _ _).trans (List.drop_sublist _ _)) hv

theorem chunkAt_length (edges : List (Nat × Int)) (i : Nat) :
    (chunkAt edges i).length = min PARALLEL_DEGREE (edges.length - PARALLEL_DEGREE * i) := by
  simp [chunkAt]

/-- visitUntil with the constant-true callback visits everything and does not
stop. -/
theorem visitUntil_true (src : Nat) (ts : List (Nat × Int × Nat)) :
    visitUntil (fun _ _ _ _ => true) src ts = (ts, false) := by
  induction ts with
  | nil => rfl
  | cons t ts ih => simp [visitUntil, ih]

theorem triplesFrom_append (o : Nat) (a b : List (Nat × Int)) :
    triplesFrom o (a ++ b) = triplesFrom o a ++ triplesFrom (o + a.length) b := by
  simp [triplesFrom, List.enumFrom_append]

theorem flatten_triples : ∀ (m : Nat) (edges : List (Nat × Int)) (o : Nat),
    edges.length ≤ PARALLEL_DEGREE * m →
    ((List.range m).map
      (fun i => triplesFrom (o + PARALLEL_DEGREE * i) (chunkAt edges i))).flatten =
      triplesFrom o edges := by
  intro m
  induction m with
  | zero =>
    intro edges o hlen
    rw [Nat.mul_zero, Nat.le_zero, List.length_eq_zero] at hlen
    subst hlen
    simp [triplesFrom_nil]
  | succ m ih =>
    intro edges o hlen
    rw [List.range_succ_eq_map]
    simp only [List.map_cons, List.map_map, List.flatten_cons]
    have hhead : triplesFrom (o + PARALLEL_DEGREE * 0) (chunkAt edges 0) =
        triplesFrom o (edges.take PARALLEL_DEGREE) := by
      simp [chunkAt]
    rw [hhead]
    have hcomp : ((List.range m).map
        ((fun i => triplesFrom (o + PARALLEL_DEGREE * i) (chunkAt edges i)) ∘ (· + 1))) =
        ((List.range m).map
          (fun i => triplesFrom (o + PARALLEL_DEGREE + PARALLEL_DEGREE * i)
            (chunkAt (edges.drop PARALLEL_DEGREE) i))) := by
      apply List.map_congr_left
      intro i hi
      have e1 : o + PARALLEL_DEGREE * (i + 1) = o + PARALLEL_DEGREE + PARALLEL_DEGREE * i := by
        ring
      have e2 : chunkAt edges (i + 1) = chunkAt (edges.drop PARALLEL_DEGREE) i := by
        simp only [chunkAt, List.drop_drop]
        rw [(by ring : PARALLEL_DEGREE + PARALLEL_DEGREE * i = PARALLEL_DEGREE * (i + 1))]
      simp only [Function.comp_apply, e1, e2]
    rw [hcomp, ih (edges.drop PARALLEL_DEGREE) (o + PARALLEL_DEGREE)
      (by simp only [List.length_drop, PARALLEL_DEGREE] at *; omega)]
    by_cases hsmall : edges.length ≤ PARALLEL_DEGREE
    · rw [List.drop_eq_nil_of_le hsmall, triplesFrom_nil, List.append_nil,
        List.take_of_length_le hsmall]
    · conv_rhs => rw [← List.take_append_drop PARALLEL_DEGREE edges]
      rw [triplesFrom_append]
      congr 2
      rw [List.length_take]
      omega


theorem numBlocksOf_pos (vd : Nat) : 0 < numBlocksOf vd := by
  simp [numBlocksOf]

theorem encodeBlocks_length_eq (mode : WMode) (src : Nat) (edges : List (Nat × Int))
    (hne : edges ≠ []) :
    (encodeBlocks mode src edges 0).length = numBlocksOf edges.length :=
  encodeBlocks_length mode src edges.length edges 0 le_rfl hne

theorem chunkAt_ne_nil (edges : List (Nat × Int)) (i : Nat) (hne : edges ≠ [])
    (hi : i < numBlocksOf edges.length) : chunkAt edges i ≠ [] := by
  apply List.ne_nil_of_length_pos
  rw [chunkAt_length]
  have hpos : 0 < edges.length := List.length_pos.mpr hne
  simp only [numBlocksOf, PARALLEL_DEGREE] at *
  omega

theorem start_lt_deg (edges : List (Nat × Int)) (i : Nat) (hne : edges ≠ [])
    (hi : i < numBlocksOf edges.length) : PARALLEL_DEGREE * i < edges.length := by
  have hpos : 0 < edges.length := List.length_pos.mpr hne
  simp only [numBlocksOf, PARALLEL_DEGREE] at *
  omega

/-- On a freshly encoded region (followed by any garbage bytes), decoding
block `i` performs exactly the visit-until behaviour on the edges of chunk
`i`. -/
theorem decodeBlockAt_encode (mode : WMode) (cb : Nat → Nat → Int → Nat → Bool)
    (src : Nat) (edges : List (Nat × Int)) (tail : List Nat)
    (hne : edges ≠ []) (hv : ValidEdges mode src edges)
    (hd : edges.length < U32)
    (htot : 4 * numBlocksOf edges.length + lenSum (encodeBlocks mode src edges 0) < U32) :
    ∀ i, i < numBlocksOf edges.length →
      decodeBlockAt mode cb src (sequentialCompressEdgeSet mode src edges ++ tail)
        (numBlocksOf edges.length) edges.length i =
      visitUntil cb src (triplesFrom (PARALLEL_DEGREE * i) (chunkAt edges i)) := by
  intro i hi
  have hblen := encodeBlocks_length_eq mode src edges hne
  set blocks := encodeBlocks mode src edges 0 with hblocks_def
  have hr := sequentialCompressEdgeSet_eq_mkRegion mode src edges tail hne
  have htot' : 4 * blocks.length + lenSum blocks < U32 := by rw [hblen]; exact htot
  have hgetD : ∀ j, j < blocks.length → blocks.getD j [] =
      w32 (PARALLEL_DEGREE * j) ++ encodeBlockBody mode src (chunkAt edges j) := by
    intro j hj
    rw [hblocks_def, encodeBlocks_getD mode src edges.length edges 0 j le_rfl
      (by rw [← hblocks_def]; exact hj)]
    simp [encodeBlock, chunkAt]
  have hstarts : ∀ j, j < blocks.length → PARALLEL_DEGREE * j < U32 := by
    intro j hj
    have := start_lt_deg edges j hne (by rw [← hblen]; exact hj)
    omega
  have hexists : ∀ j, j < blocks.length →
      ∃ body, blocks.getD j [] = w32 (PARALLEL_DEGREE * j) ++ body := by
    intro j hj
    exact ⟨_, hgetD j hj⟩
  have hstart := mkRegion_start blocks edges.length tail (fun j => PARALLEL_DEGREE * j)
    htot' hexists hstarts
  rw [hblen] at hstart
  have hendOf : endOf (mkRegion blocks edges.length tail) blocks.length edges.length i =
      PARALLEL_DEGREE * i + (chunkAt edges i).length := by
    have hnb1 : 0 < numBlocksOf edges.length := numBlocksOf_pos _
    have hpos : 0 < edges.length := List.length_pos.mpr hne
    by_cases hlast : i = blocks.length - 1
    · rw [endOf, if_pos hlast]
      rw [chunkAt_length]
      rw [hblen] at hlast
      subst hlast
      simp only [numBlocksOf, PARALLEL_DEGREE] at *
      omega
    · rw [mkRegion_endOf blocks edges.length tail (fun j => PARALLEL_DEGREE * j)
        edges.length htot' hexists hstarts i (by omega)]
      rw [chunkAt_length]
      have hi1 : i + 1 < numBlocksOf edges.length := by rw [← hblen]; omega
      simp only [numBlocksOf, PARALLEL_DEGREE] at *
      omega
  have hfinger : (fingerAt (mkRegion blocks edges.length tail) blocks.length i).drop 4 =
      encodeBlockBody mode src (chunkAt edges i) ++
        ((blocks.drop (i + 1)).flatten ++ tail) := by
    rw [mkRegion_finger blocks edges.length tail htot' i (by rw [hblen]; exact hi)]
    have hib : i < blocks.length := by rw [hblen]; exact hi
    have hget : blocks.drop i = blocks.getD i [] :: blocks.drop (i + 1) := by
      rw [List.getD_eq_getElem _ [] hib]
      exact List.drop_eq_getElem_cons hib
    rw [hget, hgetD i hib]
    simp only [List.flatten_cons, List.append_assoc]
    rw [w32_append_drop4]
  rw [hblen] at hendOf hfinger
  rw [hr, decodeBlockAt, ← hblocks_def]
  rw [hstart i hi, hendOf, hfinger]
  exact processBlock_encodeBlockBody mode cb src (chunkAt edges i) (PARALLEL_DEGREE * i) _
    (ValidEdges_chunkAt mode src edges hv i)


theorem decodeSeqBlocks_flatten (mode : WMode) (cb : Nat → Nat → Int → Nat → Bool)
    (src : Nat) (r : List Nat) (nb d : Nat) :
    ∀ (is : List Nat), (∀ i ∈ is, (decodeBlockAt mode cb src r nb d i).2 = false) →
    decodeSeqBlocks mode cb src r nb d is =
      (is.map (fun i => (decodeBlockAt mode cb src r nb d i).1)).flatten := by
  intro is
  induction is with
  | nil => intro h; rfl
  | cons i is ih =>
    intro h
    rw [decodeSeqBlocks]
    rw [h i (List.mem_cons_self _ _), ih (fun j hj => h j (List.mem_cons_of_mem _ hj))]
    simp

theorem sequentialCompressEdgeSet_length (mode : WMode) (src : Nat)
    (edges : List (Nat × Int)) (hne : edges ≠ []) :
    (sequentialCompressEdgeSet mode src edges).length =
      4 * numBlocksOf edges.length + lenSum (encodeBlocks mode src edges 0) := by
  have hr := sequentialCompressEdgeSet_eq_mkRegion mode src edges [] hne
  rw [List.append_nil] at hr
  rw [hr, mkRegion]
  have hblen := encodeBlocks_length_eq mode src edges hne
  have hnb : 0 < numBlocksOf edges.length := numBlocksOf_pos _
  simp only [List.length_append, flatten_map_w32_length, w32_length, List.length_dropLast,
    offsetsFrom_length, List.length_nil]
  rw [hblen]
  have h1 : (encodeBlocks mode src edges 0).flatten.length =
      lenSum (encodeBlocks mode src edges 0) := by
    rw [List.length_flatten]
    rfl
  rw [h1]
  omega

/-- Full decode with the constant-true callback over a freshly encoded region,
for either weight category and either decode overload: the visit trace is
exactly the edge list with its indices. -/
theorem decode_encode_trace (mode : WMode) (src : Nat) (edges : List (Nat × Int))
    (hv : ValidEdges mode src edges) (hd : edges.length < U32)
    (hbytes : (sequentialCompressEdgeSet mode src edges).length < U32) (tail : List Nat) :
    decode mode (fun _ _ _ _ => true) (sequentialCompressEdgeSet mode src edges ++ tail)
        src edges.length = triplesFrom 0 edges := by
  by_cases hne : edges = []
  · subst hne
    cases mode <;> rfl
  have hd0 : edges.length ≠ 0 := fun h => hne (List.length_eq_zero.mp h)
  have hblen := encodeBlocks_length_eq mode src edges hne
  have htot : 4 * numBlocksOf edges.length + lenSum (encodeBlocks mode src edges 0) < U32 := by
    rw [← sequentialCompressEdgeSet_length mode src edges hne]
    exact hbytes
  have hread : read32 (sequentialCompressEdgeSet mode src edges ++ tail) = edges.length := by
    rw [sequentialCompressEdgeSet_eq_mkRegion mode src edges tail hne]
    exact mkRegion_read32 _ _ _ hd
  have hblk := decodeBlockAt_encode mode (fun _ _ _ _ => true) src edges tail hne hv hd htot
  have hflat := flatten_triples (numBlocksOf edges.length) edges 0
    (by
      have hpos : 0 < edges.length := List.length_pos.mpr hne
      simp only [numBlocksOf, PARALLEL_DEGREE] at *
      omega)
  simp only [Nat.zero_add] at hflat
  have hnb1 : 0 < numBlocksOf edges.length := numBlocksOf_pos _
  cases mode with
  | unit =>
    rw [decode, decodeUnit, if_neg hd0, hread]
    have h0 := hblk 0 hnb1
    rw [visitUntil_true] at h0
    rw [h0, if_neg (by simp)]
    simp only []
    have hrest : ∀ j, j < numBlocksOf edges.length - 1 →
        (decodeBlockAt .unit (fun _ _ _ _ => true) src
          (sequentialCompressEdgeSet .unit src edges ++ tail)
          (numBlocksOf edges.length) edges.length (j + 1)).1 =
        triplesFrom (PARALLEL_DEGREE * (j + 1)) (chunkAt edges (j + 1)) := by
      intro j hj
      rw [hblk (j + 1) (by omega), visitUntil_true]
    rw [← hflat]
    conv_rhs => rw [(by omega : numBlocksOf edges.length = (numBlocksOf edges.length - 1) + 1)]
    rw [List.range_succ_eq_map]
    simp only [List.map_cons, List.map_map, List.flatten_cons, Nat.mul_zero]
    congr 1
    congr 1
    apply List.map_congr_left
    intro j hj
    rw [List.mem_range] at hj
    simp only [Function.comp_apply, Nat.succ_eq_add_one]
    rw [hrest j hj]
  | int =>
    rw [decode, decodeInt, if_neg hd0, hread]
    rw [decodeSeqBlocks_flatten _ _ _ _ _ _ _
      (by
        intro i hi
        rw [List.mem_range] at hi
        rw [hblk i hi, visitUntil_true])]
    rw [← hflat]
    congr 1
    apply List.map_congr_left
    intro i hi
    rw [List.mem_range] at hi
    rw [hblk i hi, visitUntil_true]


/-- C1: Codec round-trip. For every source vertex, every strictly increasing
32-bit neighbor sequence and matching weights (unit or signed 32-bit),
decoding a region written by sequentialCompressEdgeSet invokes the callback
exactly once per edge, the i-th invocation receiving (src, nghs[i],
weights[i], i): the visit trace of decode equals the indexed edge list. -/
theorem C1_codec_roundtrip (mode : WMode) (src : Nat) (edges : List (Nat × Int))
    (hv : ValidEdges mode src edges) (hd : edges.length < U32)
    (hbytes : (sequentialCompressEdgeSet mode src edges).length < U32) :
    decode mode (fun _ _ _ _ => true) (sequentialCompressEdgeSet mode src edges)
        src edges.length = triplesFrom 0 edges := by
  have h := decode_encode_trace mode src edges hv hd hbytes []
  rwa [List.append_nil] at h

theorem C1_codec_roundtrip_witness :
    ValidEdges .unit 0 [(3, 0), (7, 0), (32775, 0), (32776, 0)] ∧
    decode .unit (fun _ _ _ _ => true)
        (sequentialCompressEdgeSet .unit 0 [(3, 0), (7, 0), (32775, 0), (32776, 0)]) 0
        ([(3, 0), (7, 0), (32775, 0), (32776, 0)] :
          List (Nat × Int)).length =
      triplesFrom 0 [(3, 0), (7, 0), (32775, 0), (32776, 0)] := by
  have hv : ValidEdges .unit 0 [(3, 0), (7, 0), (32775, 0), (32776, 0)] :=
    ⟨by decide, by decide, chainLt_of_B _ (by decide)⟩
  exact ⟨hv, C1_codec_roundtrip .unit 0 [(3, 0), (7, 0), (32775, 0), (32776, 0)]
    hv (by decide) (by decide)⟩


/-- The triples of block `i` of an edge list. -/
def chunkTriples (edges : List (Nat × Int)) (i : Nat) : List (Nat × Int × Nat) :=
  triplesFrom (PARALLEL_DEGREE * i) (chunkAt edges i)

/-- Reference behaviour of the unweighted decode: visit block 0 up to the
first false; a false there ends the whole decode, otherwise every later block
is visited independently up to its own first false. -/
def unitDecodeSpec (cb : Nat → Nat → Int → Nat → Bool) (src : Nat)
    (edges : List (Nat × Int)) : List (Nat × Int × Nat) :=
  if (visitUntil cb src (chunkTriples edges 0)).2 then
    (visitUntil cb src (chunkTriples edges 0)).1
  else (visitUntil cb src (chunkTriples edges 0)).1 ++
    ((List.range (numBlocksOf edges.length - 1)).map
      (fun j => (visitUntil cb src (chunkTriples edges (j + 1))).1)).flatten

/-- Reference behaviour of the weighted decode: visit blocks in order, and a
false callback anywhere ends the whole decode. -/
def seqVisitBlocks (cb : Nat → Nat → Int → Nat → Bool) (src : Nat) :
    List (List (Nat × Int × Nat)) → List (Nat × Int × Nat)
  | [] => []
  | ts :: rest =>
    if (visitUntil cb src ts).2 then (visitUntil cb src ts).1
    else (visitUntil cb src ts).1 ++ seqVisitBlocks cb src rest

def intDecodeSpec (cb : Nat → Nat → Int → Nat → Bool) (src : Nat)
    (edges : List (Nat × Int)) : List (Nat × Int × Nat) :=
  seqVisitBlocks cb src
    ((List.range (numBlocksOf edges.length)).map (chunkTriples edges))

/-- Reference behaviour of decode, per weight category. -/
def decodeSpec (mode : WMode) (cb : Nat → Nat → Int → Nat → Bool) (src : Nat)
    (edges : List (Nat × Int)) : List (Nat × Int × Nat) :=
  match mode with
  | .unit => unitDecodeSpec cb src edges
  | .int => intDecodeSpec cb src edges

theorem decodeSeqBlocks_eq_seqVisit (mode : WMode) (cb : Nat → Nat → Int → Nat → Bool)
    (src : Nat) (r : List Nat) (nb d : Nat) (edges : List (Nat × Int)) :
    ∀ (is : List Nat),
      (∀ i ∈ is, decodeBlockAt mode cb src r nb d i =
        visitUntil cb src (chunkTriples edges i)) →
      decodeSeqBlocks mode cb src r nb d is =
        seqVisitBlocks cb src (is.map (chunkTriples edges)) := by
  intro is
  induction is with
  | nil => intro _; rfl
  | cons i is ih =>
    intro h
    rw [decodeSeqBlocks, h i (List.mem_cons_self _ _), List.map_cons, seqVisitBlocks]
    by_cases hstop : (visitUntil cb src (chunkTriples edges i)).2
    · rw [if_pos hstop, if_pos hstop]
    · rw [if_neg hstop, if_neg hstop, ih (fun j hj => h j (List.mem_cons_of_mem _ hj))]

/-- C4 (amended): decode short-circuiting on a freshly encoded region.  In the
unweighted decode, a false callback in a block `i ≥ 1` skips only the rest of
block `i` while every other block is still visited, but a false callback in
block 0 ends the entire decode; in the integer-weighted decode a false
callback in any block ends the entire decode. -/
theorem C4_short_circuit_amended (mode : WMode) (cb : Nat → Nat → Int → Nat → Bool)
    (src : Nat) (edges : List (Nat × Int))
    (hv : ValidEdges mode src edges) (hd : edges.length < U32)
    (hbytes : (sequentialCompressEdgeSet mode src edges).length < U32) :
    decode mode cb (sequentialCompressEdgeSet mode src edges) src edges.length =
      decodeSpec mode cb src edges := by
  by_cases hne : edges = []
  · subst hne
    cases mode <;> rfl
  have hd0 : edges.length ≠ 0 := fun h => hne (List.length_eq_zero.mp h)
  have htot : 4 * numBlocksOf edges.length + lenSum (encodeBlocks mode src edges 0) < U32 := by
    rw [← sequentialCompressEdgeSet_length mode src edges hne]
    exact hbytes
  have hread : read32 (sequentialCompressEdgeSet mode src edges) = edges.length := by
    have h := sequentialCompressEdgeSet_eq_mkRegion mode src edges [] hne
    rw [List.append_nil] at h
    rw [h]
    exact mkRegion_read32 _ _ _ hd
  have hblk' := decodeBlockAt_encode mode cb src edges [] hne hv hd htot
  simp only [List.append_nil] at hblk'
  have hblk : ∀ i, i < numBlocksOf edges.length →
      decodeBlockAt mode cb src (sequentialCompressEdgeSet mode src edges)
        (numBlocksOf edges.length) edges.length i =
      visitUntil cb src (chunkTriples edges i) := by
    intro i hi
    rw [hblk' i hi]
    rfl
  have hnb1 : 0 < numBlocksOf edges.length := numBlocksOf_pos _
  cases mode with
  | unit =>
    rw [decode, decodeUnit, if_neg hd0, hread, decodeSpec]
    rw [hblk 0 hnb1, unitDecodeSpec]
    by_cases hstop : (visitUntil cb src (chunkTriples edges 0)).2
    · rw [if_pos hstop, if_pos hstop]
    · rw [if_neg hstop, if_neg hstop]
      congr 1
      congr 1
      apply List.map_congr_left
      intro j hj
      rw [List.mem_range] at hj
      rw [hblk (j + 1) (by omega)]
  | int =>
    rw [decode, decodeInt, if_neg hd0, hread, decodeSpec, intDecodeSpec]
    exact decodeSeqBlocks_eq_seqVisit .int cb src _ _ _ edges _
      (fun i hi => hblk i (by rw [List.mem_range] at hi; exact hi))

/-- Concrete edge list with 1001 strictly increasing neighbors (two blocks). -/
def c4Edges : List (Nat × Int) :=
  (List.range 1001).map (fun i => (i + 1, 0))

/-- C4 counterexample: on a freshly encoded 1001-neighbor list (blocks 0 and
1), a callback that returns false on the very first edge (which lies in block
0) stops the whole unweighted decode: the only invocation is edge 0, and in
particular the edge of block 1 (index 1000), which the constant-true decode
does visit, is never passed to the callback.  This refutes the claim that a
false callback skips only the remaining edges of its own block. -/
theorem C4_counterexample :
    decode .unit (fun _ _ _ _ => false)
        (sequentialCompressEdgeSet .unit 0 c4Edges) 0 1001 = [(1, 0, 0)] ∧
    ((1001 : Nat), (0 : Int), (1000 : Nat)) ∈ decode .unit (fun _ _ _ _ => true)
        (sequentialCompressEdgeSet .unit 0 c4Edges) 0 1001 := by
  constructor
  · decide
  · decide

theorem C4_short_circuit_amended_witness :
    ValidEdges .unit 0 [(3, 0), (7, 0), (32775, 0), (32776, 0)] ∧
    decode .unit (fun _ n _ _ => decide (n < 5))
        (sequentialCompressEdgeSet .unit 0 [(3, 0), (7, 0), (32775, 0), (32776, 0)]) 0
        ([(3, 0), (7, 0), (32775, 0), (32776, 0)] : List (Nat × Int)).length =
      decodeSpec .unit (fun _ n _ _ => decide (n < 5)) 0
        [(3, 0), (7, 0), (32775, 0), (32776, 0)] := by
  have hv : ValidEdges .unit 0 [(3, 0), (7, 0), (32775, 0), (32776, 0)] :=
    ⟨by decide, by decide, chainLt_of_B _ (by decide)⟩
  exact ⟨hv, C4_short_circuit_amended .unit (fun _ n _ _ => decide (n < 5)) 0
    [(3, 0), (7, 0), (32775, 0), (32776, 0)] hv (by decide) (by decide)⟩


/-- Modelled from the spec: `pbbslib::binary_search` (its source is not part
of this tree) searches the inclusive-scan array of per-block cumulative end
counts with the predicate `l <= r`, returning the first block index whose end
count exceeds `i` ("random access via binary search over block-start
cumulative counts"); `num_blocks` is returned when there is none. -/
def searchBlock (r : List Nat) (nb d i : Nat) : Nat :=
  (List.range nb).findIdx (fun j => decide (i < endOf r nb d j))

/-- get_ith_neighbor from byte_pd_amortized.h: binary-search the block holding
edge `i`, eat the block's first edge, and then eat further edges while
`edgeID < i` starting from `edgeID = start + 1`. -/
def getLoop (mode : WMode) : Nat → Nat → Int → List Nat → Nat × Int
  | 0, ngh, w, _ => (ngh, w)
  | k + 1, ngh, _, bytes =>
    let de := eatEdge bytes
    let wb := eatWeight mode de.2
    getLoop mode k ((ngh + de.1) % U32) wb.1 wb.2

def get_ith_neighbor (mode : WMode) (r : List Nat) (source d i : Nat) : Nat × Int :=
  let nb := numBlocksOf (read32 r)
  let block := searchBlock r nb d i
  let fing := fingerAt r nb block
  let start := read32 fing
  let fe := eatFirstEdge source (fing.drop 4)
  let wb := eatWeight mode fe.2
  if i = start then (fe.1, wb.1)
  else getLoop mode (i - start - 1) fe.1 wb.1 wb.2

/-- C3: the code disagrees with the spec's random-access contract.  On the
spec's own S5 input (src 0, neighbors [3, 7, 7+2^15, 7+2^15+1], unit weights)
get_ith_neighbor at index 2 returns neighbor 7 — the pair at index 1 — while
the index-2 pair produced by decode is 7+2^15 = 32775: the edge loop
`for (edgeID = start + 1; edgeID < i; edgeID++)` eats one delta too few for
every i greater than the block's start index. -/
theorem C3_get_ith_bug :
    get_ith_neighbor .unit
        (sequentialCompressEdgeSet .unit 0 [(3, 0), (7, 0), (32775, 0), (32776, 0)]) 0 4 2 =
      (7, 0) ∧
    (decode .unit (fun _ _ _ _ => true)
        (sequentialCompressEdgeSet .unit 0 [(3, 0), (7, 0), (32775, 0), (32776, 0)]) 0
        4).getD 2 (0, 0, 0) = (32775, 0, 2) := by
  constructor
  · decide
  · decide


/-- simple_iter from byte_pd_amortized.h: a cursor over a freshly encoded
list whose block layout is computed from the degree (blocks of exactly
PARALLEL_DEGREE edges). -/
structure SimpleIter where
  bytes : List Nat
  lastEdge : Nat × Int
  proc : Nat
  curChunk : Nat
deriving Repr, DecidableEq

/-- simple_iter's constructor (degree > 0): skip the virtual degree, the
`num_blocks - 1` block offsets and the first block's start index, then eat the
first edge. -/
def simpleIterInit (mode : WMode) (r : List Nat) (degree src : Nat) : SimpleIter :=
  let nb := 1 + (degree - 1) / PARALLEL_DEGREE
  let fing := r.drop ((nb - 1) * 4 + 2 * 4)
  let fe := eatFirstEdge src fing
  let wb := eatWeight mode fe.2
  ⟨wb.2, (fe.1, wb.1), 1, 0⟩

/-- simple_iter::next. -/
def simpleIterNext (mode : WMode) (src : Nat) (st : SimpleIter) : SimpleIter :=
  if st.proc = PARALLEL_DEGREE then
    let fing := st.bytes.drop 4
    let fe := eatFirstEdge src fing
    let wb := eatWeight mode fe.2
    ⟨wb.2, (fe.1, wb.1), 1, st.curChunk + 1⟩
  else
    let de := eatEdge st.bytes
    let wb := eatWeight mode de.2
    ⟨wb.2, ((st.lastEdge.1 + de.1) % U32, wb.1), st.proc + 1, st.curChunk⟩

/-- The merge loop shared by intersect and intersect_f, collecting the trace
of `f(l1_src, l2_src, shared)` invocations next to the match count.  The fuel
argument only makes the loop structural; `l1_size + l2_size` steps always
suffice because each iteration advances `i + j`. -/
def intersectLoopF (mode : WMode) (src1 src2 : Nat) :
    Nat → SimpleIter → SimpleIter → Nat → Nat → Nat → Nat → Nat ×
      List (Nat × Nat × Nat)
  | 0, _, _, _, _, _, _ => (0, [])
  | fuel + 1, it1, it2, i, j, n, m =>
    if i < n ∧ j < m then
      if it1.lastEdge.1 = it2.lastEdge.1 then
        let rest := intersectLoopF mode src1 src2 fuel (simpleIterNext mode src1 it1)
          (simpleIterNext mode src2 it2) (i + 1) (j + 1) n m
        (rest.1 + 1, (src1, src2, it1.lastEdge.1) :: rest.2)
      else if it1.lastEdge.1 < it2.lastEdge.1 then
        intersectLoopF mode src1 src2 fuel (simpleIterNext mode src1 it1) it2 (i + 1) j n m
      else
        intersectLoopF mode src1 src2 fuel it1 (simpleIterNext mode src2 it2) i (j + 1) n m
    else (0, [])

/-- intersect from byte_pd_amortized.h: merge-intersect two encoded sorted
neighbor lists, returning the number of common neighbors. -/
def intersect (mode : WMode) (l1 l2 : List Nat) (l1_size l2_size l1_src l2_src : Nat) :
    Nat :=
  if l1_size = 0 ∨ l2_size = 0 then 0
  else (intersectLoopF mode l1_src l2_src (l1_size + l2_size)
    (simpleIterInit mode l1 l1_size l1_src) (simpleIterInit mode l2 l2_size l2_src)
    0 0 l1_size l2_size).1

/-- intersect_f from byte_pd_amortized.h: as intersect, but also calls
`f(l1_src, l2_src, shared_ngh)` on each match; the returned list is the trace
of those calls in order. -/
def intersect_f (mode : WMode) (l1 l2 : List Nat)
    (l1_size l2_size l1_src l2_src : Nat) : Nat × List (Nat × Nat × Nat) :=
  if l1_size = 0 ∨ l2_size = 0 then (0, [])
  else intersectLoopF mode l1_src l2_src (l1_size + l2_size)
    (simpleIterInit mode l1 l1_size l1_src) (simpleIterInit mode l2 l2_size l2_src)
    0 0 l1_size l2_size


theorem getD_drop_idx {α : Type} : ∀ (l : List α) (n k : Nat) (z : α),
    (l.drop n).getD k z = l.getD (n + k) z := by
  intro l
  induction l with
  | nil => intro n k z; simp
  | cons a l ih =>
    intro n k z
    cases n with
    | zero => simp
    | succ n =>
      simp only [List.drop_succ_cons]
      rw [ih n k z, (by omega : n + 1 + k = (n + k) + 1), List.getD_cons_succ]

theorem getD_take_idx {α : Type} : ∀ (l : List α) (n k : Nat) (z : α), k < n →
    (l.take n).getD k z = l.getD k z := by
  intro l
  induction l with
  | nil => intro n k z _; simp
  | cons a l ih =>
    intro n k z hk
    cases n with
    | zero => omega
    | succ n =>
      cases k with
      | zero => simp
      | succ k =>
        simp only [List.take_succ_cons, List.getD_cons_succ]
        exact ih n k z (by omega)

theorem getD_map_fst (edges : List (Nat × Int)) (k : Nat) (hk : k < edges.length) :
    (edges.map Prod.fst).getD k 0 = (edges.getD k (0, 0)).1 := by
  rw [List.getD_eq_getElem _ _ (by simpa using hk), List.getD_eq_getElem _ _ hk]
  simp

theorem chunkAt_getD (edges : List (Nat × Int)) (b r : Nat) (hr : r < PARALLEL_DEGREE) :
    (chunkAt edges b).getD r (0, 0) = edges.getD (PARALLEL_DEGREE * b + r) (0, 0) := by
  rw [chunkAt, getD_take_idx _ _ _ _ hr, getD_drop_idx]

theorem chunkAt_drop_cons (edges : List (Nat × Int)) (b r : Nat)
    (hr : r < PARALLEL_DEGREE) (hlt : PARALLEL_DEGREE * b + r < edges.length) :
    (chunkAt edges b).drop r =
      edges.getD (PARALLEL_DEGREE * b + r) (0, 0) :: (chunkAt edges b).drop (r + 1) := by
  have hrlen : r < (chunkAt edges b).length := by
    rw [chunkAt_length]
    omega
  rw [List.drop_eq_getElem_cons hrlen, ← List.getD_eq_getElem _ (0, 0) hrlen,
    chunkAt_getD edges b r hr]

/-- Ordering of entries of a strictly ascending edge list. -/
theorem sorted_getD_lt (edges : List (Nat × Int))
    (hchain : List.Chain' (· < ·) (edges.map Prod.fst)) (i j : Nat)
    (hij : i < j) (hj : j < edges.length) :
    (edges.getD i (0, 0)).1 < (edges.getD j (0, 0)).1 := by
  have hp : List.Pairwise (· < ·) (edges.map Prod.fst) :=
    List.chain'_iff_pairwise.mp hchain
  rw [List.pairwise_iff_getElem] at hp
  have := hp i j (by simpa using (by omega : i < edges.length)) (by simpa using hj) hij
  rw [← getD_map_fst edges i (by omega), ← getD_map_fst edges j hj]
  rwa [List.getD_eq_getElem _ _ (by simpa using (by omega : i < edges.length)),
    List.getD_eq_getElem _ _ (by simpa using hj)]

/-- The byte suffix at which simple_iter's finger rests after having read edge
`k` of a freshly encoded list: the remaining deltas of edge k's block followed
by the later blocks. -/
def iterBytes (mode : WMode) (src : Nat) (edges : List (Nat × Int)) (k : Nat) : List Nat :=
  encodeDeltas mode (edges.getD k (0, 0)).1
      ((chunkAt edges (k / PARALLEL_DEGREE)).drop (k % PARALLEL_DEGREE + 1)) ++
    ((encodeBlocks mode src edges 0).drop (k / PARALLEL_DEGREE + 1)).flatten

/-- The canonical simple_iter state whose current edge is edge `k`. -/
def iterSpec (mode : WMode) (src : Nat) (edges : List (Nat × Int)) (k : Nat) : SimpleIter :=
  ⟨iterBytes mode src edges k, edges.getD k (0, 0),
    k % PARALLEL_DEGREE + 1, k / PARALLEL_DEGREE⟩


theorem getD_mem (edges : List (Nat × Int)) (n : Nat) (hn : n < edges.length) :
    edges.getD n (0, 0) ∈ edges := by
  rw [List.getD_eq_getElem _ _ hn]
  exact List.getElem_mem hn

/-- simple_iter's constructor lands on the canonical state for edge 0. -/
theorem simpleIterInit_spec (mode : WMode) (src : Nat) (edges : List (Nat × Int))
    (hne : edges ≠ []) (hv : ValidEdges mode src edges)
    (htot : 4 * numBlocksOf edges.length + lenSum (encodeBlocks mode src edges 0) < U32) :
    simpleIterInit mode (sequentialCompressEdgeSet mode src edges) edges.length src =
      iterSpec mode src edges 0 := by
  obtain ⟨hsrc, hvals, hchain⟩ := hv
  have hpos : 0 < edges.length := List.length_pos.mpr hne
  have hblen := encodeBlocks_length_eq mode src edges hne
  have hr := sequentialCompressEdgeSet_eq_mkRegion mode src edges [] hne
  rw [List.append_nil] at hr
  have htot' : 4 * (encodeBlocks mode src edges 0).length +
      lenSum (encodeBlocks mode src edges 0) < U32 := by rw [hblen]; exact htot
  have hf0 : (sequentialCompressEdgeSet mode src edges).drop
      (4 * numBlocksOf edges.length) = (encodeBlocks mode src edges 0).flatten ++ [] := by
    have h := mkRegion_finger (encodeBlocks mode src edges 0) edges.length [] htot' 0
      (by rw [hblen]; exact numBlocksOf_pos _)
    rw [fingerAt, if_pos rfl, hblen] at h
    rw [hr, h, List.drop_zero]
  have hdropamt : (1 + (edges.length - 1) / PARALLEL_DEGREE - 1) * 4 + 2 * 4 =
      4 * numBlocksOf edges.length + 4 := by
    simp only [numBlocksOf, PARALLEL_DEGREE]
    omega
  have hcons := encodeBlocks_cons mode src 0 edges hne
  have hchunk0 : chunkAt edges 0 = edges.take PARALLEL_DEGREE := by
    simp [chunkAt]
  have hc0 : chunkAt edges 0 = edges.getD 0 (0, 0) :: (chunkAt edges 0).drop 1 := by
    have h := chunkAt_drop_cons edges 0 0 (by simp [PARALLEL_DEGREE]) (by simpa using hpos)
    simpa using h
  have hx : edges.getD 0 (0, 0) ∈ edges := getD_mem edges 0 hpos
  have hxU : (edges.getD 0 (0, 0)).1 < U32 := (hvals _ hx).1
  have hxW : WOK mode (edges.getD 0 (0, 0)).2 := (hvals _ hx).2
  rw [simpleIterInit]
  rw [hdropamt, ← List.drop_drop, hf0, List.append_nil]
  rw [hcons, List.flatten_cons, encodeBlock]
  rw [List.append_assoc, w32_append_drop4]
  rw [← hchunk0, hc0, encodeBlockBody]
  simp only [List.append_assoc]
  rw [eatFirstEdge_compressFirstEdge src _ hsrc hxU]
  rw [eatWeight_compressWeight mode _ hxW]
  rw [iterSpec, iterBytes]
  simp only [Nat.zero_div, Nat.zero_mod, Nat.zero_add]
  rw [hcons]
  simp only [List.drop_succ_cons, List.drop_zero, Nat.zero_add, Prod.mk.eta]

/-- simple_iter::next advances the canonical state for edge `k` to the one
for edge `k + 1`. -/
theorem simpleIterNext_spec (mode : WMode) (src : Nat) (edges : List (Nat × Int))
    (hv : ValidEdges mode src edges) (k : Nat) (hk : k + 1 < edges.length) :
    simpleIterNext mode src (iterSpec mode src edges k) = iterSpec mode src edges (k + 1) := by
  obtain ⟨hsrc, hvals, hchain⟩ := hv
  have hne : edges ≠ [] := by
    intro h
    rw [h] at hk
    simp at hk
  have hblen := encodeBlocks_length_eq mode src edges hne
  have hx1 : edges.getD (k + 1) (0, 0) ∈ edges := getD_mem edges (k + 1) hk
  have hx1U : (edges.getD (k + 1) (0, 0)).1 < U32 := (hvals _ hx1).1
  have hx1W : WOK mode (edges.getD (k + 1) (0, 0)).2 := (hvals _ hx1).2
  by_cases hP : k % PARALLEL_DEGREE + 1 = PARALLEL_DEGREE
  · -- block boundary: k + 1 starts block k / PARALLEL_DEGREE + 1
    have hdiv : k + 1 = PARALLEL_DEGREE * (k / PARALLEL_DEGREE + 1) ∧
        (k + 1) % PARALLEL_DEGREE = 0 ∧
        (k + 1) / PARALLEL_DEGREE = k / PARALLEL_DEGREE + 1 := by
      simp only [PARALLEL_DEGREE] at *
      omega
    have hb1 : k / PARALLEL_DEGREE + 1 < numBlocksOf edges.length := by
      have h1 := hdiv.1
      simp only [numBlocksOf, PARALLEL_DEGREE] at *
      omega
    have hdropP : (chunkAt edges (k / PARALLEL_DEGREE)).drop (k % PARALLEL_DEGREE + 1) =
        [] := by
      apply List.drop_eq_nil_of_le
      rw [chunkAt_length, hP]
      omega
    have hgetb : (encodeBlocks mode src edges 0).getD (k / PARALLEL_DEGREE + 1) [] =
        encodeBlock mode src (PARALLEL_DEGREE * (k / PARALLEL_DEGREE + 1))
          (chunkAt edges (k / PARALLEL_DEGREE + 1)) := by
      rw [encodeBlocks_getD mode src edges.length edges 0 _ le_rfl (by rw [hblen]; exact hb1)]
      simp [chunkAt]
    have hbcons : (encodeBlocks mode src edges 0).drop (k / PARALLEL_DEGREE + 1) =
        (encodeBlocks mode src edges 0).getD (k / PARALLEL_DEGREE + 1) [] ::
          (encodeBlocks mode src edges 0).drop (k / PARALLEL_DEGREE + 2) := by
      have hlt : k / PARALLEL_DEGREE + 1 < (encodeBlocks mode src edges 0).length := by
        rw [hblen]
        exact hb1
      rw [List.getD_eq_getElem _ [] hlt]
      exact List.drop_eq_getElem_cons hlt
    have hccons : chunkAt edges (k / PARALLEL_DEGREE + 1) =
        edges.getD (k + 1) (0, 0) :: (chunkAt edges (k / PARALLEL_DEGREE + 1)).drop 1 := by
      have h := chunkAt_drop_cons edges (k / PARALLEL_DEGREE + 1) 0
        (by simp [PARALLEL_DEGREE]) (by rw [Nat.add_zero, ← hdiv.1]; exact hk)
      rw [Nat.add_zero, ← hdiv.1] at h
      simpa using h
    rw [simpleIterNext, if_pos (by rw [iterSpec]; exact hP)]
    simp only [iterSpec, iterBytes, hdropP, encodeDeltas, List.nil_append]
    rw [hbcons, hgetb, List.flatten_cons, encodeBlock, List.append_assoc, w32_append_drop4]
    rw [hccons, encodeBlockBody]
    simp only [List.append_assoc]
    rw [eatFirstEdge_compressFirstEdge src _ hsrc hx1U]
    rw [eatWeight_compressWeight mode _ hx1W]
    rw [hdiv.2.1, hdiv.2.2]
  · -- inside the block
    have hr1 : (k + 1) % PARALLEL_DEGREE = k % PARALLEL_DEGREE + 1 ∧
        (k + 1) / PARALLEL_DEGREE = k / PARALLEL_DEGREE ∧
        PARALLEL_DEGREE * (k / PARALLEL_DEGREE) + (k % PARALLEL_DEGREE + 1) = k + 1 ∧
        k % PARALLEL_DEGREE + 1 < PARALLEL_DEGREE := by
      simp only [PARALLEL_DEGREE] at *
      omega
    have hccons : (chunkAt edges (k / PARALLEL_DEGREE)).drop (k % PARALLEL_DEGREE + 1) =
        edges.getD (k + 1) (0, 0) ::
          (chunkAt edges (k / PARALLEL_DEGREE)).drop (k % PARALLEL_DEGREE + 2) := by
      have h := chunkAt_drop_cons edges (k / PARALLEL_DEGREE) (k % PARALLEL_DEGREE + 1)
        hr1.2.2.2 (by rw [hr1.2.2.1]; exact hk)
      rw [hr1.2.2.1] at h
      exact h
    have hlt : (edges.getD k (0, 0)).1 < (edges.getD (k + 1) (0, 0)).1 :=
      sorted_getD_lt edges hchain k (k + 1) (by omega) hk
    have hkU : (edges.getD k (0, 0)).1 < U32 := (hvals _ (getD_mem edges k (by omega))).1
    have hsub : sub32 (edges.getD (k + 1) (0, 0)).1 (edges.getD k (0, 0)).1 =
        (edges.getD (k + 1) (0, 0)).1 - (edges.getD k (0, 0)).1 := by
      simp only [sub32, U32] at *
      omega
    rw [simpleIterNext, if_neg (by rw [iterSpec]; exact hP)]
    simp only [iterSpec, iterBytes]
    rw [hccons, encodeDeltas]
    simp only [List.append_assoc]
    rw [hsub, eatEdge_compressEdge _ (by omega) (by simp only [U32] at *; omega)]
    rw [eatWeight_compressWeight mode _ hx1W]
    have hngh : ((edges.getD k (0, 0)).1 +
        ((edges.getD (k + 1) (0, 0)).1 - (edges.getD k (0, 0)).1)) % U32 =
        (edges.getD (k + 1) (0, 0)).1 := by
      simp only [U32] at *
      omega
    rw [hngh, hr1.1, hr1.2.1]


theorem sorted_getD_le_mem (L : List Nat) (hch : List.Chain' (· < ·) L) (j : Nat)
    (hj : j < L.length) : ∀ x ∈ L.drop j, L.getD j 0 ≤ x := by
  intro x hx
  obtain ⟨k, hk, rfl⟩ := List.mem_iff_getElem.mp hx
  have hk' : j + k < L.length := by
    simp only [List.length_drop] at hk
    omega
  rw [← List.getD_eq_getElem _ 0 hk, getD_drop_idx]
  rcases Nat.eq_zero_or_pos k with h0 | h0
  · subst h0
    simp
  · have hp := List.chain'_iff_pairwise.mp hch
    rw [List.pairwise_iff_getElem] at hp
    have := hp j (j + k) hj hk' (by omega)
    rw [List.getD_eq_getElem _ 0 hj, List.getD_eq_getElem _ 0 hk']
    omega

theorem sorted_getD_lt_mem (L : List Nat) (hch : List.Chain' (· < ·) L) (j : Nat)
    (hj : j < L.length) : ∀ x ∈ L.drop (j + 1), L.getD j 0 < x := by
  intro x hx
  obtain ⟨k, hk, rfl⟩ := List.mem_iff_getElem.mp hx
  have hk' : j + 1 + k < L.length := by
    simp only [List.length_drop] at hk
    omega
  rw [← List.getD_eq_getElem _ 0 hk, getD_drop_idx]
  have hp := List.chain'_iff_pairwise.mp hch
  rw [List.pairwise_iff_getElem] at hp
  have := hp j (j + 1 + k) hj hk' (by omega)
  rw [List.getD_eq_getElem _ 0 hj, List.getD_eq_getElem _ 0 hk']
  omega

theorem drop_getD_cons (L : List Nat) (i : Nat) (hi : i < L.length) :
    L.drop i = L.getD i 0 :: L.drop (i + 1) := by
  rw [List.getD_eq_getElem _ 0 hi]
  exact List.drop_eq_getElem_cons hi

theorem filter_drop_eq_of_lt (L1 L2 : List Nat) (hch2 : List.Chain' (· < ·) L2)
    (i j : Nat) (hi : i < L1.length) (hj : j < L2.length)
    (hlt : L1.getD i 0 < L2.getD j 0) :
    (L1.drop i).filter (· ∈ L2.drop j) = (L1.drop (i + 1)).filter (· ∈ L2.drop j) := by
  rw [drop_getD_cons L1 i hi, List.filter_cons]
  rw [if_neg ?hmem]
  case hmem =>
    simp only [decide_eq_true_eq]
    intro hmem
    have := sorted_getD_le_mem L2 hch2 j hj _ hmem
    omega

theorem filter_drop_eq_of_gt (L1 L2 : List Nat) (hch1 : List.Chain' (· < ·) L1)
    (i j : Nat) (hi : i < L1.length) (hj : j < L2.length)
    (hgt : L2.getD j 0 < L1.getD i 0) :
    (L1.drop i).filter (· ∈ L2.drop j) = (L1.drop i).filter (· ∈ L2.drop (j + 1)) := by
  apply List.filter_congr
  intro x hx
  have hxge := sorted_getD_le_mem L1 hch1 i hi x hx
  rw [drop_getD_cons L2 j hj]
  simp only [List.mem_cons, decide_eq_decide]
  constructor
  · rintro (h | h)
    · omega
    · exact h
  · intro h
    exact Or.inr h

theorem filter_drop_eq_of_eq (L1 L2 : List Nat) (hch1 : List.Chain' (· < ·) L1)
    (hch2 : List.Chain' (· < ·) L2) (i j : Nat) (hi : i < L1.length)
    (hj : j < L2.length) (heq : L1.getD i 0 = L2.getD j 0) :
    (L1.drop i).filter (· ∈ L2.drop j) =
      L1.getD i 0 :: (L1.drop (i + 1)).filter (· ∈ L2.drop (j + 1)) := by
  rw [drop_getD_cons L1 i hi, List.filter_cons]
  rw [if_pos ?hmem]
  case hmem =>
    simp only [decide_eq_true_eq]
    rw [drop_getD_cons L2 j hj, heq]
    exact List.mem_cons_self _ _
  congr 1
  apply List.filter_congr
  intro x hx
  have hxgt := sorted_getD_lt_mem L1 hch1 i hi x hx
  rw [drop_getD_cons L2 j hj]
  simp only [List.mem_cons, decide_eq_decide]
  constructor
  · rintro (h | h)
    · omega
    · exact h
  · intro h
    exact Or.inr h


theorem drop_nil_of_le {α : Type} (l : List α) (k : Nat) (h : l.length ≤ k) :
    l.drop k = [] :=
  List.drop_eq_nil_of_le h

theorem intersectLoopF_spec (mode : WMode) (s1 s2 : Nat)
    (edges1 edges2 : List (Nat × Int))
    (hv1 : ValidEdges mode s1 edges1) (hv2 : ValidEdges mode s2 edges2) :
    ∀ (fuel i j : Nat) (st1 st2 : SimpleIter),
      (edges1.length - i) + (edges2.length - j) ≤ fuel →
      (i < edges1.length → st1 = iterSpec mode s1 edges1 i) →
      (j < edges2.length → st2 = iterSpec mode s2 edges2 j) →
      intersectLoopF mode s1 s2 fuel st1 st2 i j edges1.length edges2.length =
        ((((edges1.map Prod.fst).drop i).filter
            (· ∈ (edges2.map Prod.fst).drop j)).length,
         (((edges1.map Prod.fst).drop i).filter
            (· ∈ (edges2.map Prod.fst).drop j)).map (fun e => (s1, s2, e))) := by
  have hch1 : List.Chain' (· < ·) (edges1.map Prod.fst) := hv1.2.2
  have hch2 : List.Chain' (· < ·) (edges2.map Prod.fst) := hv2.2.2
  intro fuel
  induction fuel with
  | zero =>
    intro i j st1 st2 hfuel h1 h2
    have hi : edges1.length ≤ i := by omega
    rw [intersectLoopF]
    rw [drop_nil_of_le (edges1.map Prod.fst) i (by simpa using hi)]
    simp
  | succ fuel ih =>
    intro i j st1 st2 hfuel h1 h2
    rw [intersectLoopF]
    by_cases hin : i < edges1.length ∧ j < edges2.length
    · rw [if_pos hin]
      rw [h1 hin.1, h2 hin.2]
      have he1 : (iterSpec mode s1 edges1 i).lastEdge.1 = (edges1.map Prod.fst).getD i 0 := by
        rw [iterSpec, getD_map_fst edges1 i hin.1]
      have he2 : (iterSpec mode s2 edges2 j).lastEdge.1 = (edges2.map Prod.fst).getD j 0 := by
        rw [iterSpec, getD_map_fst edges2 j hin.2]
      have hlen1 : i < (edges1.map Prod.fst).length := by simpa using hin.1
      have hlen2 : j < (edges2.map Prod.fst).length := by simpa using hin.2
      by_cases heq : (iterSpec mode s1 edges1 i).lastEdge.1 =
          (iterSpec mode s2 edges2 j).lastEdge.1
      · rw [if_pos heq]
        have hfeq : (edges1.map Prod.fst).getD i 0 = (edges2.map Prod.fst).getD j 0 := by
          rw [← he1, ← he2, heq]
        rw [filter_drop_eq_of_eq _ _ hch1 hch2 i j hlen1 hlen2 hfeq]
        have hrec := ih (i + 1) (j + 1) (simpleIterNext mode s1 (iterSpec mode s1 edges1 i))
          (simpleIterNext mode s2 (iterSpec mode s2 edges2 j)) (by omega)
          (fun hlt => simpleIterNext_spec mode s1 edges1 hv1 i hlt)
          (fun hlt => simpleIterNext_spec mode s2 edges2 hv2 j hlt)
        rw [hrec]
        simp [he1]
      · rw [if_neg heq]
        by_cases hlt : (iterSpec mode s1 edges1 i).lastEdge.1 <
            (iterSpec mode s2 edges2 j).lastEdge.1
        · rw [if_pos hlt]
          have hflt : (edges1.map Prod.fst).getD i 0 < (edges2.map Prod.fst).getD j 0 := by
            rw [← he1, ← he2]
            exact hlt
          rw [filter_drop_eq_of_lt _ _ hch2 i j hlen1 hlen2 hflt]
          exact ih (i + 1) j (simpleIterNext mode s1 (iterSpec mode s1 edges1 i)) _
            (by omega) (fun h => simpleIterNext_spec mode s1 edges1 hv1 i h)
            (fun _ => rfl)
        · rw [if_neg hlt]
          have hfgt : (edges2.map Prod.fst).getD j 0 < (edges1.map Prod.fst).getD i 0 := by
            rw [← he1, ← he2]
            omega
          rw [filter_drop_eq_of_gt _ _ hch1 i j hlen1 hlen2 hfgt]
          exact ih i (j + 1) _ (simpleIterNext mode s2 (iterSpec mode s2 edges2 j))
            (by omega) (fun _ => rfl) (fun h => simpleIterNext_spec mode s2 edges2 hv2 j h)
    · rw [if_neg hin]
      rcases Nat.lt_or_ge i edges1.length with hi | hi
      · have hj : edges2.length ≤ j := by omega
        rw [drop_nil_of_le (edges2.map Prod.fst) j (by simpa using hj)]
        simp
      · rw [drop_nil_of_le (edges1.map Prod.fst) i (by simpa using hi)]
        simp

/-- C6: intersect returns the number of neighbors common to the two sorted
encoded lists, and intersect_f additionally calls `f(l1_src, l2_src, shared)`
exactly once per common neighbor, in order. -/
theorem C6_intersect_correct (mode : WMode) (s1 s2 : Nat)
    (edges1 edges2 : List (Nat × Int))
    (hv1 : ValidEdges mode s1 edges1) (hv2 : ValidEdges mode s2 edges2)
    (htot1 : 4 * numBlocksOf edges1.length + lenSum (encodeBlocks mode s1 edges1 0) < U32)
    (htot2 : 4 * numBlocksOf edges2.length + lenSum (encodeBlocks mode s2 edges2 0) < U32) :
    intersect mode (sequentialCompressEdgeSet mode s1 edges1)
        (sequentialCompressEdgeSet mode s2 edges2)
        edges1.length edges2.length s1 s2 =
      ((edges1.map Prod.fst).filter (· ∈ edges2.map Prod.fst)).length ∧
    intersect_f mode (sequentialCompressEdgeSet mode s1 edges1)
        (sequentialCompressEdgeSet mode s2 edges2)
        edges1.length edges2.length s1 s2 =
      (((edges1.map Prod.fst).filter (· ∈ edges2.map Prod.fst)).length,
       ((edges1.map Prod.fst).filter (· ∈ edges2.map Prod.fst)).map
         (fun e => (s1, s2, e))) := by
  by_cases hz : edges1.length = 0 ∨ edges2.length = 0
  · have hnil : (edges1.map Prod.fst).filter (· ∈ edges2.map Prod.fst) = [] := by
      rcases hz with h | h
      · rw [List.length_eq_zero.mp h]
        rfl
      · rw [List.length_eq_zero.mp h]
        simp
    rw [intersect, if_pos hz, intersect_f, if_pos hz, hnil]
    simp
  · push_neg at hz
    have hne1 : edges1 ≠ [] := fun h => hz.1 (by rw [h]; rfl)
    have hne2 : edges2 ≠ [] := fun h => hz.2 (by rw [h]; rfl)
    have hinit1 := simpleIterInit_spec mode s1 edges1 hne1 hv1 htot1
    have hinit2 := simpleIterInit_spec mode s2 edges2 hne2 hv2 htot2
    have hloop := intersectLoopF_spec mode s1 s2 edges1 edges2 hv1 hv2
      (edges1.length + edges2.length) 0 0
      (simpleIterInit mode (sequentialCompressEdgeSet mode s1 edges1) edges1.length s1)
      (simpleIterInit mode (sequentialCompressEdgeSet mode s2 edges2) edges2.length s2)
      (by omega) (fun _ => hinit1) (fun _ => hinit2)
    simp only [List.drop_zero] at hloop
    constructor
    · rw [intersect, if_neg (by omega), hloop]
    · rw [intersect_f, if_neg (by omega), hloop]


theorem C6_intersect_correct_witness :
    ValidEdges .unit 0 [(2, 0), (5, 0), (9, 0), (12, 0)] ∧
    ValidEdges .unit 1 [(3, 0), (5, 0), (12, 0), (20, 0)] ∧
    intersect .unit (sequentialCompressEdgeSet .unit 0 [(2, 0), (5, 0), (9, 0), (12, 0)])
        (sequentialCompressEdgeSet .unit 1 [(3, 0), (5, 0), (12, 0), (20, 0)])
        ([(2, 0), (5, 0), (9, 0), (12, 0)] : List (Nat × Int)).length
        ([(3, 0), (5, 0), (12, 0), (20, 0)] : List (Nat × Int)).length 0 1 =
      ((([(2, 0), (5, 0), (9, 0), (12, 0)] : List (Nat × Int)).map Prod.fst).filter
        (· ∈ ([(3, 0), (5, 0), (12, 0), (20, 0)] : List (Nat × Int)).map Prod.fst)).length := by
  have hv1 : ValidEdges .unit 0 [(2, 0), (5, 0), (9, 0), (12, 0)] :=
    ⟨by decide, by decide, chainLt_of_B _ (by decide)⟩
  have hv2 : ValidEdges .unit 1 [(3, 0), (5, 0), (12, 0), (20, 0)] :=
    ⟨by decide, by decide, chainLt_of_B _ (by decide)⟩
  exact ⟨hv1, hv2, (C6_intersect_correct .unit 0 1
    [(2, 0), (5, 0), (9, 0), (12, 0)] [(3, 0), (5, 0), (12, 0), (20, 0)]
    hv1 hv2 (by decide) (by decide)).1⟩


theorem compressEdge_len_le_iff : ∀ (x k : Nat),
    (compressEdge x).length ≤ k ↔ x < 128 ^ k := by
  intro x
  induction x using Nat.strong_induction_on with
  | _ x ih =>
    intro k
    by_cases hx : x = 0
    · subst hx
      have h0 : compressEdge 0 = [] := rfl
      rw [h0, List.length_nil]
      exact iff_of_true (Nat.zero_le k) (pow_pos (by norm_num) k)
    · rw [compressEdge_unfold, if_neg hx, List.length_cons]
      cases k with
      | zero =>
        rw [pow_zero]
        omega
      | succ k =>
        have hlt : x >>> 7 < x := by
          rw [shiftRight7_eq]
          exact Nat.div_lt_self (Nat.pos_of_ne_zero hx) (by norm_num)
        have hIH := ih (x >>> 7) hlt k
        constructor
        · intro h
          have hx7 : x >>> 7 < 128 ^ k := hIH.mp (by omega)
          rw [shiftRight7_eq] at hx7
          have hlt2 := (Nat.div_lt_iff_lt_mul (show 0 < 128 by norm_num)).mp hx7
          calc x < 128 ^ k * 128 := hlt2
          _ = 128 ^ (k + 1) := (pow_succ 128 k).symm
        · intro h
          have hx7 : x >>> 7 < 128 ^ k := by
            rw [shiftRight7_eq, Nat.div_lt_iff_lt_mul (show 0 < 128 by norm_num)]
            calc x < 128 ^ (k + 1) := h
            _ = 128 ^ k * 128 := pow_succ 128 k
          have := hIH.mpr hx7
          omega

theorem compressEdge_len_pos (x : Nat) (hx : 0 < x) : 1 ≤ (compressEdge x).length := by
  by_contra h
  push_neg at h
  have h2 := (compressEdge_len_le_iff x 0).mp (by omega)
  rw [pow_zero] at h2
  omega

theorem compressEdge_len_le5 (x : Nat) (hx : x < U32) : (compressEdge x).length ≤ 5 := by
  rw [compressEdge_len_le_iff]
  calc x < U32 := hx
  _ ≤ 128 ^ 5 := by norm_num [U32]

theorem compressEdge_len_mono (x y : Nat) (hxy : x ≤ y) :
    (compressEdge x).length ≤ (compressEdge y).length := by
  rw [compressEdge_len_le_iff]
  calc x ≤ y := hxy
  _ < 128 ^ (compressEdge y).length := (compressEdge_len_le_iff y _).mp le_rfl

theorem compressEdge_len_subadd (a b : Nat) :
    (compressEdge (a + b)).length ≤ (compressEdge a).length + (compressEdge b).length := by
  rw [compressEdge_len_le_iff]
  set p := (compressEdge a).length with hp
  set q := (compressEdge b).length with hq
  have ha : a < 128 ^ p := (compressEdge_len_le_iff a p).mp le_rfl
  have hb : b < 128 ^ q := (compressEdge_len_le_iff b q).mp le_rfl
  rcases Nat.eq_zero_or_pos p with h0 | h0
  · rw [h0] at ha
    rw [pow_zero] at ha
    rw [h0, Nat.zero_add]
    omega
  rcases Nat.eq_zero_or_pos q with h1 | h1
  · rw [h1] at hb
    rw [pow_zero] at hb
    rw [h1, Nat.add_zero]
    omega
  have hmax : 128 ^ p + 128 ^ q ≤ 128 ^ (p + q) := by
    have h2 : 128 ^ p ≤ 128 ^ (p + q - 1) := Nat.pow_le_pow_right (by norm_num) (by omega)
    have h3 : 128 ^ q ≤ 128 ^ (p + q - 1) := Nat.pow_le_pow_right (by norm_num) (by omega)
    have h4 : 128 ^ (p + q) = 128 ^ (p + q - 1) * 128 := by
      rw [← pow_succ]
      congr 1
      omega
    have h5 : 0 < 128 ^ (p + q - 1) := pow_pos (by norm_num) _
    omega
  omega

/-- Byte length of the sign-magnitude first-edge encoding. -/
theorem compressFirstEdge_length (diff : Int) :
    (compressFirstEdge diff).length = 1 + (compressEdge ((diff.natAbs % U32) >>> 6)).length := by
  rw [compressFirstEdge]
  simp only [List.length_cons]
  omega

theorem compressFirstEdge_len_pos (diff : Int) : 1 ≤ (compressFirstEdge diff).length := by
  rw [compressFirstEdge_length]
  omega

theorem compressFirstEdge_len_le5 (diff : Int) (h : diff.natAbs < U32) :
    (compressFirstEdge diff).length ≤ 5 := by
  rw [compressFirstEdge_length, Nat.mod_eq_of_lt h]
  have h4 : (compressEdge (diff.natAbs >>> 6)).length ≤ 4 := by
    rw [compressEdge_len_le_iff, shiftRight6_eq]
    have hd : diff.natAbs / 64 < 2 ^ 26 := by
      simp only [U32] at h
      omega
    calc diff.natAbs / 64 < 2 ^ 26 := hd
    _ ≤ 128 ^ 4 := by norm_num
  omega

/-- Rebasing a first-edge encoding one sorted step costs at most the bytes of
the skipped delta. -/
theorem compressFirstEdge_len_step (d1 d2 : Int) (δ : Nat)
    (h1 : d1.natAbs < U32) (h2 : d2.natAbs < U32)
    (htri : d2.natAbs ≤ d1.natAbs + δ) :
    (compressFirstEdge d2).length ≤ (compressFirstEdge d1).length + (compressEdge δ).length := by
  rw [compressFirstEdge_length, compressFirstEdge_length,
    Nat.mod_eq_of_lt h1, Nat.mod_eq_of_lt h2]
  have hgoal : (compressEdge (d2.natAbs >>> 6)).length ≤
      (compressEdge (d1.natAbs >>> 6)).length + (compressEdge δ).length := by
    rw [compressEdge_len_le_iff, shiftRight6_eq]
    set p := (compressEdge (d1.natAbs >>> 6)).length with hp
    set q := (compressEdge δ).length with hq
    have ha : d1.natAbs >>> 6 < 128 ^ p := (compressEdge_len_le_iff _ p).mp le_rfl
    have hd : δ < 128 ^ q := (compressEdge_len_le_iff δ q).mp le_rfl
    rw [shiftRight6_eq] at ha
    have hstep : d2.natAbs / 64 ≤ d1.natAbs / 64 + δ / 64 + 1 := by omega
    rcases Nat.eq_zero_or_pos q with h0 | h0
    · rw [h0] at hd
      rw [pow_zero] at hd
      rw [h0, Nat.add_zero]
      omega
    rcases Nat.eq_zero_or_pos p with hp0 | hp0
    · obtain ⟨Q, hQdef⟩ : ∃ Q, 128 ^ q = 128 * Q :=
        ⟨128 ^ (q - 1), by rw [mul_comm, ← pow_succ]; congr 1; omega⟩
      rw [hp0] at ha
      rw [pow_zero] at ha
      rw [hp0, Nat.zero_add, hQdef]
      rw [hQdef] at hd
      omega
    · have hmax : 128 ^ p + 128 ^ q ≤ 128 ^ (p + q) := by
        have h2a : 128 ^ p ≤ 128 ^ (p + q - 1) := Nat.pow_le_pow_right (by norm_num) (by omega)
        have h3 : 128 ^ q ≤ 128 ^ (p + q - 1) := Nat.pow_le_pow_right (by norm_num) (by omega)
        have h4 : 128 ^ (p + q) = 128 ^ (p + q - 1) * 128 := by
          rw [← pow_succ]
          congr 1
          omega
        have h5 : 0 < 128 ^ (p + q - 1) := pow_pos (by norm_num) _
        omega
      have hδ64 : δ / 64 ≤ δ := Nat.div_le_self _ _
      omega
  omega

/-- sub32 is true subtraction when the operands are ordered 32-bit values. -/
theorem sub32_eq_sub (a b : Nat) (hb : b ≤ a) (ha : a < U32) : sub32 a b = a - b := by
  simp only [sub32, U32] at *
  omega

theorem sub32_lt_U32 (a b : Nat) : sub32 a b < U32 := by
  simp only [sub32, U32]
  omega

/-- Splitting a sorted head off the front of delta bytes can only shorten them:
re-based deltas cost at most the skipped delta plus the original tail. -/
theorem encodeDeltas_len_rebase (mode : WMode) (prev x : Nat) (t : List (Nat × Int))
    (hpx : prev < x) (hx : x < U32)
    (hhead : ∀ e ∈ t, x < e.1 ∧ e.1 < U32) :
    (encodeDeltas mode prev t).length ≤
      (compressEdge (sub32 x prev)).length + (encodeDeltas mode x t).length := by
  cases t with
  | nil => simp [encodeDeltas]
  | cons e t =>
    obtain ⟨y, w⟩ := e
    obtain ⟨hxy, hyU⟩ := hhead (y, w) (List.mem_cons_self _ _)
    simp only [encodeDeltas, List.length_append]
    have h1 : sub32 y prev = y - prev := sub32_eq_sub y prev (by omega) hyU
    have h2 : sub32 y x = y - x := sub32_eq_sub y x (by omega) hyU
    have h3 : sub32 x prev = x - prev := sub32_eq_sub x prev (by omega) hx
    rw [h1, h2, h3]
    have h4 : y - prev = (x - prev) + (y - x) := by omega
    rw [h4]
    have h5 := compressEdge_len_subadd (x - prev) (y - x)
    omega

theorem chain_head_lt (a : Nat × Int) (l : List (Nat × Int))
    (hch : List.Chain' (· < ·) ((a :: l).map Prod.fst)) :
    (∀ e ∈ l, a.1 < e.1) ∧ List.Chain' (· < ·) (l.map Prod.fst) := by
  rw [List.map_cons] at hch
  refine ⟨?_, hch.tail⟩
  intro e he
  have hp := (List.chain'_iff_pairwise).mp hch
  exact (List.pairwise_cons.mp hp).1 e.1 (List.mem_map_of_mem Prod.fst he)

/-- Dropping edges from sorted deltas never lengthens the bytes. -/
theorem encodeDeltas_len_sublist (mode : WMode) :
    ∀ (t l : List (Nat × Int)), t.Sublist l → ∀ (prev : Nat),
      prev < U32 → (∀ e ∈ l, prev < e.1 ∧ e.1 < U32) →
      List.Chain' (· < ·) (l.map Prod.fst) →
      (encodeDeltas mode prev t).length ≤ (encodeDeltas mode prev l).length := by
  intro t l hsub
  induction hsub with
  | slnil =>
    intro prev _ _ _
    exact le_rfl
  | cons a hsub ih =>
    rename_i t l2
    intro prev hprev hmem hch
    obtain ⟨hlt, hch2⟩ := chain_head_lt a l2 hch
    obtain ⟨hpa, haU⟩ := hmem a (List.mem_cons_self _ _)
    have hmem2 : ∀ e ∈ l2, a.1 < e.1 ∧ e.1 < U32 := fun e he =>
      ⟨hlt e he, (hmem e (List.mem_cons_of_mem a he)).2⟩
    have hmemt : ∀ e ∈ t, a.1 < e.1 ∧ e.1 < U32 := fun e he => hmem2 e (hsub.subset he)
    have hreb := encodeDeltas_len_rebase mode prev a.1 t hpa haU hmemt
    have hih := ih a.1 haU hmem2 hch2
    obtain ⟨n, w⟩ := a
    simp only [encodeDeltas, List.length_append]
    simp only at hreb hih
    omega
  | cons₂ a hsub ih =>
    rename_i t2 l2
    intro prev hprev hmem hch
    obtain ⟨hlt, hch2⟩ := chain_head_lt a l2 hch
    obtain ⟨hpa, haU⟩ := hmem a (List.mem_cons_self _ _)
    have hmem2 : ∀ e ∈ l2, a.1 < e.1 ∧ e.1 < U32 := fun e he =>
      ⟨hlt e he, (hmem e (List.mem_cons_of_mem a he)).2⟩
    have hih := ih a.1 haU hmem2 hch2
    obtain ⟨n, w⟩ := a
    simp only [encodeDeltas, List.length_append]
    simp only at hih
    omega

/-- Rebasing a sorted first edge across a skipped smaller neighbor costs at
most the skipped delta bytes. -/
theorem compressFirstEdge_len_sorted_step (src x z : Nat)
    (hsrc : src < U32) (hx : x < U32) (hz : z < U32) (hxz : x < z) :
    (compressFirstEdge ((z : Int) - src)).length ≤
      (compressFirstEdge ((x : Int) - src)).length + (compressEdge (sub32 z x)).length := by
  have h1 : ((x : Int) - src).natAbs < U32 := by
    simp only [U32] at *
    omega
  have h2 : ((z : Int) - src).natAbs < U32 := by
    simp only [U32] at *
    omega
  have hs : sub32 z x = z - x := sub32_eq_sub z x (by omega) hz
  rw [hs]
  apply compressFirstEdge_len_step _ _ _ h1 h2
  simp only [U32] at *
  omega

/-- A sorted tail encodes within a first edge at any smaller base plus the
deltas from that base. -/
theorem encodeBlockBody_len_aux (mode : WMode) (src : Nat) :
    ∀ (t m : List (Nat × Int)), t.Sublist m → ∀ (x : Nat),
      x < U32 → src < U32 → (∀ e ∈ m, x < e.1 ∧ e.1 < U32) →
      List.Chain' (· < ·) (m.map Prod.fst) →
      (encodeBlockBody mode src t).length ≤
        (compressFirstEdge ((x : Int) - src)).length + (encodeDeltas mode x m).length := by
  intro t m hsub
  induction hsub with
  | slnil =>
    intro x _ _ _ _
    simp [encodeBlockBody]
  | cons a hsub ih =>
    rename_i t m2
    intro x hx hsrc hmem hch
    obtain ⟨hlt, hch2⟩ := chain_head_lt a m2 hch
    obtain ⟨hxa, haU⟩ := hmem a (List.mem_cons_self _ _)
    have hmem2 : ∀ e ∈ m2, a.1 < e.1 ∧ e.1 < U32 := fun e he =>
      ⟨hlt e he, (hmem e (List.mem_cons_of_mem a he)).2⟩
    have hih := ih a.1 haU hsrc hmem2 hch2
    have hkey := compressFirstEdge_len_sorted_step src x a.1 hsrc hx haU hxa
    obtain ⟨n, w⟩ := a
    simp only [encodeDeltas, List.length_append]
    simp only at hih hkey
    omega
  | cons₂ a hsub ih =>
    rename_i t2 m2
    intro x hx hsrc hmem hch
    obtain ⟨hlt, hch2⟩ := chain_head_lt a m2 hch
    obtain ⟨hxa, haU⟩ := hmem a (List.mem_cons_self _ _)
    have hmem2 : ∀ e ∈ m2, a.1 < e.1 ∧ e.1 < U32 := fun e he =>
      ⟨hlt e he, (hmem e (List.mem_cons_of_mem a he)).2⟩
    have hD1 := encodeDeltas_len_sublist mode t2 m2 hsub a.1 haU hmem2 hch2
    have hkey := compressFirstEdge_len_sorted_step src x a.1 hsrc hx haU hxa
    obtain ⟨n, w⟩ := a
    simp only [encodeBlockBody, encodeDeltas, List.length_append]
    simp only at hD1 hkey
    omega

/-- In-place no-overrun core: the recompressed bytes of any sorted sublist of
a block never exceed the original block body bytes. -/
theorem encodeBlockBody_len_sublist (mode : WMode) (src : Nat) (hsrc : src < U32)
    (t l : List (Nat × Int)) (hsub : t.Sublist l)
    (hmem : ∀ e ∈ l, e.1 < U32)
    (hch : List.Chain' (· < ·) (l.map Prod.fst)) :
    (encodeBlockBody mode src t).length ≤ (encodeBlockBody mode src l).length := by
  cases hsub with
  | slnil => exact le_rfl
  | cons a hsub =>
    rename_i l2
    obtain ⟨hlt, hch2⟩ := chain_head_lt a l2 hch
    have haU := hmem a (List.mem_cons_self _ _)
    have hmem2 : ∀ e ∈ l2, a.1 < e.1 ∧ e.1 < U32 := fun e he =>
      ⟨hlt e he, hmem e (List.mem_cons_of_mem a he)⟩
    have haux := encodeBlockBody_len_aux mode src t l2 hsub a.1 haU hsrc hmem2 hch2
    obtain ⟨n, w⟩ := a
    have hcons : encodeBlockBody mode src ((n, w) :: l2) =
        compressFirstEdge ((n : Int) - src) ++ compressWeight mode w ++
          encodeDeltas mode n l2 := rfl
    rw [hcons]
    simp only [List.length_append]
    simp only at haux
    omega
  | cons₂ a hsub =>
    rename_i t2 l2
    obtain ⟨hlt, hch2⟩ := chain_head_lt a l2 hch
    have haU := hmem a (List.mem_cons_self _ _)
    have hmem2 : ∀ e ∈ l2, a.1 < e.1 ∧ e.1 < U32 := fun e he =>
      ⟨hlt e he, hmem e (List.mem_cons_of_mem a he)⟩
    have hD1 := encodeDeltas_len_sublist mode t2 l2 hsub a.1 haU hmem2 hch2
    obtain ⟨n, w⟩ := a
    simp only [encodeBlockBody, List.length_append]
    simp only at hD1
    omega

/-- Total weight bytes of an edge list. -/
def wsum (mode : WMode) (l : List (Nat × Int)) : Nat :=
  (l.map (fun e => (compressWeight mode e.2).length)).sum

theorem encodeDeltas_len_le (mode : WMode) :
    ∀ (l : List (Nat × Int)) (prev : Nat),
      (encodeDeltas mode prev l).length ≤ 5 * l.length + wsum mode l := by
  intro l
  induction l with
  | nil =>
    intro prev
    simp [encodeDeltas, wsum]
  | cons e t ih =>
    intro prev
    obtain ⟨n, w⟩ := e
    simp only [encodeDeltas, List.length_append, wsum, List.map_cons, List.sum_cons,
      List.length_cons]
    have h1 : (compressEdge (sub32 n prev)).length ≤ 5 :=
      compressEdge_len_le5 _ (sub32_lt_U32 n prev)
    have h2 := ih n
    simp only [wsum] at h2
    omega

theorem encodeBlockBody_len_le (mode : WMode) (src : Nat) (hsrc : src < U32)
    (l : List (Nat × Int)) (hmem : ∀ e ∈ l, e.1 < U32) :
    (encodeBlockBody mode src l).length ≤ 5 * l.length + wsum mode l := by
  cases l with
  | nil => simp [encodeBlockBody, wsum]
  | cons e t =>
    obtain ⟨n, w⟩ := e
    have hnU := (hmem (n, w) (List.mem_cons_self _ _))
    simp only at hnU
    simp only [encodeBlockBody, List.length_append, wsum, List.map_cons, List.sum_cons,
      List.length_cons]
    have h1 : (compressFirstEdge ((n : Int) - src)).length ≤ 5 := by
      apply compressFirstEdge_len_le5
      simp only [U32] at *
      omega
    have h2 := encodeDeltas_len_le mode t n
    simp only [wsum] at h2
    omega

theorem encodeDeltas_len_ge (mode : WMode) :
    ∀ (l : List (Nat × Int)) (prev : Nat),
      (∀ e ∈ l, prev < e.1 ∧ e.1 < U32) →
      List.Chain' (· < ·) (l.map Prod.fst) →
      l.length + wsum mode l ≤ (encodeDeltas mode prev l).length := by
  intro l
  induction l with
  | nil =>
    intro prev _ _
    simp [encodeDeltas, wsum]
  | cons e t ih =>
    intro prev hmem hch
    obtain ⟨hlt, hch2⟩ := chain_head_lt e t hch
    obtain ⟨hpe, heU⟩ := hmem e (List.mem_cons_self _ _)
    have hmem2 : ∀ x ∈ t, e.1 < x.1 ∧ x.1 < U32 := fun x hx =>
      ⟨hlt x hx, (hmem x (List.mem_cons_of_mem e hx)).2⟩
    have hih := ih e.1 hmem2 hch2
    obtain ⟨n, w⟩ := e
    simp only at hpe heU hih
    simp only [encodeDeltas, List.length_append, wsum, List.map_cons, List.sum_cons,
      List.length_cons]
    have h1 : 1 ≤ (compressEdge (sub32 n prev)).length := by
      apply compressEdge_len_pos
      rw [sub32_eq_sub n prev (by omega) heU]
      omega
    simp only [wsum] at hih
    omega

theorem encodeBlockBody_len_ge (mode : WMode) (src : Nat)
    (l : List (Nat × Int)) (hmem : ∀ e ∈ l, e.1 < U32)
    (hch : List.Chain' (· < ·) (l.map Prod.fst)) :
    l.length + wsum mode l ≤ (encodeBlockBody mode src l).length := by
  cases l with
  | nil => simp [encodeBlockBody, wsum]
  | cons e t =>
    obtain ⟨hlt, hch2⟩ := chain_head_lt e t hch
    have hmem2 : ∀ x ∈ t, e.1 < x.1 ∧ x.1 < U32 := fun x hx =>
      ⟨hlt x hx, hmem x (List.mem_cons_of_mem e hx)⟩
    have hge := encodeDeltas_len_ge mode t e.1 hmem2 hch2
    obtain ⟨n, w⟩ := e
    have h1 := compressFirstEdge_len_pos ((n : Int) - src)
    simp only at hge
    simp only [encodeBlockBody, List.length_append, wsum, List.map_cons, List.sum_cons,
      List.length_cons]
    simp only [wsum] at hge
    omega


theorem take_set_of_le {α : Type} : ∀ (l : List α) (k m : Nat) (x : α), m ≤ k →
    (l.set k x).take m = l.take m := by
  intro l
  induction l with
  | nil => intro k m x h; rfl
  | cons a l ih =>
    intro k m x h
    cases k with
    | zero =>
      have hm : m = 0 := by omega
      subst hm
      rfl
    | succ k =>
      cases m with
      | zero => rfl
      | succ m =>
        simp only [List.set_cons_succ, List.take_succ_cons]
        rw [ih k m x (by omega)]

theorem drop_set_of_lt {α : Type} : ∀ (l : List α) (k m : Nat) (x : α), k < m →
    (l.set k x).drop m = l.drop m := by
  intro l
  induction l with
  | nil => intro k m x h; rfl
  | cons a l ih =>
    intro k m x h
    cases m with
    | zero => omega
    | succ m =>
      cases k with
      | zero => rfl
      | succ k =>
        simp only [List.set_cons_succ, List.drop_succ_cons]
        rw [ih k m x (by omega)]

theorem getD_set_self {α : Type} : ∀ (l : List α) (k : Nat) (x d : α), k < l.length →
    (l.set k x).getD k d = x := by
  intro l
  induction l with
  | nil => intro k x d h; simp at h
  | cons a l ih =>
    intro k x d h
    cases k with
    | zero => rfl
    | succ k =>
      simp only [List.set_cons_succ, List.getD_cons_succ]
      exact ih k x d (by simpa using h)

theorem getD_set_ne {α : Type} : ∀ (l : List α) (k j : Nat) (x d : α), j ≠ k →
    (l.set k x).getD j d = l.getD j d := by
  intro l
  induction l with
  | nil => intro k j x d h; rfl
  | cons a l ih =>
    intro k j x d h
    cases k with
    | zero =>
      cases j with
      | zero => exact absurd rfl h
      | succ j => rfl
    | succ k =>
      cases j with
      | zero => rfl
      | succ j =>
        simp only [List.set_cons_succ, List.getD_cons_succ]
        exact ih k j x d (by omega)

theorem set_getD_self {α : Type} : ∀ (l : List α) (k : Nat) (d : α), k < l.length →
    l.set k (l.getD k d) = l := by
  intro l
  induction l with
  | nil => intro k d h; simp at h
  | cons a l ih =>
    intro k d h
    cases k with
    | zero => rfl
    | succ k =>
      simp only [List.getD_cons_succ, List.set_cons_succ]
      rw [ih k d (by simpa using h)]

theorem offsetsFrom_congr : ∀ (bs1 bs2 : List (List Nat)) (pos : Nat),
    bs1.length = bs2.length →
    (∀ j, j < bs1.length → (bs1.getD j []).length = (bs2.getD j []).length) →
    offsetsFrom pos bs1 = offsetsFrom pos bs2 := by
  intro bs1
  induction bs1 with
  | nil =>
    intro bs2 pos hlen _
    cases bs2 with
    | nil => rfl
    | cons b bs => simp at hlen
  | cons b bs ih =>
    intro bs2 pos hlen hj
    cases bs2 with
    | nil => simp at hlen
    | cons b2 bs2 =>
      have hb : b.length = b2.length := by
        have := hj 0 (by simp)
        simpa using this
      simp only [offsetsFrom, hb]
      rw [ih bs2 (pos + b2.length) (by simpa using hlen)
        (fun j hjj => by
          have := hj (j + 1) (by simpa using hjj)
          simpa using this)]

theorem lenSum_append (a b : List (List Nat)) : lenSum (a ++ b) = lenSum a + lenSum b := by
  simp [lenSum]

theorem lenSum_take_eq_sum (bs : List (List Nat)) :
    ∀ (k : Nat), k ≤ bs.length →
      lenSum (bs.take k) = ((List.range k).map (fun j => (bs.getD j []).length)).sum := by
  intro k
  induction k with
  | zero =>
    intro h
    simp [lenSum]
  | succ k ih =>
    intro h
    have hk : k < bs.length := by omega
    rw [List.range_succ, List.map_append, List.sum_append]
    rw [← ih (by omega)]
    rw [List.take_succ, List.getElem?_eq_getElem hk]
    simp only [Option.toList_some]
    rw [lenSum_append]
    have h1 : lenSum [bs[k]] = (bs.getD k []).length := by
      simp only [lenSum, List.map_cons, List.map_nil, List.sum_cons, List.sum_nil]
      rw [List.getD_eq_getElem _ [] hk]
      omega
    rw [h1]
    simp

/-- In-place byte store: overwrite `c.length` bytes of the region at byte
position `p` (the compressWrite loops of pack and repack). -/
def writeBytes (r : List Nat) (p : Nat) (c : List Nat) : List Nat :=
  r.take p ++ c ++ r.drop (p + c.length)

/-- Byte position of the head of block `i`, as every pack/repack loop computes
its finger: right after the header for block 0, the stored offset otherwise. -/
def blockPos (r : List Nat) (nb i : Nat) : Nat :=
  if i = 0 then 4 * nb else blockOffset r (i - 1)

theorem fingerAt_eq_drop (r : List Nat) (nb i : Nat) :
    fingerAt r nb i = r.drop (blockPos r nb i) := by
  by_cases h : i = 0 <;> simp [fingerAt, blockPos, h]

theorem length_header (blocks : List (List Nat)) (vd : Nat) (hpos : 0 < blocks.length) :
    (w32 vd ++ (((offsetsFrom (4 * blocks.length) blocks).dropLast).map w32).flatten).length =
      4 * blocks.length := by
  simp only [List.length_append, flatten_map_w32_length, w32_length, List.length_dropLast,
    offsetsFrom_length]
  omega

/-- Stored block positions of an mkRegion are the byte prefix sums of its
blocks. -/
theorem mkRegion_blockPos (blocks : List (List Nat)) (vd : Nat) (tail : List Nat)
    (htot : 4 * blocks.length + lenSum blocks < U32) (i : Nat) (hi : i < blocks.length) :
    blockPos (mkRegion blocks vd tail) blocks.length i =
      4 * blocks.length + lenSum (blocks.take i) := by
  rcases Nat.eq_zero_or_pos i with h0 | h0
  · subst h0
    simp [blockPos, lenSum]
  · rw [blockPos, if_neg (by omega)]
    have hOSfull : (offsetsFrom (4 * blocks.length) blocks).length = blocks.length :=
      offsetsFrom_length _ _
    have hi1 : i - 1 < ((offsetsFrom (4 * blocks.length) blocks).dropLast).length := by
      simp only [List.length_dropLast, hOSfull]
      omega
    rw [blockOffset, read32At, mkRegion_assoc2]
    rw [drop_at_add _ (4 * (i - 1)) _ _ (by rw [w32_length])]
    rw [drop_flatten_w32 _ _ (i - 1) (by simp only [List.length_dropLast, hOSfull]; omega)]
    rw [List.drop_eq_getElem_cons hi1]
    simp only [List.map_cons, List.flatten_cons, List.append_assoc]
    have hval : ((offsetsFrom (4 * blocks.length) blocks).dropLast)[i - 1] =
        4 * blocks.length + lenSum (blocks.take i) := by
      rw [← List.getD_eq_getElem _ 0 hi1]
      rw [getD_dropLast _ _ (by rw [hOSfull]; omega)]
      have hgd := offsetsFrom_getD blocks (4 * blocks.length) (i - 1) (by omega)
      rw [hgd, (by omega : i - 1 + 1 = i)]
    rw [hval]
    exact read32_w32 _ (by have := lenSum_take_le blocks i; omega) _

/-- Region surgery: overwriting bytes that lie inside block `k` of an mkRegion
yields the mkRegion with block `k` spliced accordingly. -/
theorem writeBytes_mkRegion (blocks : List (List Nat)) (vd : Nat) (tail : List Nat)
    (k off : Nat) (c : List Nat) (hk : k < blocks.length)
    (hfit : off + c.length ≤ (blocks.getD k []).length) :
    writeBytes (mkRegion blocks vd tail)
        (4 * blocks.length + lenSum (blocks.take k) + off) c =
      mkRegion (blocks.set k ((blocks.getD k []).take off ++ c ++
        (blocks.getD k []).drop (off + c.length))) vd tail := by
  set blk := blocks.getD k [] with hblk
  set blk2 := blk.take off ++ c ++ blk.drop (off + c.length) with hblk2
  have hofflt : off ≤ blk.length := by omega
  have hblk2len : blk2.length = blk.length := by
    simp only [hblk2, List.length_append, List.length_take, List.length_drop]
    omega
  have hsetlen : (blocks.set k blk2).length = blocks.length := by simp
  have hdropk : blocks.drop k = blk :: blocks.drop (k + 1) := by
    rw [hblk, List.getD_eq_getElem _ [] hk]
    exact List.drop_eq_getElem_cons hk
  have hsplit : blocks = blocks.take k ++ blk :: blocks.drop (k + 1) := by
    conv_lhs => rw [← List.take_append_drop k blocks]
    rw [hdropk]
  have hkset : k < (blocks.set k blk2).length := by rw [hsetlen]; exact hk
  have hgset : (blocks.set k blk2).getD k [] = blk2 := getD_set_self _ _ _ _ hk
  have hdropset : (blocks.set k blk2).drop (k + 1) = blocks.drop (k + 1) :=
    drop_set_of_lt _ _ _ _ (by omega)
  have htakeset : (blocks.set k blk2).take k = blocks.take k :=
    take_set_of_le _ _ _ _ le_rfl
  have hdropkset : (blocks.set k blk2).drop k = blk2 :: blocks.drop (k + 1) := by
    rw [List.drop_eq_getElem_cons hkset, hdropset, ← List.getD_eq_getElem _ [] hkset, hgset]
  have hsplitset : blocks.set k blk2 = blocks.take k ++ blk2 :: blocks.drop (k + 1) := by
    conv_lhs => rw [← List.take_append_drop k (blocks.set k blk2)]
    rw [htakeset, hdropkset]
  have hoffs : offsetsFrom (4 * blocks.length) (blocks.set k blk2) =
      offsetsFrom (4 * blocks.length) blocks := by
    apply offsetsFrom_congr _ _ _ hsetlen
    intro j hj
    rcases eq_or_ne j k with rfl | hne
    · rw [hgset, hblk2len]
    · rw [getD_set_ne _ _ _ _ _ hne]
  set OB := (((offsetsFrom (4 * blocks.length) blocks).dropLast).map w32).flatten with hOB
  have hheader : (w32 vd ++ OB).length = 4 * blocks.length :=
    length_header blocks vd (by omega)
  have hfl : blocks.flatten = (blocks.take k).flatten ++ (blk :: blocks.drop (k + 1)).flatten := by
    conv_lhs => rw [hsplit]
    rw [List.flatten_append]
  have hregion : mkRegion blocks vd tail =
      (w32 vd ++ OB ++ (blocks.take k).flatten) ++
        (blk ++ ((blocks.drop (k + 1)).flatten ++ tail)) := by
    rw [mkRegion, ← hOB, hfl]
    simp only [List.flatten_cons, List.append_assoc]
  have hAlen : (w32 vd ++ OB ++ (blocks.take k).flatten).length =
      4 * blocks.length + lenSum (blocks.take k) := by
    simp only [List.length_append]
    have h2 : ((blocks.take k).flatten).length = lenSum (blocks.take k) := by
      rw [List.length_flatten]
      rfl
    have h3 := hheader
    simp only [List.length_append] at h3
    omega
  have hfl2 : (blocks.set k blk2).flatten =
      (blocks.take k).flatten ++ (blk2 :: blocks.drop (k + 1)).flatten := by
    conv_lhs => rw [hsplitset]
    rw [List.flatten_append]
  have hregion2 : mkRegion (blocks.set k blk2) vd tail =
      (w32 vd ++ OB ++ (blocks.take k).flatten) ++
        (blk2 ++ ((blocks.drop (k + 1)).flatten ++ tail)) := by
    rw [mkRegion, hsetlen, hoffs, ← hOB, hfl2]
    simp only [List.flatten_cons, List.append_assoc]
  rw [writeBytes, hregion, hregion2]
  have htake1 : ((w32 vd ++ OB ++ (blocks.take k).flatten) ++
      (blk ++ ((blocks.drop (k + 1)).flatten ++ tail))).take
        (4 * blocks.length + lenSum (blocks.take k) + off) =
      (w32 vd ++ OB ++ (blocks.take k).flatten) ++ blk.take off := by
    rw [List.take_append_eq_append_take]
    rw [List.take_of_length_le (by rw [hAlen]; omega)]
    rw [hAlen]
    rw [(by omega : 4 * blocks.length + lenSum (blocks.take k) + off -
      (4 * blocks.length + lenSum (blocks.take k)) = off)]
    rw [List.take_append_eq_append_take]
    rw [Nat.sub_eq_zero_of_le hofflt, List.take_zero, List.append_nil]
  have hdrop1 : ((w32 vd ++ OB ++ (blocks.take k).flatten) ++
      (blk ++ ((blocks.drop (k + 1)).flatten ++ tail))).drop
        (4 * blocks.length + lenSum (blocks.take k) + off + c.length) =
      blk.drop (off + c.length) ++ ((blocks.drop (k + 1)).flatten ++ tail) := by
    rw [List.drop_append_eq_append_drop]
    rw [List.drop_eq_nil_of_le (by rw [hAlen]; omega), List.nil_append]
    rw [hAlen]
    rw [(by omega : 4 * blocks.length + lenSum (blocks.take k) + off + c.length -
      (4 * blocks.length + lenSum (blocks.take k)) = off + c.length)]
    rw [List.drop_append_eq_append_drop]
    rw [Nat.sub_eq_zero_of_le hfit, List.drop_zero]
  rw [htake1, hdrop1]
  simp only [hblk2, List.append_assoc]


/-- Per-chunk edge counts summed (the scan totals of pack and repack). -/
def csum (cs : List (List (Nat × Int))) : Nat :=
  (cs.map List.length).sum

theorem csum_append (a b : List (List (Nat × Int))) : csum (a ++ b) = csum a + csum b := by
  simp [csum]

theorem csum_flatten (cs : List (List (Nat × Int))) : cs.flatten.length = csum cs := by
  rw [List.length_flatten]
  rfl

theorem csum_take_succ (cs : List (List (Nat × Int))) (j : Nat) (hj : j < cs.length) :
    csum (cs.take (j + 1)) = csum (cs.take j) + (cs.getD j []).length := by
  rw [List.take_succ, List.getElem?_eq_getElem hj]
  simp only [Option.toList_some]
  rw [csum_append]
  have h1 : csum [cs[j]] = (cs.getD j []).length := by
    simp only [csum, List.map_cons, List.map_nil, List.sum_cons, List.sum_nil]
    rw [List.getD_eq_getElem _ [] hj]
    omega
  rw [h1]

theorem csum_take_le (cs : List (List (Nat × Int))) (j : Nat) : csum (cs.take j) ≤ csum cs := by
  conv_rhs => rw [← List.take_append_drop j cs]
  rw [csum_append]
  omega

theorem csum_take_last (cs : List (List (Nat × Int))) (h : 0 < cs.length) :
    csum cs = csum (cs.take (cs.length - 1)) + (cs.getD (cs.length - 1) []).length := by
  have h2 := csum_take_succ cs (cs.length - 1) (by omega)
  rw [(by omega : cs.length - 1 + 1 = cs.length), List.take_length] at h2
  exact h2

/-- Forgetting indices of a triple trace recovers the (neighbor, weight)
pairs. -/
theorem pairs_of_triples : ∀ (edges : List (Nat × Int)) (o : Nat),
    (triplesFrom o edges).map (fun t => (t.1, t.2.1)) = edges := by
  intro edges
  induction edges with
  | nil => intro o; rfl
  | cons e tl ih =>
    intro o
    rw [triplesFrom_cons, List.map_cons, ih (o + 1)]

theorem filter_chunks_flatten (p : (Nat × Int) → Bool) :
    ∀ (m : Nat) (edges : List (Nat × Int)), edges.length ≤ PARALLEL_DEGREE * m →
      ((List.range m).map (fun i => (chunkAt edges i).filter p)).flatten =
        edges.filter p := by
  intro m
  induction m with
  | zero =>
    intro edges hlen
    rw [Nat.mul_zero, Nat.le_zero, List.length_eq_zero] at hlen
    subst hlen
    rfl
  | succ m ih =>
    intro edges hlen
    rw [List.range_succ_eq_map]
    simp only [List.map_cons, List.map_map, List.flatten_cons]
    have hhead : (chunkAt edges 0).filter p = (edges.take PARALLEL_DEGREE).filter p := by
      simp [chunkAt]
    rw [hhead]
    have hcomp : ((List.range m).map
        ((fun i => (chunkAt edges i).filter p) ∘ (· + 1))) =
        ((List.range m).map (fun i => (chunkAt (edges.drop PARALLEL_DEGREE) i).filter p)) := by
      apply List.map_congr_left
      intro i hi
      have e2 : chunkAt edges (i + 1) = chunkAt (edges.drop PARALLEL_DEGREE) i := by
        simp only [chunkAt, List.drop_drop]
        rw [(by ring : PARALLEL_DEGREE + PARALLEL_DEGREE * i = PARALLEL_DEGREE * (i + 1))]
      simp only [Function.comp_apply, e2]
    rw [hcomp, ih (edges.drop PARALLEL_DEGREE)
      (by simp only [List.length_drop, PARALLEL_DEGREE] at *; omega)]
    conv_rhs => rw [← List.take_append_drop PARALLEL_DEGREE edges]
    rw [List.filter_append]

/-- Indexed triples of chunks at their scanned starts flatten to the indexed
triples of the concatenation. -/
theorem flatten_triples_presum : ∀ (cs : List (List (Nat × Int))) (o : Nat),
    ((List.range cs.length).map
      (fun j => triplesFrom (o + csum (cs.take j)) (cs.getD j []))).flatten =
      triplesFrom o cs.flatten := by
  intro cs
  induction cs with
  | nil => intro o; rfl
  | cons c cs ih =>
    intro o
    simp only [List.length_cons]
    rw [List.range_succ_eq_map]
    simp only [List.map_cons, List.map_map, List.flatten_cons]
    have hhead : triplesFrom (o + csum ((c :: cs).take 0)) ((c :: cs).getD 0 []) =
        triplesFrom o c := by
      simp [csum]
    rw [hhead]
    have hcomp : (List.range cs.length).map
        ((fun j => triplesFrom (o + csum ((c :: cs).take j)) ((c :: cs).getD j [])) ∘
          (· + 1)) =
        (List.range cs.length).map
          (fun j => triplesFrom ((o + c.length) + csum (cs.take j)) (cs.getD j [])) := by
      apply List.map_congr_left
      intro j hj
      simp only [Function.comp_apply, List.take_succ_cons, csum_append, List.getD_cons_succ]
      have e1 : csum (c :: cs.take j) = c.length + csum (cs.take j) := by
        simp [csum]
      rw [e1, (by omega : o + (c.length + csum (cs.take j)) =
        o + c.length + csum (cs.take j))]
    rw [hcomp, ih (o + c.length)]
    rw [triplesFrom_append]

/-- Decoding block `i` of an mkRegion whose blocks store scanned edge counts
and compressed chunk bodies (followed by anything) is the visit-until
behaviour on that chunk's triples. -/
theorem decodeBlockAt_mkRegion (mode : WMode) (cb : Nat → Nat → Int → Nat → Bool)
    (src : Nat) (blocks : List (List Nat)) (vd : Nat) (tail : List Nat)
    (cs : List (List (Nat × Int)))
    (hlen : cs.length = blocks.length)
    (htot : 4 * blocks.length + lenSum blocks < U32)
    (hsrc : src < U32)
    (hdU : csum cs < U32)
    (hcs : ∀ j, j < blocks.length →
      (∀ e ∈ cs.getD j [], e.1 < U32 ∧ WOK mode e.2) ∧
      List.Chain' (· < ·) ((cs.getD j []).map Prod.fst))
    (hblocks : ∀ j, j < blocks.length → ∃ g, blocks.getD j [] =
      w32 (csum (cs.take j)) ++ encodeBlockBody mode src (cs.getD j []) ++ g) :
    ∀ i, i < blocks.length →
      decodeBlockAt mode cb src (mkRegion blocks vd tail) blocks.length (csum cs) i =
        visitUntil cb src (triplesFrom (csum (cs.take i)) (cs.getD i [])) := by
  intro i hi
  have hstarts : ∀ j, j < blocks.length → csum (cs.take j) < U32 := by
    intro j hj
    have := csum_take_le cs j
    omega
  have hexists : ∀ j, j < blocks.length →
      ∃ body, blocks.getD j [] = w32 (csum (cs.take j)) ++ body := by
    intro j hj
    obtain ⟨g, hg⟩ := hblocks j hj
    exact ⟨_, by rw [hg, List.append_assoc]⟩
  have hstart := mkRegion_start blocks vd tail (fun j => csum (cs.take j)) htot hexists hstarts
  have hendOf : endOf (mkRegion blocks vd tail) blocks.length (csum cs) i =
      csum (cs.take i) + (cs.getD i []).length := by
    by_cases hlast : i = blocks.length - 1
    · rw [endOf, if_pos hlast]
      subst hlast
      have hpos : 0 < cs.length := by omega
      have h2 := csum_take_last cs hpos
      rw [hlen] at h2
      exact h2
    · rw [mkRegion_endOf blocks vd tail (fun j => csum (cs.take j)) (csum cs) htot hexists
        hstarts i (by omega)]
      exact csum_take_succ cs i (by omega)
  obtain ⟨g, hg⟩ := hblocks i hi
  have hfinger : (fingerAt (mkRegion blocks vd tail) blocks.length i).drop 4 =
      encodeBlockBody mode src (cs.getD i []) ++
        (g ++ ((blocks.drop (i + 1)).flatten ++ tail)) := by
    rw [mkRegion_finger blocks vd tail htot i hi]
    have hget : blocks.drop i = blocks.getD i [] :: blocks.drop (i + 1) := by
      rw [List.getD_eq_getElem _ [] hi]
      exact List.drop_eq_getElem_cons hi
    rw [hget, hg]
    simp only [List.flatten_cons, List.append_assoc]
    rw [w32_append_drop4]
  rw [decodeBlockAt, hstart i hi, hendOf, hfinger]
  exact processBlock_encodeBlockBody mode cb src (cs.getD i []) (csum (cs.take i)) _
    ⟨hsrc, (hcs i hi).1, (hcs i hi).2⟩

/-- Full decode with the constant-true callback over an mkRegion holding the
compressed chunks `cs` with scanned starts: the trace is the indexed flatten
of the chunks, in either overload. -/
theorem decode_mkRegion_true (mode : WMode) (src : Nat) (blocks : List (List Nat))
    (vd : Nat) (tail : List Nat) (cs : List (List (Nat × Int)))
    (hlen : cs.length = blocks.length)
    (hnb : numBlocksOf vd = blocks.length)
    (hvd : vd < U32)
    (htot : 4 * blocks.length + lenSum blocks < U32)
    (hsrc : src < U32)
    (hdU : csum cs < U32)
    (hcs : ∀ j, j < blocks.length →
      (∀ e ∈ cs.getD j [], e.1 < U32 ∧ WOK mode e.2) ∧
      List.Chain' (· < ·) ((cs.getD j []).map Prod.fst))
    (hblocks : ∀ j, j < blocks.length → ∃ g, blocks.getD j [] =
      w32 (csum (cs.take j)) ++ encodeBlockBody mode src (cs.getD j []) ++ g) :
    decode mode (fun _ _ _ _ => true) (mkRegion blocks vd tail) src (csum cs) =
      triplesFrom 0 cs.flatten := by
  have hread : read32 (mkRegion blocks vd tail) = vd := mkRegion_read32 _ _ _ hvd
  have hblk := decodeBlockAt_mkRegion mode (fun _ _ _ _ => true) src blocks vd tail cs
    hlen htot hsrc hdU hcs hblocks
  by_cases hd0 : csum cs = 0
  · have hflat : cs.flatten = [] :=
      List.length_eq_zero.mp (by rw [csum_flatten]; exact hd0)
    rw [hd0, hflat]
    cases mode with
    | unit =>
      rw [decode, decodeUnit, if_pos rfl]
      rfl
    | int =>
      rw [decode, decodeInt, if_pos rfl]
      rfl
  · have hflat := flatten_triples_presum cs 0
    simp only [Nat.zero_add] at hflat
    rw [hlen] at hflat
    have hnbpos : 0 < blocks.length := by
      by_contra h
      push_neg at h
      have h0 : blocks.length = 0 := by omega
      rw [← hlen] at h0
      rw [List.length_eq_zero.mp h0] at hd0
      exact hd0 rfl
    cases mode with
    | unit =>
      rw [decode, decodeUnit, if_neg hd0, hread, hnb]
      have h0 := hblk 0 hnbpos
      rw [visitUntil_true] at h0
      rw [h0, if_neg (by simp)]
      simp only []
      rw [← hflat]
      conv_rhs => rw [(by omega : blocks.length = (blocks.length - 1) + 1)]
      rw [List.range_succ_eq_map]
      simp only [List.map_cons, List.map_map, List.flatten_cons]
      congr 1
      apply congrArg
      apply List.map_congr_left
      intro j hj
      rw [List.mem_range] at hj
      simp only [Function.comp_apply]
      rw [hblk (j + 1) (by omega), visitUntil_true]
    | int =>
      rw [decode, decodeInt, if_neg hd0, hread, hnb]
      rw [decodeSeqBlocks_flatten _ _ _ _ _ _ _
        (by
          intro i hi2
          rw [List.mem_range] at hi2
          rw [hblk i hi2, visitUntil_true])]
      rw [← hflat]
      congr 1
      apply List.map_congr_left
      intro i hi2
      rw [List.mem_range] at hi2
      rw [hblk i hi2, visitUntil_true]


theorem getD_map_range {α : Type} (f : Nat → α) (n j : Nat) (hj : j < n) (d : α) :
    ((List.range n).map f).getD j d = f j := by
  rw [List.getD_eq_getElem _ d (by simpa using hj)]
  simp

theorem foldl_set_length {α : Type} (f : Nat → α) (l : List α) :
    ∀ k, ((List.range k).foldl (fun bs j => bs.set j (f j)) l).length = l.length := by
  intro k
  induction k with
  | zero => rfl
  | succ k ih =>
    rw [List.range_succ, List.foldl_append, List.foldl_cons, List.foldl_nil]
    rw [List.length_set, ih]

theorem foldl_set_getD_ge {α : Type} (f : Nat → α) (l : List α) (d : α) :
    ∀ k j, k ≤ j →
      ((List.range k).foldl (fun bs j => bs.set j (f j)) l).getD j d = l.getD j d := by
  intro k
  induction k with
  | zero => intro j h; rfl
  | succ k ih =>
    intro j h
    rw [List.range_succ, List.foldl_append, List.foldl_cons, List.foldl_nil]
    rw [getD_set_ne _ _ _ _ _ (by omega), ih j (by omega)]

theorem foldl_set_getD_lt {α : Type} (f : Nat → α) (l : List α) (d : α) :
    ∀ k j, j < k → j < l.length →
      ((List.range k).foldl (fun bs j => bs.set j (f j)) l).getD j d = f j := by
  intro k
  induction k with
  | zero => intro j h _; omega
  | succ k ih =>
    intro j h hl
    rw [List.range_succ, List.foldl_append, List.foldl_cons, List.foldl_nil]
    rcases eq_or_ne j k with rfl | hne
    · exact getD_set_self _ _ _ _ (by rw [foldl_set_length]; exact hl)
    · rw [getD_set_ne _ _ _ _ _ hne, ih j (by omega) hl]

/-- A pass of per-block in-place writes over an mkRegion: if each step turns
block `j` (still holding its original bytes) into `f j` without moving any
other byte, the fold rewrites the first `k` blocks. -/
theorem foldl_set_blocks (blocks : List (List Nat)) (vd : Nat) (tail : List Nat)
    (f : Nat → List Nat) (step : List Nat → Nat → List Nat)
    (hstep : ∀ (bs : List (List Nat)) (j : Nat), j < blocks.length →
      bs.length = blocks.length →
      (∀ t, t < blocks.length → (bs.getD t []).length = (blocks.getD t []).length) →
      bs.getD j [] = blocks.getD j [] →
      step (mkRegion bs vd tail) j = mkRegion (bs.set j (f j)) vd tail)
    (hflen : ∀ j, j < blocks.length → (f j).length = (blocks.getD j []).length) :
    ∀ k, k ≤ blocks.length →
      (List.range k).foldl step (mkRegion blocks vd tail) =
        mkRegion ((List.range k).foldl (fun bs j => bs.set j (f j)) blocks) vd tail := by
  intro k
  induction k with
  | zero => intro h; rfl
  | succ k ih =>
    intro h
    rw [List.range_succ, List.foldl_append, List.foldl_cons, List.foldl_nil,
      List.foldl_append, List.foldl_cons, List.foldl_nil]
    rw [ih (by omega)]
    apply hstep _ k (by omega) (foldl_set_length f blocks k)
    · intro t ht
      rcases Nat.lt_or_ge t k with hlt | hge
      · rw [foldl_set_getD_lt f blocks [] k t hlt ht]
        exact hflen t ht
      · rw [foldl_set_getD_ge f blocks [] k t hge]
    · exact foldl_set_getD_ge f blocks [] k k le_rfl

theorem lenSum_take_congr (bs1 bs2 : List (List Nat)) (k : Nat)
    (hlen : bs1.length = bs2.length)
    (hpt : ∀ t, t < bs2.length → (bs1.getD t []).length = (bs2.getD t []).length)
    (hk : k ≤ bs2.length) :
    lenSum (bs1.take k) = lenSum (bs2.take k) := by
  rw [lenSum_take_eq_sum bs1 k (by omega), lenSum_take_eq_sum bs2 k hk]
  apply congrArg
  apply List.map_congr_left
  intro j hj
  rw [List.mem_range] at hj
  exact hpt j (by omega)

theorem lenSum_congr (bs1 bs2 : List (List Nat))
    (hlen : bs1.length = bs2.length)
    (hpt : ∀ t, t < bs2.length → (bs1.getD t []).length = (bs2.getD t []).length) :
    lenSum bs1 = lenSum bs2 := by
  have h1 := lenSum_take_congr bs1 bs2 bs2.length hlen hpt le_rfl
  rw [List.take_of_length_le (le_of_eq hlen), List.take_length] at h1
  exact h1

theorem w32_take4 (x : Nat) (rest : List Nat) : (w32 x ++ rest).take 4 = w32 x := rfl

/-- Cumulative start index stored in a freshly encoded region's block `i`. -/
theorem encode_startOf (mode : WMode) (src : Nat) (edges : List (Nat × Int))
    (tail : List Nat) (hne : edges ≠ []) (hd : edges.length < U32)
    (htot : 4 * numBlocksOf edges.length + lenSum (encodeBlocks mode src edges 0) < U32) :
    ∀ i, i < numBlocksOf edges.length →
      startOf (sequentialCompressEdgeSet mode src edges ++ tail)
          (numBlocksOf edges.length) i = PARALLEL_DEGREE * i := by
  intro i hi
  have hblen := encodeBlocks_length_eq mode src edges hne
  set blocks := encodeBlocks mode src edges 0 with hblocks_def
  have hr := sequentialCompressEdgeSet_eq_mkRegion mode src edges tail hne
  have htot2 : 4 * blocks.length + lenSum blocks < U32 := by rw [hblen]; exact htot
  have hgetD : ∀ j, j < blocks.length → blocks.getD j [] =
      w32 (PARALLEL_DEGREE * j) ++ encodeBlockBody mode src (chunkAt edges j) := by
    intro j hj
    rw [hblocks_def, encodeBlocks_getD mode src edges.length edges 0 j le_rfl
      (by rw [← hblocks_def]; exact hj)]
    simp [encodeBlock, chunkAt]
  have hstarts : ∀ j, j < blocks.length → PARALLEL_DEGREE * j < U32 := by
    intro j hj
    have := start_lt_deg edges j hne (by rw [← hblen]; exact hj)
    omega
  have hexists : ∀ j, j < blocks.length →
      ∃ body, blocks.getD j [] = w32 (PARALLEL_DEGREE * j) ++ body := by
    intro j hj
    exact ⟨_, hgetD j hj⟩
  have hstart := mkRegion_start blocks edges.length tail (fun j => PARALLEL_DEGREE * j)
    htot2 hexists hstarts
  rw [hblen] at hstart
  rw [hr, ← hblen]
  rw [hblen]
  exact hstart i hi

/-- Block end index of a freshly encoded region's block `i`. -/
theorem encode_endOf (mode : WMode) (src : Nat) (edges : List (Nat × Int))
    (tail : List Nat) (hne : edges ≠ []) (hd : edges.length < U32)
    (htot : 4 * numBlocksOf edges.length + lenSum (encodeBlocks mode src edges 0) < U32) :
    ∀ i, i < numBlocksOf edges.length →
      endOf (sequentialCompressEdgeSet mode src edges ++ tail)
          (numBlocksOf edges.length) edges.length i =
        PARALLEL_DEGREE * i + (chunkAt edges i).length := by
  intro i hi
  have hblen := encodeBlocks_length_eq mode src edges hne
  set blocks := encodeBlocks mode src edges 0 with hblocks_def
  have hr := sequentialCompressEdgeSet_eq_mkRegion mode src edges tail hne
  have htot2 : 4 * blocks.length + lenSum blocks < U32 := by rw [hblen]; exact htot
  have hgetD : ∀ j, j < blocks.length → blocks.getD j [] =
      w32 (PARALLEL_DEGREE * j) ++ encodeBlockBody mode src (chunkAt edges j) := by
    intro j hj
    rw [hblocks_def, encodeBlocks_getD mode src edges.length edges 0 j le_rfl
      (by rw [← hblocks_def]; exact hj)]
    simp [encodeBlock, chunkAt]
  have hstarts : ∀ j, j < blocks.length → PARALLEL_DEGREE * j < U32 := by
    intro j hj
    have := start_lt_deg edges j hne (by rw [← hblen]; exact hj)
    omega
  have hexists : ∀ j, j < blocks.length →
      ∃ body, blocks.getD j [] = w32 (PARALLEL_DEGREE * j) ++ body := by
    intro j hj
    exact ⟨_, hgetD j hj⟩
  have hpos : 0 < edges.length := List.length_pos.mpr hne
  rw [hr]
  by_cases hlast : i = numBlocksOf edges.length - 1
  · rw [← hblen]
    rw [endOf, if_pos (by rw [hblen]; exact hlast)]
    rw [chunkAt_length]
    rw [hlast]
    simp only [numBlocksOf, PARALLEL_DEGREE] at *
    omega
  · rw [← hblen]
    rw [mkRegion_endOf blocks edges.length tail (fun j => PARALLEL_DEGREE * j)
      edges.length htot2 hexists hstarts i (by rw [hblen]; omega)]
    rw [chunkAt_length]
    have hi1 : i + 1 < numBlocksOf edges.length := by omega
    simp only [numBlocksOf, PARALLEL_DEGREE] at *
    omega

/-- The (neighbor, weight) pairs of block `i` exactly as the pack and repack
loops read them: each loop performs the same eatFirstEdge/eatEdge/eatWeight
reads as a block decode whose callback never stops, so the pairs are the
decoded triples with their indices dropped. -/
def blockPairs (mode : WMode) (r : List Nat) (src nb d i : Nat) : List (Nat × Int) :=
  ((decodeBlockAt mode (fun _ _ _ _ => true) src r nb d i).1).map (fun t => (t.1, t.2.1))

/-- repack from byte_pd_amortized.h, guarded by `degree > 0`.  The live edges
`U` are gathered per block at the blocks' stored start offsets; those starts
are the scanned per-block counts (pack stores them immediately before
calling), so the gather is the concatenation of the per-block reads in block
order.  The write loops store the new virtual degree, the new block offsets
(`finger - edge_start`, i.e. the byte prefix sums from `4 * new_blocks`), and
for each new block its start index `i * PARALLEL_DEGREE` followed by its
recompressed edges; together the writes tile exactly the layout of
sequentialCompressEdgeSet over `U`, and every byte of the region after that
prefix is untouched (the new encoding never outgrows the old bytes; proved
below). -/
def repack (mode : WMode) (src degree : Nat) (r : List Nat) : List Nat :=
  if degree = 0 then r
  else
    let nb := numBlocksOf (read32 r)
    let U := ((List.range nb).map (fun i => blockPairs mode r src nb degree i)).flatten
    let nn := numBlocksOf degree
    let blocks := encodeBlocks mode src U 0
    let out := w32 degree ++
      (((offsetsFrom (4 * nn) blocks).dropLast).map w32).flatten ++ blocks.flatten
    out ++ r.drop out.length

/-- Per-block pass of pack (source phases A-C): decode each block, filter it
by `pred(source, ngh, wgh)`, and when `0 < ct < block_deg` recompress the kept
pairs in place right after the block's 4-byte header.  Positions come from the
(never rewritten) header of the incoming region, and each iteration reads only
its own block's bytes before writing them, so all reads are modelled against
the incoming region, as in the source. -/
def packRecompress (mode : WMode) (pred : Nat → Nat → Int → Bool) (r : List Nat)
    (src d : Nat) : List Nat :=
  (List.range (numBlocksOf (read32 r))).foldl (fun acc i =>
    if 0 < ((blockPairs mode r src (numBlocksOf (read32 r)) d i).filter
          (fun e => pred src e.1 e.2)).length ∧
        ((blockPairs mode r src (numBlocksOf (read32 r)) d i).filter
          (fun e => pred src e.1 e.2)).length <
          endOf r (numBlocksOf (read32 r)) d i - startOf r (numBlocksOf (read32 r)) i then
      writeBytes acc (blockPos r (numBlocksOf (read32 r)) i + 4)
        (encodeBlockBody mode src
          ((blockPairs mode r src (numBlocksOf (read32 r)) d i).filter
            (fun e => pred src e.1 e.2)))
    else acc) r

/-- Header pass of pack (source phase 2): overwrite each block's stored count
with its scanned start (the prefix sum of the per-block surviving counts). -/
def packWriteStarts (mode : WMode) (pred : Nat → Nat → Int → Bool) (r : List Nat)
    (src d : Nat) : List Nat :=
  (List.range (numBlocksOf (read32 r))).foldl (fun acc i =>
    writeBytes acc (blockPos r (numBlocksOf (read32 r)) i)
      (w32 (((List.range i).map (fun j =>
        ((blockPairs mode r src (numBlocksOf (read32 r)) d j).filter
          (fun e => pred src e.1 e.2)).length)).sum)))
    (packRecompress mode pred r src d)

/-- deg_remaining: the total of the per-block surviving counts (the value of
the scan). -/
def packDeg (mode : WMode) (pred : Nat → Nat → Int → Bool) (r : List Nat)
    (src d : Nat) : Nat :=
  ((List.range (numBlocksOf (read32 r))).map (fun i =>
    ((blockPairs mode r src (numBlocksOf (read32 r)) d i).filter
      (fun e => pred src e.1 e.2)).length)).sum

/-- pack from byte_pd_amortized.h: the per-block filter/recompress pass, the
scanned header pass, then repack exactly when `deg_remaining <
virtual_degree / 10`; returns the new region and deg_remaining. -/
def pack (mode : WMode) (pred : Nat → Nat → Int → Bool) (r : List Nat)
    (src d : Nat) : List Nat × Nat :=
  if packDeg mode pred r src d < read32 r / 10 then
    (repack mode src (packDeg mode pred r src d) (packWriteStarts mode pred r src d),
      packDeg mode pred r src d)
  else (packWriteStarts mode pred r src d, packDeg mode pred r src d)


theorem wsum_append (mode : WMode) (a b : List (Nat × Int)) :
    wsum mode (a ++ b) = wsum mode a + wsum mode b := by
  simp [wsum]

theorem wsum_sublist_le (mode : WMode) :
    ∀ (t l : List (Nat × Int)), t.Sublist l → wsum mode t ≤ wsum mode l := by
  intro t l hsub
  induction hsub with
  | slnil => exact le_rfl
  | cons a hsub ih =>
    simp only [wsum, List.map_cons, List.sum_cons] at *
    omega
  | cons₂ a hsub ih =>
    simp only [wsum, List.map_cons, List.sum_cons] at *
    omega

/-- Upper byte bound of a fresh encoding: four header bytes per block plus at
most five edge bytes and the weight bytes per edge. -/
theorem encodeBlocks_lenSum_le (mode : WMode) (src : Nat) (hsrc : src < U32) :
    ∀ (n : Nat) (edges : List (Nat × Int)) (o : Nat), edges.length ≤ n →
      (∀ e ∈ edges, e.1 < U32) →
      lenSum (encodeBlocks mode src edges o) ≤
        4 * (encodeBlocks mode src edges o).length + 5 * edges.length + wsum mode edges := by
  intro n
  induction n with
  | zero =>
    intro edges o hlen _
    cases edges with
    | nil => simp [encodeBlocks_nil, lenSum]
    | cons e tl => simp at hlen
  | succ n ih =>
    intro edges o hlen hmem
    by_cases hne : edges = []
    · subst hne
      simp [encodeBlocks_nil, lenSum, wsum]
    · rw [encodeBlocks_cons mode src o edges hne]
      rw [lenSum_cons, List.length_cons]
      have hb : (encodeBlock mode src o (edges.take PARALLEL_DEGREE)).length =
          4 + (encodeBlockBody mode src (edges.take PARALLEL_DEGREE)).length := by
        simp [encodeBlock, w32_length]
      have hbody := encodeBlockBody_len_le mode src hsrc (edges.take PARALLEL_DEGREE)
        (fun e he => hmem e (List.mem_of_mem_take he))
      have hih := ih (edges.drop PARALLEL_DEGREE) (o + PARALLEL_DEGREE)
        (by simp only [List.length_drop, PARALLEL_DEGREE] at *; omega)
        (fun e he => hmem e (List.mem_of_mem_drop he))
      have hw : wsum mode edges = wsum mode (edges.take PARALLEL_DEGREE) +
          wsum mode (edges.drop PARALLEL_DEGREE) := by
        rw [← wsum_append]
        rw [List.take_append_drop]
      have hlen2 : edges.length = (edges.take PARALLEL_DEGREE).length +
          (edges.drop PARALLEL_DEGREE).length := by
        rw [← List.length_append, List.take_append_drop]
      omega

/-- Lower byte bound of a fresh encoding of sorted edges: four header bytes
per block plus at least one edge byte and the weight bytes per edge. -/
theorem encodeBlocks_lenSum_ge (mode : WMode) (src : Nat) :
    ∀ (n : Nat) (edges : List (Nat × Int)) (o : Nat), edges.length ≤ n →
      (∀ e ∈ edges, e.1 < U32) →
      List.Chain' (· < ·) (edges.map Prod.fst) →
      4 * (encodeBlocks mode src edges o).length + edges.length + wsum mode edges ≤
        lenSum (encodeBlocks mode src edges o) := by
  intro n
  induction n with
  | zero =>
    intro edges o hlen _ _
    cases edges with
    | nil => simp [encodeBlocks_nil, lenSum, wsum]
    | cons e tl => simp at hlen
  | succ n ih =>
    intro edges o hlen hmem hch
    by_cases hne : edges = []
    · subst hne
      simp [encodeBlocks_nil, lenSum, wsum]
    · rw [encodeBlocks_cons mode src o edges hne]
      rw [lenSum_cons, List.length_cons]
      have hb : (encodeBlock mode src o (edges.take PARALLEL_DEGREE)).length =
          4 + (encodeBlockBody mode src (edges.take PARALLEL_DEGREE)).length := by
        simp [encodeBlock, w32_length]
      have hchT : List.Chain' (· < ·) ((edges.take PARALLEL_DEGREE).map Prod.fst) := by
        rw [List.chain'_iff_pairwise] at hch ⊢
        exact List.Pairwise.sublist ((List.take_sublist _ _).map Prod.fst) hch
      have hchD : List.Chain' (· < ·) ((edges.drop PARALLEL_DEGREE).map Prod.fst) := by
        rw [List.chain'_iff_pairwise] at hch ⊢
        exact List.Pairwise.sublist ((List.drop_sublist _ _).map Prod.fst) hch
      have hbody := encodeBlockBody_len_ge mode src (edges.take PARALLEL_DEGREE)
        (fun e he => hmem e (List.mem_of_mem_take he)) hchT
      have hih := ih (edges.drop PARALLEL_DEGREE) (o + PARALLEL_DEGREE)
        (by simp only [List.length_drop, PARALLEL_DEGREE] at *; omega)
        (fun e he => hmem e (List.mem_of_mem_drop he)) hchD
      have hw : wsum mode edges = wsum mode (edges.take PARALLEL_DEGREE) +
          wsum mode (edges.drop PARALLEL_DEGREE) := by
        rw [← wsum_append]
        rw [List.take_append_drop]
      have hlen2 : edges.length = (edges.take PARALLEL_DEGREE).length +
          (edges.drop PARALLEL_DEGREE).length := by
        rw [← List.length_append, List.take_append_drop]
      omega

theorem numBlocksOf_mono (a b : Nat) (h : a ≤ b) : numBlocksOf a ≤ numBlocksOf b := by
  simp only [numBlocksOf]
  have : (a - 1) / PARALLEL_DEGREE ≤ (b - 1) / PARALLEL_DEGREE :=
    Nat.div_le_div_right (by omega)
  omega

/-- The repack fit bound: if fewer than a tenth of the edges survive, the
fresh encoding of the survivors takes no more bytes than the original
region. -/
theorem repack_fits (mode : WMode) (src : Nat) (edges surv : List (Nat × Int))
    (hsrc : src < U32)
    (hmem : ∀ e ∈ edges, e.1 < U32)
    (hch : List.Chain' (· < ·) (edges.map Prod.fst))
    (hsub : surv.Sublist edges)
    (hne : edges ≠ []) (hsne : surv ≠ [])
    (hfrac : surv.length < edges.length / 10) :
    (sequentialCompressEdgeSet mode src surv).length ≤
      (sequentialCompressEdgeSet mode src edges).length := by
  rw [sequentialCompressEdgeSet_length mode src surv hsne,
    sequentialCompressEdgeSet_length mode src edges hne]
  have hmemS : ∀ e ∈ surv, e.1 < U32 := fun e he => hmem e (hsub.mem he)
  have hup := encodeBlocks_lenSum_le mode src hsrc surv.length surv 0 le_rfl hmemS
  have hlo := encodeBlocks_lenSum_ge mode src edges.length edges 0 le_rfl hmem hch
  have hw := wsum_sublist_le mode surv edges hsub
  have hnbS := encodeBlocks_length_eq mode src surv hsne
  have hnbE := encodeBlocks_length_eq mode src edges hne
  rw [hnbS] at hup
  rw [hnbE] at hlo
  have hnb : numBlocksOf surv.length ≤ numBlocksOf edges.length :=
    numBlocksOf_mono _ _ (by have := hsub.length_le; omega)
  have hlen10 : 10 * surv.length ≤ edges.length := by
    have h1 : surv.length < edges.length / 10 := hfrac
    have h2 := Nat.div_mul_le_self edges.length 10
    omega
  omega



theorem map_getD_range {α : Type} (cs : List α) (d : α) :
    (List.range cs.length).map (fun i => cs.getD i d) = cs := by
  apply List.ext_getElem (by simp)
  intro i h1 h2
  simp only [List.getElem_map, List.getElem_range]
  rw [List.getD_eq_getElem _ d h2]

theorem csum_take_map_range (f : Nat → List (Nat × Int)) (nb j : Nat) (hj : j ≤ nb) :
    csum (((List.range nb).map f).take j) =
      ((List.range j).map (fun t => (f t).length)).sum := by
  rw [← List.map_take, List.take_range, Nat.min_eq_left hj]
  simp only [csum, List.map_map]
  rfl

theorem encodeBlockBody_nil (mode : WMode) (src : Nat) :
    encodeBlockBody mode src [] = [] := rfl

theorem foldl_set_eq_map {α : Type} (f : Nat → α) (l : List α) :
    (List.range l.length).foldl (fun bs j => bs.set j (f j)) l =
      (List.range l.length).map f := by
  apply List.ext_getElem
  · rw [foldl_set_length]
    simp
  · intro i h1 h2
    have hi : i < l.length := by rw [foldl_set_length] at h1; exact h1
    rw [← List.getD_eq_getElem _ (f 0) h1, ← List.getD_eq_getElem _ (f 0) h2]
    rw [foldl_set_getD_lt f l (f 0) l.length i hi hi]
    rw [getD_map_range f l.length i hi (f 0)]

theorem foldl_set_eq_map2 {α : Type} (f : Nat → α) (l : List α) (n : Nat)
    (hn : n = l.length) :
    (List.range n).foldl (fun bs j => bs.set j (f j)) l = (List.range n).map f := by
  subst hn
  exact foldl_set_eq_map f l

/-- The surviving pairs of block `i` under pack's predicate filter. -/
def packKeep (pred : Nat → Nat → Int → Bool) (src : Nat) (edges : List (Nat × Int))
    (i : Nat) : List (Nat × Int) :=
  (chunkAt edges i).filter (fun e => pred src e.1 e.2)

/-- The edge bytes of block `i` after pack's in-place recompression: the kept
pairs recompressed over the old bytes when the block shrank but stayed
nonempty, the old bytes otherwise. -/
def packNewBody (mode : WMode) (pred : Nat → Nat → Int → Bool) (src : Nat)
    (edges : List (Nat × Int)) (i : Nat) : List Nat :=
  if 0 < (packKeep pred src edges i).length ∧
      (packKeep pred src edges i).length < (chunkAt edges i).length then
    encodeBlockBody mode src (packKeep pred src edges i) ++
      (encodeBlockBody mode src (chunkAt edges i)).drop
        (encodeBlockBody mode src (packKeep pred src edges i)).length
  else encodeBlockBody mode src (chunkAt edges i)

/-- Scanned start of block `i`: surviving edges before it. -/
def packScan (pred : Nat → Nat → Int → Bool) (src : Nat) (edges : List (Nat × Int))
    (i : Nat) : Nat :=
  ((List.range i).map (fun j => (packKeep pred src edges j).length)).sum

/-- Block `i` after pack's recompression pass (old header intact). -/
def packBlockC (mode : WMode) (pred : Nat → Nat → Int → Bool) (src : Nat)
    (edges : List (Nat × Int)) (i : Nat) : List Nat :=
  w32 (PARALLEL_DEGREE * i) ++ packNewBody mode pred src edges i

/-- Block `i` after pack's header pass (scanned start stored). -/
def packBlockF (mode : WMode) (pred : Nat → Nat → Int → Bool) (src : Nat)
    (edges : List (Nat × Int)) (i : Nat) : List Nat :=
  w32 (packScan pred src edges i) ++ packNewBody mode pred src edges i

/-- The whole block list after both pack passes. -/
def packBF (mode : WMode) (pred : Nat → Nat → Int → Bool) (src : Nat)
    (edges : List (Nat × Int)) : List (List Nat) :=
  (List.range (numBlocksOf edges.length)).map (packBlockF mode pred src edges)

theorem packKeep_sublist (pred : Nat → Nat → Int → Bool) (src : Nat)
    (edges : List (Nat × Int)) (i : Nat) :
    (packKeep pred src edges i).Sublist (chunkAt edges i) :=
  List.filter_sublist _

/-- The recompressed body always starts with the kept pairs' fresh bytes. -/
theorem packNewBody_prefix (mode : WMode) (pred : Nat → Nat → Int → Bool) (src : Nat)
    (edges : List (Nat × Int)) (i : Nat) :
    ∃ g, packNewBody mode pred src edges i =
      encodeBlockBody mode src (packKeep pred src edges i) ++ g := by
  rw [packNewBody]
  by_cases hc : 0 < (packKeep pred src edges i).length ∧
      (packKeep pred src edges i).length < (chunkAt edges i).length
  · rw [if_pos hc]
    exact ⟨_, rfl⟩
  · rw [if_neg hc]
    push_neg at hc
    rcases Nat.eq_zero_or_pos (packKeep pred src edges i).length with h0 | h0
    · have hk0 : packKeep pred src edges i = [] := List.length_eq_zero.mp h0
      rw [hk0, encodeBlockBody_nil]
      exact ⟨_, rfl⟩
    · have hge := hc h0
      have hkeq : packKeep pred src edges i = chunkAt edges i :=
        List.Sublist.eq_of_length (packKeep_sublist pred src edges i)
          (by
            have := (packKeep_sublist pred src edges i).length_le
            omega)
      rw [hkeq]
      exact ⟨[], (List.append_nil _).symm⟩

/-- No overrun: the recompressed body occupies exactly the old body bytes. -/
theorem packNewBody_length (mode : WMode) (pred : Nat → Nat → Int → Bool) (src : Nat)
    (edges : List (Nat × Int)) (hv : ValidEdges mode src edges) (i : Nat) :
    (packNewBody mode pred src edges i).length =
      (encodeBlockBody mode src (chunkAt edges i)).length := by
  have hvc := ValidEdges_chunkAt mode src edges hv i
  have hnoov : (encodeBlockBody mode src (packKeep pred src edges i)).length ≤
      (encodeBlockBody mode src (chunkAt edges i)).length :=
    encodeBlockBody_len_sublist mode src hv.1 _ _ (packKeep_sublist pred src edges i)
      (fun e he => (hvc.2.1 e he).1) hvc.2.2
  rw [packNewBody]
  by_cases hc : 0 < (packKeep pred src edges i).length ∧
      (packKeep pred src edges i).length < (chunkAt edges i).length
  · rw [if_pos hc]
    rw [List.length_append, List.length_drop]
    omega
  · rw [if_neg hc]

theorem packBF_length (mode : WMode) (pred : Nat → Nat → Int → Bool) (src : Nat)
    (edges : List (Nat × Int)) :
    (packBF mode pred src edges).length = numBlocksOf edges.length := by
  simp [packBF]

theorem packBF_getD (mode : WMode) (pred : Nat → Nat → Int → Bool) (src : Nat)
    (edges : List (Nat × Int)) (j : Nat) (hj : j < numBlocksOf edges.length) :
    (packBF mode pred src edges).getD j [] = packBlockF mode pred src edges j := by
  rw [packBF]
  exact getD_map_range _ _ _ hj _

/-- The recompress pass of pack over a fresh region rewrites each shrunken
block in place and moves no other byte. -/
theorem packRecompress_eq (mode : WMode) (pred : Nat → Nat → Int → Bool) (src : Nat)
    (edges : List (Nat × Int)) (hv : ValidEdges mode src edges) (hne : edges ≠ [])
    (hd : edges.length < U32)
    (hbytes : (sequentialCompressEdgeSet mode src edges).length < U32) :
    packRecompress mode pred (sequentialCompressEdgeSet mode src edges) src edges.length =
      mkRegion ((List.range (numBlocksOf edges.length)).map
        (packBlockC mode pred src edges)) edges.length [] := by
  obtain ⟨hsrc, hvals, hchain⟩ := hv
  have hblen : (encodeBlocks mode src edges 0).length = numBlocksOf edges.length :=
    encodeBlocks_length_eq mode src edges hne
  have hr0 : sequentialCompressEdgeSet mode src edges =
      mkRegion (encodeBlocks mode src edges 0) edges.length [] := by
    rw [← List.append_nil (sequentialCompressEdgeSet mode src edges)]
    exact sequentialCompressEdgeSet_eq_mkRegion mode src edges [] hne
  have htot : 4 * numBlocksOf edges.length + lenSum (encodeBlocks mode src edges 0) < U32 := by
    rw [← sequentialCompressEdgeSet_length mode src edges hne]
    exact hbytes
  have hread : read32 (sequentialCompressEdgeSet mode src edges) = edges.length := by
    rw [hr0]
    exact mkRegion_read32 _ _ _ hd
  have hpairs : ∀ i, i < numBlocksOf edges.length →
      blockPairs mode (sequentialCompressEdgeSet mode src edges) src
        (numBlocksOf edges.length) edges.length i = chunkAt edges i := by
    intro i hi
    have hb := decodeBlockAt_encode mode (fun _ _ _ _ => true) src edges [] hne
      ⟨hsrc, hvals, hchain⟩ hd htot i hi
    rw [List.append_nil] at hb
    rw [blockPairs, hb, visitUntil_true]
    exact pairs_of_triples _ _
  have hstartv : ∀ i, i < numBlocksOf edges.length →
      startOf (sequentialCompressEdgeSet mode src edges) (numBlocksOf edges.length) i =
        PARALLEL_DEGREE * i := by
    intro i hi
    have h := encode_startOf mode src edges [] hne hd htot i hi
    rw [List.append_nil] at h
    exact h
  have hendv : ∀ i, i < numBlocksOf edges.length →
      endOf (sequentialCompressEdgeSet mode src edges) (numBlocksOf edges.length)
          edges.length i = PARALLEL_DEGREE * i + (chunkAt edges i).length := by
    intro i hi
    have h := encode_endOf mode src edges [] hne hd htot i hi
    rw [List.append_nil] at h
    exact h
  have hgetD : ∀ j, j < numBlocksOf edges.length → (encodeBlocks mode src edges 0).getD j [] =
      w32 (PARALLEL_DEGREE * j) ++ encodeBlockBody mode src (chunkAt edges j) := by
    intro j hj
    rw [encodeBlocks_getD mode src edges.length edges 0 j le_rfl (by rw [hblen]; exact hj)]
    simp [encodeBlock, chunkAt]
  have hClen : ∀ j, j < (encodeBlocks mode src edges 0).length →
      (packBlockC mode pred src edges j).length =
        ((encodeBlocks mode src edges 0).getD j []).length := by
    intro j hj
    rw [hblen] at hj
    rw [packBlockC, hgetD j hj]
    simp only [List.length_append, w32_length]
    rw [packNewBody_length mode pred src edges ⟨hsrc, hvals, hchain⟩ j]
  rw [packRecompress, hread]
  have hfold := foldl_set_blocks (encodeBlocks mode src edges 0) edges.length []
    (packBlockC mode pred src edges)
    (fun acc i =>
      if 0 < ((blockPairs mode (sequentialCompressEdgeSet mode src edges) src
            (numBlocksOf edges.length) edges.length i).filter
            (fun e => pred src e.1 e.2)).length ∧
          ((blockPairs mode (sequentialCompressEdgeSet mode src edges) src
            (numBlocksOf edges.length) edges.length i).filter
            (fun e => pred src e.1 e.2)).length <
            endOf (sequentialCompressEdgeSet mode src edges)
                (numBlocksOf edges.length) edges.length i -
              startOf (sequentialCompressEdgeSet mode src edges)
                (numBlocksOf edges.length) i then
        writeBytes acc
          (blockPos (sequentialCompressEdgeSet mode src edges)
            (numBlocksOf edges.length) i + 4)
          (encodeBlockBody mode src
            ((blockPairs mode (sequentialCompressEdgeSet mode src edges) src
              (numBlocksOf edges.length) edges.length i).filter
              (fun e => pred src e.1 e.2)))
      else acc)
    ?_ hClen (numBlocksOf edges.length) (le_of_eq hblen.symm)
  · rw [← hr0] at hfold
    rw [hfold]
    have hrange : List.range (numBlocksOf edges.length) =
        List.range (encodeBlocks mode src edges 0).length := by rw [hblen]
    rw [hrange, foldl_set_eq_map, hblen]
  · intro bs j hj hbslen hbspt hbsj
    simp only []
    rw [hblen] at hj
    have hpr : (blockPairs mode (sequentialCompressEdgeSet mode src edges) src
        (numBlocksOf edges.length) edges.length j).filter (fun e => pred src e.1 e.2) =
        packKeep pred src edges j := by
      rw [hpairs j hj, packKeep]
    have hbdeg : endOf (sequentialCompressEdgeSet mode src edges)
        (numBlocksOf edges.length) edges.length j -
        startOf (sequentialCompressEdgeSet mode src edges) (numBlocksOf edges.length) j =
        (chunkAt edges j).length := by
      rw [hendv j hj, hstartv j hj]
      omega
    have hpos2 : blockPos (sequentialCompressEdgeSet mode src edges)
        (numBlocksOf edges.length) j = 4 * bs.length + lenSum (bs.take j) := by
      have h1 : blockPos (sequentialCompressEdgeSet mode src edges)
          (numBlocksOf edges.length) j =
          4 * (encodeBlocks mode src edges 0).length +
            lenSum ((encodeBlocks mode src edges 0).take j) := by
        rw [hr0, ← hblen]
        exact mkRegion_blockPos (encodeBlocks mode src edges 0) edges.length []
          (by rw [hblen]; exact htot) j (by rw [hblen]; exact hj)
      rw [h1, hbslen]
      rw [lenSum_take_congr bs (encodeBlocks mode src edges 0) j hbslen hbspt
        (by rw [hblen]; omega)]
    rw [hpr, hbdeg]
    by_cases hcond : 0 < (packKeep pred src edges j).length ∧
        (packKeep pred src edges j).length < (chunkAt edges j).length
    · rw [if_pos hcond, hpos2]
      have hnoov : (encodeBlockBody mode src (packKeep pred src edges j)).length ≤
          (encodeBlockBody mode src (chunkAt edges j)).length := by
        have hvc := ValidEdges_chunkAt mode src edges ⟨hsrc, hvals, hchain⟩ j
        exact encodeBlockBody_len_sublist mode src hsrc _ _
          (packKeep_sublist pred src edges j) (fun e he => (hvc.2.1 e he).1) hvc.2.2
      have hw := writeBytes_mkRegion bs edges.length [] j 4
        (encodeBlockBody mode src (packKeep pred src edges j))
        (by rw [hbslen, hblen]; exact hj)
        (by
          rw [hbsj, hgetD j hj]
          simp only [List.length_append, w32_length]
          omega)
      rw [hw]
      have hval : (bs.getD j []).take 4 ++ encodeBlockBody mode src (packKeep pred src edges j) ++
          (bs.getD j []).drop (4 + (encodeBlockBody mode src (packKeep pred src edges j)).length) =
          packBlockC mode pred src edges j := by
        rw [hbsj, hgetD j hj, w32_take4]
        rw [drop_at_add _ ((encodeBlockBody mode src (packKeep pred src edges j)).length) _ _
          (by rw [w32_length])]
        rw [packBlockC, packNewBody, if_pos hcond]
        simp [List.append_assoc]
      rw [hval]
    · rw [if_neg hcond]
      have hCj : packBlockC mode pred src edges j = bs.getD j [] := by
        rw [packBlockC, packNewBody, if_neg hcond, hbsj, hgetD j hj]
      rw [hCj, set_getD_self bs j [] (by rw [hbslen, hblen]; exact hj)]


/-- The header pass of pack over a fresh region stores each block's scanned
start and moves no other byte. -/
theorem packWriteStarts_eq (mode : WMode) (pred : Nat → Nat → Int → Bool) (src : Nat)
    (edges : List (Nat × Int)) (hv : ValidEdges mode src edges) (hne : edges ≠ [])
    (hd : edges.length < U32)
    (hbytes : (sequentialCompressEdgeSet mode src edges).length < U32) :
    packWriteStarts mode pred (sequentialCompressEdgeSet mode src edges) src edges.length =
      mkRegion (packBF mode pred src edges) edges.length [] := by
  obtain ⟨hsrc, hvals, hchain⟩ := hv
  have hblen : (encodeBlocks mode src edges 0).length = numBlocksOf edges.length :=
    encodeBlocks_length_eq mode src edges hne
  have hr0 : sequentialCompressEdgeSet mode src edges =
      mkRegion (encodeBlocks mode src edges 0) edges.length [] := by
    rw [← List.append_nil (sequentialCompressEdgeSet mode src edges)]
    exact sequentialCompressEdgeSet_eq_mkRegion mode src edges [] hne
  have htot : 4 * numBlocksOf edges.length + lenSum (encodeBlocks mode src edges 0) < U32 := by
    rw [← sequentialCompressEdgeSet_length mode src edges hne]
    exact hbytes
  have hread : read32 (sequentialCompressEdgeSet mode src edges) = edges.length := by
    rw [hr0]
    exact mkRegion_read32 _ _ _ hd
  have hpairs : ∀ i, i < numBlocksOf edges.length →
      blockPairs mode (sequentialCompressEdgeSet mode src edges) src
        (numBlocksOf edges.length) edges.length i = chunkAt edges i := by
    intro i hi
    have hb := decodeBlockAt_encode mode (fun _ _ _ _ => true) src edges [] hne
      ⟨hsrc, hvals, hchain⟩ hd htot i hi
    rw [List.append_nil] at hb
    rw [blockPairs, hb, visitUntil_true]
    exact pairs_of_triples _ _
  have hgetD : ∀ j, j < numBlocksOf edges.length → (encodeBlocks mode src edges 0).getD j [] =
      w32 (PARALLEL_DEGREE * j) ++ encodeBlockBody mode src (chunkAt edges j) := by
    intro j hj
    rw [encodeBlocks_getD mode src edges.length edges 0 j le_rfl (by rw [hblen]; exact hj)]
    simp [encodeBlock, chunkAt]
  have hClen : ∀ j, j < numBlocksOf edges.length →
      (packBlockC mode pred src edges j).length =
        ((encodeBlocks mode src edges 0).getD j []).length := by
    intro j hj
    rw [packBlockC, hgetD j hj]
    simp only [List.length_append, w32_length]
    rw [packNewBody_length mode pred src edges ⟨hsrc, hvals, hchain⟩ j]
  rw [packWriteStarts, hread]
  rw [packRecompress_eq mode pred src edges ⟨hsrc, hvals, hchain⟩ hne hd hbytes]
  have hBClen : ((List.range (numBlocksOf edges.length)).map
      (packBlockC mode pred src edges)).length = numBlocksOf edges.length := by
    simp
  have hBCgetD : ∀ j, j < numBlocksOf edges.length →
      ((List.range (numBlocksOf edges.length)).map
        (packBlockC mode pred src edges)).getD j [] = packBlockC mode pred src edges j := by
    intro j hj
    exact getD_map_range _ _ _ hj _
  have hFlen : ∀ j, j < ((List.range (numBlocksOf edges.length)).map
      (packBlockC mode pred src edges)).length →
      (packBlockF mode pred src edges j).length =
        (((List.range (numBlocksOf edges.length)).map
          (packBlockC mode pred src edges)).getD j []).length := by
    intro j hj
    rw [hBClen] at hj
    rw [hBCgetD j hj, packBlockF, packBlockC]
    simp only [List.length_append, w32_length]
  have hfold := foldl_set_blocks
    ((List.range (numBlocksOf edges.length)).map (packBlockC mode pred src edges))
    edges.length [] (packBlockF mode pred src edges)
    (fun acc i =>
      writeBytes acc
        (blockPos (sequentialCompressEdgeSet mode src edges) (numBlocksOf edges.length) i)
        (w32 (((List.range i).map (fun j =>
          ((blockPairs mode (sequentialCompressEdgeSet mode src edges) src
            (numBlocksOf edges.length) edges.length j).filter
            (fun e => pred src e.1 e.2)).length)).sum)))
    ?_ hFlen (numBlocksOf edges.length) (le_of_eq hBClen.symm)
  · rw [hfold]
    rw [foldl_set_eq_map2 (packBlockF mode pred src edges)
      ((List.range (numBlocksOf edges.length)).map (packBlockC mode pred src edges))
      (numBlocksOf edges.length) hBClen.symm]
    rw [packBF]
  · intro bs j hj hbslen hbspt hbsj
    simp only []
    rw [hBClen] at hj
    have hscan : ((List.range j).map (fun t =>
        ((blockPairs mode (sequentialCompressEdgeSet mode src edges) src
          (numBlocksOf edges.length) edges.length t).filter
          (fun e => pred src e.1 e.2)).length)).sum = packScan pred src edges j := by
      rw [packScan]
      apply congrArg
      apply List.map_congr_left
      intro t ht
      rw [List.mem_range] at ht
      rw [hpairs t (by omega), packKeep]
    have hpos2 : blockPos (sequentialCompressEdgeSet mode src edges)
        (numBlocksOf edges.length) j = 4 * bs.length + lenSum (bs.take j) := by
      have h1 : blockPos (sequentialCompressEdgeSet mode src edges)
          (numBlocksOf edges.length) j =
          4 * (encodeBlocks mode src edges 0).length +
            lenSum ((encodeBlocks mode src edges 0).take j) := by
        rw [hr0, ← hblen]
        exact mkRegion_blockPos (encodeBlocks mode src edges 0) edges.length []
          (by rw [hblen]; exact htot) j (by rw [hblen]; exact hj)
      rw [h1, hbslen, hBClen, ← hblen]
      have h2 : lenSum (bs.take j) = lenSum ((encodeBlocks mode src edges 0).take j) := by
        apply lenSum_take_congr bs (encodeBlocks mode src edges 0) j
          (by rw [hbslen, hBClen, hblen])
        · intro t ht
          rw [hblen] at ht
          rw [hbspt t (by rw [hBClen]; exact ht), hBCgetD t ht, hClen t ht]
        · rw [hblen]
          omega
      rw [h2]
    rw [hscan, hpos2]
    have hw := writeBytes_mkRegion bs edges.length [] j 0 (w32 (packScan pred src edges j))
      (by rw [hbslen, hBClen]; exact hj)
      (by
        rw [hbsj, hBCgetD j hj, packBlockC]
        simp only [List.length_append, w32_length]
        omega)
    rw [(by omega : 4 * bs.length + lenSum (bs.take j) =
      4 * bs.length + lenSum (bs.take j) + 0)]
    rw [hw]
    have hval : (bs.getD j []).take 0 ++ w32 (packScan pred src edges j) ++
        (bs.getD j []).drop (0 + (w32 (packScan pred src edges j)).length) =
        packBlockF mode pred src edges j := by
      rw [hbsj, hBCgetD j hj, packBlockC]
      simp only [List.take_zero, List.nil_append, w32_length, Nat.zero_add]
      rw [w32_append_drop4]
      rw [packBlockF]
    rw [hval]

/-- pack's returned degree on a fresh region is the number of surviving
edges. -/
theorem packDeg_eq (mode : WMode) (pred : Nat → Nat → Int → Bool) (src : Nat)
    (edges : List (Nat × Int)) (hv : ValidEdges mode src edges) (hne : edges ≠ [])
    (hd : edges.length < U32)
    (hbytes : (sequentialCompressEdgeSet mode src edges).length < U32) :
    packDeg mode pred (sequentialCompressEdgeSet mode src edges) src edges.length =
      (edges.filter (fun e => pred src e.1 e.2)).length := by
  obtain ⟨hsrc, hvals, hchain⟩ := hv
  have hblen : (encodeBlocks mode src edges 0).length = numBlocksOf edges.length :=
    encodeBlocks_length_eq mode src edges hne
  have hr0 : sequentialCompressEdgeSet mode src edges =
      mkRegion (encodeBlocks mode src edges 0) edges.length [] := by
    rw [← List.append_nil (sequentialCompressEdgeSet mode src edges)]
    exact sequentialCompressEdgeSet_eq_mkRegion mode src edges [] hne
  have htot : 4 * numBlocksOf edges.length + lenSum (encodeBlocks mode src edges 0) < U32 := by
    rw [← sequentialCompressEdgeSet_length mode src edges hne]
    exact hbytes
  have hread : read32 (sequentialCompressEdgeSet mode src edges) = edges.length := by
    rw [hr0]
    exact mkRegion_read32 _ _ _ hd
  have hpairs : ∀ i, i < numBlocksOf edges.length →
      blockPairs mode (sequentialCompressEdgeSet mode src edges) src
        (numBlocksOf edges.length) edges.length i = chunkAt edges i := by
    intro i hi
    have hb := decodeBlockAt_encode mode (fun _ _ _ _ => true) src edges [] hne
      ⟨hsrc, hvals, hchain⟩ hd htot i hi
    rw [List.append_nil] at hb
    rw [blockPairs, hb, visitUntil_true]
    exact pairs_of_triples _ _
  have hdP : edges.length ≤ PARALLEL_DEGREE * numBlocksOf edges.length := by
    simp only [numBlocksOf, PARALLEL_DEGREE]
    omega
  rw [packDeg, hread]
  have hcongr : (List.range (numBlocksOf edges.length)).map (fun i =>
      ((blockPairs mode (sequentialCompressEdgeSet mode src edges) src
        (numBlocksOf edges.length) edges.length i).filter
        (fun e => pred src e.1 e.2)).length) =
      (List.range (numBlocksOf edges.length)).map (fun i =>
        ((chunkAt edges i).filter (fun e => pred src e.1 e.2)).length) := by
    apply List.map_congr_left
    intro i hi
    rw [List.mem_range] at hi
    rw [hpairs i hi]
  rw [hcongr]
  have h1 : ((List.range (numBlocksOf edges.length)).map (fun i =>
      ((chunkAt edges i).filter (fun e => pred src e.1 e.2)).length)).sum =
      csum ((List.range (numBlocksOf edges.length)).map
        (fun i => (chunkAt edges i).filter (fun e => pred src e.1 e.2))) := by
    simp only [csum, List.map_map]
    rfl
  rw [h1, ← csum_flatten]
  rw [filter_chunks_flatten (fun e => pred src e.1 e.2) (numBlocksOf edges.length)
    edges hdP]

theorem sCES_eq_numBlocks (mode : WMode) (src : Nat) (U : List (Nat × Int))
    (hUne : U ≠ []) :
    sequentialCompressEdgeSet mode src U =
      w32 U.length ++ (((offsetsFrom (4 * numBlocksOf U.length)
        (encodeBlocks mode src U 0)).dropLast).map w32).flatten ++
        (encodeBlocks mode src U 0).flatten := by
  rw [sequentialCompressEdgeSet, if_neg hUne]
  rfl

/-- When the block gather of repack recovers exactly `U` (the live edges, as
after pack's header pass), the repacked region is the fresh encoding of `U`
followed by the untouched old bytes. -/
theorem repack_eq_encode (mode : WMode) (src : Nat) (U : List (Nat × Int)) (r : List Nat)
    (hUne : U ≠ [])
    (hgather : ((List.range (numBlocksOf (read32 r))).map
      (fun i => blockPairs mode r src (numBlocksOf (read32 r)) U.length i)).flatten = U) :
    repack mode src U.length r =
      sequentialCompressEdgeSet mode src U ++
        r.drop (sequentialCompressEdgeSet mode src U).length := by
  have hdeg : U.length ≠ 0 := fun h => hUne (List.length_eq_zero.mp h)
  simp only [repack, if_neg hdeg]
  rw [hgather]
  rw [← sCES_eq_numBlocks mode src U hUne]

theorem decode_zero (mode : WMode) (cb : Nat → Nat → Int → Nat → Bool) (r : List Nat)
    (src : Nat) : decode mode cb r src 0 = [] := by
  cases mode with
  | unit => rfl
  | int => rfl


/-- After pack's two passes, reading any block of the region recovers exactly
that block's surviving pairs. -/
theorem packBF_blockPairs (mode : WMode) (pred : Nat → Nat → Int → Bool) (src : Nat)
    (edges : List (Nat × Int)) (hv : ValidEdges mode src edges) (hne : edges ≠ [])
    (hd : edges.length < U32)
    (hbytes : (sequentialCompressEdgeSet mode src edges).length < U32) :
    ∀ i, i < numBlocksOf edges.length →
      blockPairs mode (mkRegion (packBF mode pred src edges) edges.length []) src
          (numBlocksOf edges.length)
          ((edges.filter (fun e => pred src e.1 e.2)).length) i =
        packKeep pred src edges i := by
  obtain ⟨hsrc, hvals, hchain⟩ := hv
  have hblen : (encodeBlocks mode src edges 0).length = numBlocksOf edges.length :=
    encodeBlocks_length_eq mode src edges hne
  have htot : 4 * numBlocksOf edges.length + lenSum (encodeBlocks mode src edges 0) < U32 := by
    rw [← sequentialCompressEdgeSet_length mode src edges hne]
    exact hbytes
  have hgetD : ∀ j, j < numBlocksOf edges.length → (encodeBlocks mode src edges 0).getD j [] =
      w32 (PARALLEL_DEGREE * j) ++ encodeBlockBody mode src (chunkAt edges j) := by
    intro j hj
    rw [encodeBlocks_getD mode src edges.length edges 0 j le_rfl (by rw [hblen]; exact hj)]
    simp [encodeBlock, chunkAt]
  have hdP : edges.length ≤ PARALLEL_DEGREE * numBlocksOf edges.length := by
    simp only [numBlocksOf, PARALLEL_DEGREE]
    omega
  set KS := (List.range (numBlocksOf edges.length)).map (packKeep pred src edges) with hKS
  have hKSlen : KS.length = numBlocksOf edges.length := by simp [hKS]
  have hKSgetD : ∀ j, j < numBlocksOf edges.length →
      KS.getD j [] = packKeep pred src edges j := by
    intro j hj
    rw [hKS]
    exact getD_map_range _ _ _ hj _
  have hKSflat : KS.flatten = edges.filter (fun e => pred src e.1 e.2) := by
    rw [hKS]
    have hrfl : (List.range (numBlocksOf edges.length)).map (packKeep pred src edges) =
        (List.range (numBlocksOf edges.length)).map
          (fun i => (chunkAt edges i).filter (fun e => pred src e.1 e.2)) := rfl
    rw [hrfl]
    exact filter_chunks_flatten (fun e => pred src e.1 e.2) (numBlocksOf edges.length)
      edges hdP
  have hcsum : csum KS = (edges.filter (fun e => pred src e.1 e.2)).length := by
    rw [← csum_flatten, hKSflat]
  have hlenBF : lenSum (packBF mode pred src edges) = lenSum (encodeBlocks mode src edges 0) := by
    apply lenSum_congr _ _ (by rw [packBF_length, hblen])
    intro t ht
    rw [hblen] at ht
    rw [packBF_getD mode pred src edges t ht, hgetD t ht, packBlockF]
    simp only [List.length_append, w32_length]
    rw [packNewBody_length mode pred src edges ⟨hsrc, hvals, hchain⟩ t]
  have htotBF : 4 * (packBF mode pred src edges).length +
      lenSum (packBF mode pred src edges) < U32 := by
    rw [packBF_length, hlenBF]
    exact htot
  have hvKS : ∀ j, j < (packBF mode pred src edges).length →
      (∀ e ∈ KS.getD j [], e.1 < U32 ∧ WOK mode e.2) ∧
      List.Chain' (· < ·) ((KS.getD j []).map Prod.fst) := by
    intro j hj
    rw [packBF_length] at hj
    rw [hKSgetD j hj]
    have hvk : ValidEdges mode src (packKeep pred src edges j) :=
      ValidEdges_sublist mode src (chunkAt edges j) _ (packKeep_sublist pred src edges j)
        (ValidEdges_chunkAt mode src edges ⟨hsrc, hvals, hchain⟩ j)
    exact ⟨hvk.2.1, hvk.2.2⟩
  have hblocks : ∀ j, j < (packBF mode pred src edges).length → ∃ g,
      (packBF mode pred src edges).getD j [] =
        w32 (csum (KS.take j)) ++ encodeBlockBody mode src (KS.getD j []) ++ g := by
    intro j hj
    rw [packBF_length] at hj
    obtain ⟨g, hg⟩ := packNewBody_prefix mode pred src edges j
    refine ⟨g, ?_⟩
    rw [packBF_getD mode pred src edges j hj, packBlockF, hg, hKSgetD j hj]
    have hscan : packScan pred src edges j = csum (KS.take j) := by
      rw [hKS, csum_take_map_range (packKeep pred src edges) _ j (by omega), packScan]
    rw [hscan]
    simp [List.append_assoc]
  intro i hi
  have hb := decodeBlockAt_mkRegion mode (fun _ _ _ _ => true) src
    (packBF mode pred src edges) edges.length [] KS
    (by rw [hKSlen, packBF_length]) htotBF hsrc
    (by rw [hcsum]; have := List.length_filter_le (fun e => pred src e.1 e.2) edges; omega)
    hvKS hblocks i (by rw [packBF_length]; exact hi)
  rw [packBF_length] at hb
  rw [hcsum] at hb
  rw [blockPairs, hb, visitUntil_true]
  simp only []
  rw [pairs_of_triples, hKSgetD i hi]

/-- The gather pass of repack over the packed region recovers exactly the
surviving edges in order. -/
theorem packBF_gather (mode : WMode) (pred : Nat → Nat → Int → Bool) (src : Nat)
    (edges : List (Nat × Int)) (hv : ValidEdges mode src edges) (hne : edges ≠ [])
    (hd : edges.length < U32)
    (hbytes : (sequentialCompressEdgeSet mode src edges).length < U32) :
    ((List.range (numBlocksOf edges.length)).map
      (fun i => blockPairs mode (mkRegion (packBF mode pred src edges) edges.length []) src
        (numBlocksOf edges.length)
        ((edges.filter (fun e => pred src e.1 e.2)).length) i)).flatten =
      edges.filter (fun e => pred src e.1 e.2) := by
  have hbp := packBF_blockPairs mode pred src edges hv hne hd hbytes
  have hdP : edges.length ≤ PARALLEL_DEGREE * numBlocksOf edges.length := by
    simp only [numBlocksOf, PARALLEL_DEGREE]
    omega
  have hcongr : (List.range (numBlocksOf edges.length)).map
      (fun i => blockPairs mode (mkRegion (packBF mode pred src edges) edges.length []) src
        (numBlocksOf edges.length)
        ((edges.filter (fun e => pred src e.1 e.2)).length) i) =
      (List.range (numBlocksOf edges.length)).map
        (fun i => (chunkAt edges i).filter (fun e => pred src e.1 e.2)) := by
    apply List.map_congr_left
    intro i hi
    rw [List.mem_range] at hi
    rw [hbp i hi]
    rfl
  rw [hcongr]
  exact filter_chunks_flatten (fun e => pred src e.1 e.2) (numBlocksOf edges.length)
    edges hdP

/-- Decoding the packed (not yet repacked) region with the surviving degree
yields exactly the surviving edges. -/
theorem packBF_decode (mode : WMode) (pred : Nat → Nat → Int → Bool) (src : Nat)
    (edges : List (Nat × Int)) (hv : ValidEdges mode src edges) (hne : edges ≠ [])
    (hd : edges.length < U32)
    (hbytes : (sequentialCompressEdgeSet mode src edges).length < U32) :
    decode mode (fun _ _ _ _ => true)
        (mkRegion (packBF mode pred src edges) edges.length []) src
        ((edges.filter (fun e => pred src e.1 e.2)).length) =
      triplesFrom 0 (edges.filter (fun e => pred src e.1 e.2)) := by
  obtain ⟨hsrc, hvals, hchain⟩ := hv
  have hblen : (encodeBlocks mode src edges 0).length = numBlocksOf edges.length :=
    encodeBlocks_length_eq mode src edges hne
  have htot : 4 * numBlocksOf edges.length + lenSum (encodeBlocks mode src edges 0) < U32 := by
    rw [← sequentialCompressEdgeSet_length mode src edges hne]
    exact hbytes
  have hgetD : ∀ j, j < numBlocksOf edges.length → (encodeBlocks mode src edges 0).getD j [] =
      w32 (PARALLEL_DEGREE * j) ++ encodeBlockBody mode src (chunkAt edges j) := by
    intro j hj
    rw [encodeBlocks_getD mode src edges.length edges 0 j le_rfl (by rw [hblen]; exact hj)]
    simp [encodeBlock, chunkAt]
  have hdP : edges.length ≤ PARALLEL_DEGREE * numBlocksOf edges.length := by
    simp only [numBlocksOf, PARALLEL_DEGREE]
    omega
  set KS := (List.range (numBlocksOf edges.length)).map (packKeep pred src edges) with hKS
  have hKSlen : KS.length = numBlocksOf edges.length := by simp [hKS]
  have hKSgetD : ∀ j, j < numBlocksOf edges.length →
      KS.getD j [] = packKeep pred src edges j := by
    intro j hj
    rw [hKS]
    exact getD_map_range _ _ _ hj _
  have hKSflat : KS.flatten = edges.filter (fun e => pred src e.1 e.2) := by
    rw [hKS]
    have hrfl : (List.range (numBlocksOf edges.length)).map (packKeep pred src edges) =
        (List.range (numBlocksOf edges.length)).map
          (fun i => (chunkAt edges i).filter (fun e => pred src e.1 e.2)) := rfl
    rw [hrfl]
    exact filter_chunks_flatten (fun e => pred src e.1 e.2) (numBlocksOf edges.length)
      edges hdP
  have hcsum : csum KS = (edges.filter (fun e => pred src e.1 e.2)).length := by
    rw [← csum_flatten, hKSflat]
  have hlenBF : lenSum (packBF mode pred src edges) = lenSum (encodeBlocks mode src edges 0) := by
    apply lenSum_congr _ _ (by rw [packBF_length, hblen])
    intro t ht
    rw [hblen] at ht
    rw [packBF_getD mode pred src edges t ht, hgetD t ht, packBlockF]
    simp only [List.length_append, w32_length]
    rw [packNewBody_length mode pred src edges ⟨hsrc, hvals, hchain⟩ t]
  have htotBF : 4 * (packBF mode pred src edges).length +
      lenSum (packBF mode pred src edges) < U32 := by
    rw [packBF_length, hlenBF]
    exact htot
  have hvKS : ∀ j, j < (packBF mode pred src edges).length →
      (∀ e ∈ KS.getD j [], e.1 < U32 ∧ WOK mode e.2) ∧
      List.Chain' (· < ·) ((KS.getD j []).map Prod.fst) := by
    intro j hj
    rw [packBF_length] at hj
    rw [hKSgetD j hj]
    have hvk : ValidEdges mode src (packKeep pred src edges j) :=
      ValidEdges_sublist mode src (chunkAt edges j) _ (packKeep_sublist pred src edges j)
        (ValidEdges_chunkAt mode src edges ⟨hsrc, hvals, hchain⟩ j)
    exact ⟨hvk.2.1, hvk.2.2⟩
  have hblocks : ∀ j, j < (packBF mode pred src edges).length → ∃ g,
      (packBF mode pred src edges).getD j [] =
        w32 (csum (KS.take j)) ++ encodeBlockBody mode src (KS.getD j []) ++ g := by
    intro j hj
    rw [packBF_length] at hj
    obtain ⟨g, hg⟩ := packNewBody_prefix mode pred src edges j
    refine ⟨g, ?_⟩
    rw [packBF_getD mode pred src edges j hj, packBlockF, hg, hKSgetD j hj]
    have hscan : packScan pred src edges j = csum (KS.take j) := by
      rw [hKS, csum_take_map_range (packKeep pred src edges) _ j (by omega), packScan]
    rw [hscan]
    simp [List.append_assoc]
  have h := decode_mkRegion_true mode src (packBF mode pred src edges) edges.length [] KS
    (by rw [hKSlen, packBF_length]) (packBF_length mode pred src edges).symm hd htotBF hsrc
    (by rw [hcsum]; have := List.length_filter_le (fun e => pred src e.1 e.2) edges; omega)
    hvKS hblocks
  rw [hcsum, hKSflat] at h
  exact h

/-- C2: pack preserves semantics.  On a freshly encoded region, pack with any
predicate returns the number of surviving edges, and decoding the resulting
(possibly repacked) region with that degree invokes the callback on exactly
the edges that were present and satisfy the predicate, in order. -/
theorem C2_pack_preserves (mode : WMode) (pred : Nat → Nat → Int → Bool) (src : Nat)
    (edges : List (Nat × Int)) (hv : ValidEdges mode src edges) (hne : edges ≠ [])
    (hd : edges.length < U32)
    (hbytes : (sequentialCompressEdgeSet mode src edges).length < U32) :
    (pack mode pred (sequentialCompressEdgeSet mode src edges) src edges.length).2 =
      (edges.filter (fun e => pred src e.1 e.2)).length ∧
    decode mode (fun _ _ _ _ => true)
        (pack mode pred (sequentialCompressEdgeSet mode src edges) src edges.length).1 src
        (pack mode pred (sequentialCompressEdgeSet mode src edges) src edges.length).2 =
      triplesFrom 0 (edges.filter (fun e => pred src e.1 e.2)) := by
  have hread : read32 (sequentialCompressEdgeSet mode src edges) = edges.length := by
    rw [← List.append_nil (sequentialCompressEdgeSet mode src edges),
      sequentialCompressEdgeSet_eq_mkRegion mode src edges [] hne]
    exact mkRegion_read32 _ _ _ hd
  have hdeg := packDeg_eq mode pred src edges hv hne hd hbytes
  have hws := packWriteStarts_eq mode pred src edges hv hne hd hbytes
  simp only [pack]
  rw [hdeg, hread, hws]
  by_cases htrig : (edges.filter (fun e => pred src e.1 e.2)).length <
      edges.length / 10
  · rw [if_pos htrig]
    simp only []
    refine ⟨by trivial, ?_⟩
    by_cases hzero : (edges.filter (fun e => pred src e.1 e.2)).length = 0
    · have hfe : edges.filter (fun e => pred src e.1 e.2) = [] :=
        List.length_eq_zero.mp hzero
      rw [hzero, repack, if_pos rfl, decode_zero, hfe]
      rfl
    · have hUne : edges.filter (fun e => pred src e.1 e.2) ≠ [] := by
        intro h
        rw [h] at hzero
        exact hzero rfl
      have hgather := packBF_gather mode pred src edges hv hne hd hbytes
      have hreadBF : read32 (mkRegion (packBF mode pred src edges) edges.length []) =
          edges.length := mkRegion_read32 _ _ _ hd
      have hrek := repack_eq_encode mode src (edges.filter (fun e => pred src e.1 e.2))
        (mkRegion (packBF mode pred src edges) edges.length []) hUne
        (by rw [hreadBF]; exact hgather)
      rw [hrek]
      have hvU : ValidEdges mode src (edges.filter (fun e => pred src e.1 e.2)) :=
        ValidEdges_sublist mode src edges _ (List.filter_sublist _) hv
      have hdU : (edges.filter (fun e => pred src e.1 e.2)).length < U32 := by
        have := List.length_filter_le (fun e => pred src e.1 e.2) edges
        omega
      have hbytesU : (sequentialCompressEdgeSet mode src
          (edges.filter (fun e => pred src e.1 e.2))).length < U32 := by
        have hfit := repack_fits mode src edges (edges.filter (fun e => pred src e.1 e.2))
          hv.1 (fun e he => (hv.2.1 e he).1) hv.2.2 (List.filter_sublist _) hne hUne htrig
        omega
      exact decode_encode_trace mode src (edges.filter (fun e => pred src e.1 e.2))
        hvU hdU hbytesU _
  · rw [if_neg htrig]
    simp only []
    refine ⟨by trivial, ?_⟩
    exact packBF_decode mode pred src edges hv hne hd hbytes


theorem repack_zero (mode : WMode) (src : Nat) (r : List Nat) :
    repack mode src 0 r = r := by
  simp [repack]

/-- C2 witness: a four-neighbor unit-weighted list packed with an odd-only
predicate; two edges survive and decode returns exactly them. -/
theorem C2_pack_preserves_witness :
    ValidEdges .unit 0 [(3, 0), (7, 0), (10, 0), (12, 0)] ∧
    ((pack .unit (fun _ n _ => decide (n % 2 = 1))
        (sequentialCompressEdgeSet .unit 0 [(3, 0), (7, 0), (10, 0), (12, 0)]) 0
        ([(3, 0), (7, 0), (10, 0), (12, 0)] : List (Nat × Int)).length).2 =
      (([(3, 0), (7, 0), (10, 0), (12, 0)] : List (Nat × Int)).filter
        (fun e => decide (e.1 % 2 = 1))).length ∧
    decode .unit (fun _ _ _ _ => true)
        (pack .unit (fun _ n _ => decide (n % 2 = 1))
          (sequentialCompressEdgeSet .unit 0 [(3, 0), (7, 0), (10, 0), (12, 0)]) 0
          ([(3, 0), (7, 0), (10, 0), (12, 0)] : List (Nat × Int)).length).1 0
        (pack .unit (fun _ n _ => decide (n % 2 = 1))
          (sequentialCompressEdgeSet .unit 0 [(3, 0), (7, 0), (10, 0), (12, 0)]) 0
          ([(3, 0), (7, 0), (10, 0), (12, 0)] : List (Nat × Int)).length).2 =
      triplesFrom 0 (([(3, 0), (7, 0), (10, 0), (12, 0)] : List (Nat × Int)).filter
        (fun e => decide (e.1 % 2 = 1)))) := by
  have hv : ValidEdges .unit 0 [(3, 0), (7, 0), (10, 0), (12, 0)] :=
    ⟨by decide, by decide, chainLt_of_B _ (by decide)⟩
  exact ⟨hv, C2_pack_preserves .unit (fun _ n _ => decide (n % 2 = 1)) 0
    [(3, 0), (7, 0), (10, 0), (12, 0)] hv (by decide) (by decide) (by decide)⟩

/-- C5 (amended): repack triggering and shape on a freshly encoded region.
pack invokes repack exactly when the surviving degree is strictly below
virtual_degree / 10.  If it triggers with a positive surviving degree, the
region becomes the fresh encoding of the surviving edges — that is,
ceil(surviving / PARALLEL_DEGREE) blocks with every block but the last
holding exactly PARALLEL_DEGREE edges — followed by untouched old bytes, and
the stored virtual degree becomes the surviving degree.  If it triggers with
surviving degree 0, repack leaves the region unchanged: the result is the
phase-2 region and the stored virtual degree keeps its old value, so the
claim's "sets the stored virtual degree equal to the surviving degree" fails
in that case.  If it does not trigger, the result is the phase-2 region and
the stored virtual degree is likewise unchanged. -/
theorem C5_repack_trigger_shape (mode : WMode) (pred : Nat → Nat → Int → Bool) (src : Nat)
    (edges : List (Nat × Int)) (hv : ValidEdges mode src edges) (hne : edges ≠ [])
    (hd : edges.length < U32)
    (hbytes : (sequentialCompressEdgeSet mode src edges).length < U32) :
    ((edges.filter (fun e => pred src e.1 e.2)).length < edges.length / 10 →
      (0 < (edges.filter (fun e => pred src e.1 e.2)).length →
        (pack mode pred (sequentialCompressEdgeSet mode src edges) src edges.length).1 =
          sequentialCompressEdgeSet mode src (edges.filter (fun e => pred src e.1 e.2)) ++
            (mkRegion (packBF mode pred src edges) edges.length []).drop
              (sequentialCompressEdgeSet mode src
                (edges.filter (fun e => pred src e.1 e.2))).length ∧
        read32 (pack mode pred (sequentialCompressEdgeSet mode src edges) src
            edges.length).1 =
          (edges.filter (fun e => pred src e.1 e.2)).length) ∧
      ((edges.filter (fun e => pred src e.1 e.2)).length = 0 →
        (pack mode pred (sequentialCompressEdgeSet mode src edges) src edges.length).1 =
          mkRegion (packBF mode pred src edges) edges.length [] ∧
        read32 (pack mode pred (sequentialCompressEdgeSet mode src edges) src
            edges.length).1 = edges.length)) ∧
    (¬ (edges.filter (fun e => pred src e.1 e.2)).length < edges.length / 10 →
      (pack mode pred (sequentialCompressEdgeSet mode src edges) src edges.length).1 =
        mkRegion (packBF mode pred src edges) edges.length [] ∧
      read32 (pack mode pred (sequentialCompressEdgeSet mode src edges) src
          edges.length).1 = edges.length) := by
  have hread : read32 (sequentialCompressEdgeSet mode src edges) = edges.length := by
    rw [← List.append_nil (sequentialCompressEdgeSet mode src edges),
      sequentialCompressEdgeSet_eq_mkRegion mode src edges [] hne]
    exact mkRegion_read32 _ _ _ hd
  have hdeg := packDeg_eq mode pred src edges hv hne hd hbytes
  have hws := packWriteStarts_eq mode pred src edges hv hne hd hbytes
  have hreadBF : read32 (mkRegion (packBF mode pred src edges) edges.length []) =
      edges.length := mkRegion_read32 _ _ _ hd
  simp only [pack]
  rw [hdeg, hread, hws]
  constructor
  · intro htrig
    rw [if_pos htrig]
    simp only []
    constructor
    · intro hpos
      have hUne : edges.filter (fun e => pred src e.1 e.2) ≠ [] := by
        intro h
        rw [h] at hpos
        simp at hpos
      have hgather := packBF_gather mode pred src edges hv hne hd hbytes
      have hrek := repack_eq_encode mode src (edges.filter (fun e => pred src e.1 e.2))
        (mkRegion (packBF mode pred src edges) edges.length []) hUne
        (by rw [hreadBF]; exact hgather)
      refine ⟨hrek, ?_⟩
      rw [hrek]
      have hdU : (edges.filter (fun e => pred src e.1 e.2)).length < U32 := by
        have := List.length_filter_le (fun e => pred src e.1 e.2) edges
        omega
      rw [sequentialCompressEdgeSet_eq_mkRegion mode src
        (edges.filter (fun e => pred src e.1 e.2)) _ hUne]
      exact mkRegion_read32 _ _ _ hdU
    · intro h0
      rw [h0, repack_zero]
      exact ⟨rfl, hreadBF⟩
  · intro htrig
    rw [if_neg htrig]
    exact ⟨rfl, hreadBF⟩

/-- Twelve increasing unit-weighted neighbors (one block). -/
def c5Edges : List (Nat × Int) :=
  (List.range 12).map (fun i => (i + 1, 0))

/-- C5 counterexample: packing a fresh 12-neighbor region with an all-false
predicate leaves 0 survivors, which triggers repack (0 < 12 / 10 = 1); but
repack is guarded by `degree > 0`, so the stored virtual degree of the result
is still 12, not the surviving degree 0 — refuting the claim that a
triggered repack sets the stored virtual degree to the surviving degree. -/
theorem C5_counterexample :
    (pack .unit (fun _ _ _ => false)
        (sequentialCompressEdgeSet .unit 0 c5Edges) 0 12).2 = 0 ∧
    0 < 12 / 10 ∧
    read32 (pack .unit (fun _ _ _ => false)
        (sequentialCompressEdgeSet .unit 0 c5Edges) 0 12).1 = 12 := by
  refine ⟨by decide, by decide, by decide⟩

/-- Twenty-five increasing unit-weighted neighbors (one block). -/
def c5wEdges : List (Nat × Int) :=
  (List.range 25).map (fun i => (i + 1, 0))

theorem C5_repack_trigger_shape_witness :
    ValidEdges .unit 0 c5wEdges ∧
    (((c5wEdges.filter (fun e => decide (e.1 = 25))).length < c5wEdges.length / 10 →
      (0 < (c5wEdges.filter (fun e => decide (e.1 = 25))).length →
        (pack .unit (fun _ n _ => decide (n = 25))
            (sequentialCompressEdgeSet .unit 0 c5wEdges) 0 c5wEdges.length).1 =
          sequentialCompressEdgeSet .unit 0 (c5wEdges.filter (fun e => decide (e.1 = 25))) ++
            (mkRegion (packBF .unit (fun _ n _ => decide (n = 25)) 0 c5wEdges)
              c5wEdges.length []).drop
              (sequentialCompressEdgeSet .unit 0
                (c5wEdges.filter (fun e => decide (e.1 = 25)))).length ∧
        read32 (pack .unit (fun _ n _ => decide (n = 25))
            (sequentialCompressEdgeSet .unit 0 c5wEdges) 0 c5wEdges.length).1 =
          (c5wEdges.filter (fun e => decide (e.1 = 25))).length) ∧
      ((c5wEdges.filter (fun e => decide (e.1 = 25))).length = 0 →
        (pack .unit (fun _ n _ => decide (n = 25))
            (sequentialCompressEdgeSet .unit 0 c5wEdges) 0 c5wEdges.length).1 =
          mkRegion (packBF .unit (fun _ n _ => decide (n = 25)) 0 c5wEdges)
            c5wEdges.length [] ∧
        read32 (pack .unit (fun _ n _ => decide (n = 25))
            (sequentialCompressEdgeSet .unit 0 c5wEdges) 0 c5wEdges.length).1 =
          c5wEdges.length)) ∧
    (¬ (c5wEdges.filter (fun e => decide (e.1 = 25))).length < c5wEdges.length / 10 →
      (pack .unit (fun _ n _ => decide (n = 25))
          (sequentialCompressEdgeSet .unit 0 c5wEdges) 0 c5wEdges.length).1 =
        mkRegion (packBF .unit (fun _ n _ => decide (n = 25)) 0 c5wEdges)
          c5wEdges.length [] ∧
      read32 (pack .unit (fun _ n _ => decide (n = 25))
          (sequentialCompressEdgeSet .unit 0 c5wEdges) 0 c5wEdges.length).1 =
        c5wEdges.length)) ∧
    (c5wEdges.filter (fun e => decide (e.1 = 25))).length < c5wEdges.length / 10 := by
  have hv : ValidEdges .unit 0 c5wEdges :=
    ⟨by decide, by decide, chainLt_of_B _ (by decide)⟩
  exact ⟨hv, C5_repack_trigger_shape .unit (fun _ n _ => decide (n = 25)) 0 c5wEdges
    hv (by decide) (by decide) (by decide), by decide⟩


/-- Counting state of block_allocator (block_allocator.h): the fixed list
length and cap, the atomic blocks_allocated counter, the number of lists on
the global stack, and each worker's local list size.  The blocks themselves
are interchangeable, so the pointer structure (head/mid chains) is not
tracked: every operation's effect on num_used_blocks is determined by these
counters. -/
structure AllocState where
  listLength : Nat
  maxBlocks : Nat
  blocksAllocated : Nat
  globalLists : Nat
  localSz : List Nat
deriving DecidableEq, Repr

/-- num_used_blocks: blocks_allocated minus the free blocks (global lists
plus local list sizes). -/
def num_used_blocks (s : AllocState) : Nat :=
  s.blocksAllocated - (s.globalLists * s.listLength + s.localSz.sum)

def num_allocated_blocks (s : AllocState) : Nat :=
  s.blocksAllocated

/-- The free blocks of the allocator (`free_blocks` in num_used_blocks). -/
def freeBlocksOf (s : AllocState) : Nat :=
  s.globalLists * s.listLength + s.localSz.sum

/-- allocate_blocks: bump blocks_allocated, and exit(1) if the cap is now
exceeded (`blocks_allocated > max_blocks`).  The other exit (aligned_alloc
returning NULL) is environmental and not modelled. -/
def allocate_blocks (num : Nat) (s : AllocState) : Except Nat AllocState :=
  if s.maxBlocks < s.blocksAllocated + num then Except.error 1
  else Except.ok { s with blocksAllocated := s.blocksAllocated + num }

/-- get_list: pop a list from the global stack, or allocate a fresh one of
list_length blocks. -/
def get_list (s : AllocState) : Except Nat AllocState :=
  if 0 < s.globalLists then Except.ok { s with globalLists := s.globalLists - 1 }
  else allocate_blocks s.listLength s

/-- block_allocator::alloc for worker `id`: refill the local list when empty
(leaving list_length blocks), then hand one block out (`sz--`). -/
def alloc (id : Nat) (s : AllocState) : Except Nat AllocState :=
  if s.localSz.getD id 0 = 0 then
    match get_list s with
    | Except.error e => Except.error e
    | Except.ok s1 => Except.ok { s1 with localSz := s1.localSz.set id (s1.listLength - 1) }
  else Except.ok { s with localSz := s.localSz.set id (s.localSz.getD id 0 - 1) }

/-- block_allocator::free for worker `id`: at sz = list_length + 1 remember
the mid point (no counter change); at sz = 2 * list_length push the back half
(one list) to the global stack, leaving sz = list_length; then the freed
block goes onto the local list (`sz++`). -/
def free (id : Nat) (s : AllocState) : AllocState :=
  if s.localSz.getD id 0 = s.listLength + 1 then
    { s with localSz := s.localSz.set id (s.localSz.getD id 0 + 1) }
  else if s.localSz.getD id 0 = 2 * s.listLength then
    { s with globalLists := s.globalLists + 1,
             localSz := s.localSz.set id (s.listLength + 1) }
  else { s with localSz := s.localSz.set id (s.localSz.getD id 0 + 1) }

/-- block_allocator::reserve: allocate `thread_count + ceil(n / list_length)`
lists worth of blocks and push them all onto the global stack. -/
def reserve (n tc : Nat) (s : AllocState) : Except Nat AllocState :=
  match allocate_blocks (s.listLength * (tc + (n + s.listLength - 1) / s.listLength)) s with
  | Except.error e => Except.error e
  | Except.ok s1 => Except.ok { s1 with
      globalLists := s1.globalLists + (tc + (n + s.listLength - 1) / s.listLength) }

/-- The state set up by the block_allocator constructor before its reserve
call: zero counters, empty local lists, and max_blocks defaulting to
`(3*getMemorySize()/block_size)/4` when the argument is 0. -/
def initState (blockSize listLength_ maxBlocks_ threadCount memorySize : Nat) : AllocState :=
  { listLength := listLength_,
    maxBlocks := if maxBlocks_ = 0 then 3 * memorySize / blockSize / 4 else maxBlocks_,
    blocksAllocated := 0,
    globalLists := 0,
    localSz := List.replicate threadCount 0 }

/-- The block_allocator constructor: initialize the counters and reserve
blocks_count blocks. -/
def mkBlockAllocator (blockSize blocksCount listLength_ maxBlocks_ threadCount memorySize :
    Nat) : Except Nat AllocState :=
  reserve blocksCount threadCount
    (initState blockSize listLength_ maxBlocks_ threadCount memorySize)

/-- One allocator call, tagged with the calling worker's id. -/
inductive AllocOp where
  | alloc (id : Nat)
  | free (id : Nat)
deriving DecidableEq, Repr

def opId : AllocOp → Nat
  | .alloc id => id
  | .free id => id

def countAlloc : List AllocOp → Nat
  | [] => 0
  | .alloc _ :: rest => countAlloc rest + 1
  | .free _ :: rest => countAlloc rest

def countFree : List AllocOp → Nat
  | [] => 0
  | .alloc _ :: rest => countFree rest
  | .free _ :: rest => countFree rest + 1

/-- Run a sequence of allocator calls, stopping at the first fatal exit. -/
def runOps (ops : List AllocOp) (s : AllocState) : Except Nat AllocState :=
  match ops with
  | [] => Except.ok s
  | AllocOp.alloc id :: rest =>
    match alloc id s with
    | Except.error e => Except.error e
    | Except.ok s1 => runOps rest s1
  | AllocOp.free id :: rest => runOps rest (free id s)

theorem sum_set (l : List Nat) : ∀ (id v : Nat), id < l.length →
    (l.set id v).sum + l.getD id 0 = l.sum + v := by
  induction l with
  | nil =>
    intro id v h
    simp at h
  | cons a l ih =>
    intro id v h
    cases id with
    | zero =>
      simp only [List.set_cons_zero, List.sum_cons, List.getD_cons_zero]
      omega
    | succ id =>
      simp only [List.set_cons_succ, List.sum_cons, List.getD_cons_succ]
      have := ih id v (by simpa using h)
      omega

theorem getD_le_sum (l : List Nat) : ∀ (id : Nat), l.getD id 0 ≤ l.sum := by
  induction l with
  | nil =>
    intro id
    simp
  | cons a l ih =>
    intro id
    cases id with
    | zero => simp [List.sum_cons]
    | succ id =>
      simp only [List.getD_cons_succ, List.sum_cons]
      have := ih id
      omega

/-- One successful alloc hands out exactly one block: allocation count never
drops, and the free-block count balances it by exactly one. -/
theorem alloc_ok_eq (id : Nat) (s s1 : AllocState) (hid : id < s.localSz.length)
    (hL : 1 ≤ s.listLength) (h : alloc id s = Except.ok s1) :
    s1.blocksAllocated + freeBlocksOf s = s.blocksAllocated + freeBlocksOf s1 + 1 ∧
    s.blocksAllocated ≤ s1.blocksAllocated ∧
    s1.localSz.length = s.localSz.length ∧ s1.listLength = s.listLength := by
  rw [alloc] at h
  by_cases h0 : s.localSz.getD id 0 = 0
  · rw [if_pos h0] at h
    rw [get_list] at h
    by_cases hg : 0 < s.globalLists
    · rw [if_pos hg] at h
      simp only [Except.ok.injEq] at h
      subst h
      have hsum := sum_set s.localSz id (s.listLength - 1) hid
      refine ⟨?_, le_rfl, by simp, rfl⟩
      simp only [freeBlocksOf]
      have hmul : (s.globalLists - 1) * s.listLength + s.listLength =
          s.globalLists * s.listLength := by
        have hg1 : s.globalLists = s.globalLists - 1 + 1 := by omega
        conv_rhs => rw [hg1]
        ring
      omega
    · rw [if_neg hg] at h
      rw [allocate_blocks] at h
      by_cases hcap : s.maxBlocks < s.blocksAllocated + s.listLength
      · rw [if_pos hcap] at h
        simp at h
      · rw [if_neg hcap] at h
        simp only [Except.ok.injEq] at h
        subst h
        have hsum := sum_set s.localSz id (s.listLength - 1) hid
        refine ⟨?_, by show s.blocksAllocated ≤ s.blocksAllocated + s.listLength; omega,
          by simp, rfl⟩
        simp only [freeBlocksOf]
        omega
  · rw [if_neg h0] at h
    simp only [Except.ok.injEq] at h
    subst h
    have hsum := sum_set s.localSz id (s.localSz.getD id 0 - 1) hid
    refine ⟨?_, le_rfl, by simp, rfl⟩
    simp only [freeBlocksOf]
    omega

/-- One free takes back exactly one block. -/
theorem free_eq (id : Nat) (s : AllocState) (hid : id < s.localSz.length) :
    (free id s).blocksAllocated = s.blocksAllocated ∧
    freeBlocksOf (free id s) = freeBlocksOf s + 1 ∧
    (free id s).localSz.length = s.localSz.length ∧
    (free id s).listLength = s.listLength := by
  rw [free]
  by_cases h1 : s.localSz.getD id 0 = s.listLength + 1
  · rw [if_pos h1]
    have hsum := sum_set s.localSz id (s.localSz.getD id 0 + 1) hid
    refine ⟨rfl, ?_, by simp, rfl⟩
    simp only [freeBlocksOf]
    omega
  · rw [if_neg h1]
    by_cases h2 : s.localSz.getD id 0 = 2 * s.listLength
    · rw [if_pos h2]
      have hsum := sum_set s.localSz id (s.listLength + 1) hid
      refine ⟨rfl, ?_, by simp, rfl⟩
      simp only [freeBlocksOf]
      have hle := getD_le_sum s.localSz id
      have hmul : (s.globalLists + 1) * s.listLength =
          s.globalLists * s.listLength + s.listLength := by ring
      omega
    · rw [if_neg h2]
      have hsum := sum_set s.localSz id (s.localSz.getD id 0 + 1) hid
      refine ⟨rfl, ?_, by simp, rfl⟩
      simp only [freeBlocksOf]
      omega

/-- Over any successful run, allocations and frees balance the counters
exactly, and blocks_allocated never decreases. -/
theorem runOps_eq : ∀ (ops : List AllocOp) (s s1 : AllocState),
    (∀ op ∈ ops, opId op < s.localSz.length) → 1 ≤ s.listLength →
    runOps ops s = Except.ok s1 →
    s1.blocksAllocated + freeBlocksOf s + countFree ops =
      s.blocksAllocated + freeBlocksOf s1 + countAlloc ops ∧
    s.blocksAllocated ≤ s1.blocksAllocated ∧
    s1.localSz.length = s.localSz.length ∧ s1.listLength = s.listLength := by
  intro ops
  induction ops with
  | nil =>
    intro s s1 _ _ h
    simp only [runOps, Except.ok.injEq] at h
    subst h
    simp [countAlloc, countFree]
  | cons op rest ih =>
    intro s s1 hids hL h
    cases op with
    | alloc id =>
      rw [runOps] at h
      cases halloc : alloc id s with
      | error e =>
        rw [halloc] at h
        simp at h
      | ok s2 =>
        rw [halloc] at h
        have hid : id < s.localSz.length := hids (AllocOp.alloc id) (List.mem_cons_self _ _)
        have ha := alloc_ok_eq id s s2 hid hL halloc
        have hih := ih s2 s1
          (fun op hop => by rw [ha.2.2.1]; exact hids op (List.mem_cons_of_mem _ hop))
          (by rw [ha.2.2.2]; exact hL) h
        simp only [countAlloc, countFree]
        omega
    | free id =>
      rw [runOps] at h
      have hid : id < s.localSz.length := hids (AllocOp.free id) (List.mem_cons_self _ _)
      have hf := free_eq id s hid
      have hih := ih (free id s) s1
        (fun op hop => by rw [hf.2.2.1]; exact hids op (List.mem_cons_of_mem _ hop))
        (by rw [hf.2.2.2]; exact hL) h
      simp only [countAlloc, countFree]
      omega

theorem runOps_append : ∀ (pre suf : List AllocOp) (s s2 : AllocState),
    runOps pre s = Except.ok s2 → runOps (pre ++ suf) s = runOps suf s2 := by
  intro pre
  induction pre with
  | nil =>
    intro suf s s2 h
    simp only [runOps, Except.ok.injEq] at h
    subst h
    rfl
  | cons op rest ih =>
    intro suf s s2 h
    cases op with
    | alloc id =>
      rw [runOps] at h
      cases halloc : alloc id s with
      | error e =>
        rw [halloc] at h
        simp at h
      | ok s3 =>
        rw [halloc] at h
        rw [List.cons_append, runOps, halloc]
        exact ih suf s3 s2 h
    | free id =>
      rw [runOps] at h
      rw [List.cons_append, runOps]
      exact ih suf (free id s) s2 h

theorem reserve_ok (n tc : Nat) (s s1 : AllocState)
    (h : reserve n tc s = Except.ok s1) :
    s1.listLength = s.listLength ∧ s1.localSz = s.localSz ∧
    s1.blocksAllocated = s.blocksAllocated +
      s.listLength * (tc + (n + s.listLength - 1) / s.listLength) ∧
    s1.globalLists = s.globalLists + (tc + (n + s.listLength - 1) / s.listLength) := by
  rw [reserve, allocate_blocks] at h
  by_cases hcap : s.maxBlocks < s.blocksAllocated +
      s.listLength * (tc + (n + s.listLength - 1) / s.listLength)
  · rw [if_pos hcap] at h
    simp at h
  · rw [if_neg hcap] at h
    simp only [Except.ok.injEq] at h
    subst h
    exact ⟨rfl, rfl, rfl, rfl⟩

/-- A freshly constructed allocator has its list length and per-worker table
as given, and every allocated block free. -/
theorem mkBlockAllocator_ok (blockSize blocksCount listLength_ maxBlocks_ threadCount
    memorySize : Nat) (s0 : AllocState)
    (h : mkBlockAllocator blockSize blocksCount listLength_ maxBlocks_ threadCount
      memorySize = Except.ok s0) :
    s0.listLength = listLength_ ∧ s0.localSz.length = threadCount ∧
    freeBlocksOf s0 = s0.blocksAllocated := by
  rw [mkBlockAllocator] at h
  obtain ⟨h1, h2, h3, h4⟩ := reserve_ok _ _ _ _ h
  simp only [initState] at h1 h2 h3 h4
  refine ⟨h1, by rw [h2]; simp, ?_⟩
  rw [freeBlocksOf, h1, h2, h3, h4]
  simp only [List.sum_replicate, smul_eq_mul, Nat.zero_add, Nat.mul_zero, Nat.add_zero]
  exact Nat.mul_comm _ _

/-- C7: Allocator conservation.  From any successfully constructed
block_allocator, every successful balanced sequence of alloc/free calls by
workers with in-range ids returns every block: num_used_blocks is 0 at the
end, and num_allocated_blocks never decreases at any point of the run. -/
theorem C7_allocator_conservation (blockSize blocksCount listLength_ maxBlocks_
    threadCount memorySize : Nat) (hL : 1 ≤ listLength_)
    (ops : List AllocOp) (s0 s1 : AllocState)
    (hinit : mkBlockAllocator blockSize blocksCount listLength_ maxBlocks_ threadCount
      memorySize = Except.ok s0)
    (hids : ∀ op ∈ ops, opId op < threadCount)
    (hbal : countAlloc ops = countFree ops)
    (hrun : runOps ops s0 = Except.ok s1) :
    num_used_blocks s1 = 0 ∧
    num_allocated_blocks s0 ≤ num_allocated_blocks s1 ∧
    (∀ pre suf s2, ops = pre ++ suf → runOps pre s0 = Except.ok s2 →
      num_allocated_blocks s0 ≤ num_allocated_blocks s2 ∧
      num_allocated_blocks s2 ≤ num_allocated_blocks s1) := by
  obtain ⟨hlen0, htc0, hfree0⟩ := mkBlockAllocator_ok blockSize blocksCount listLength_
    maxBlocks_ threadCount memorySize s0 hinit
  have hids0 : ∀ op ∈ ops, opId op < s0.localSz.length := by
    intro op hop
    rw [htc0]
    exact hids op hop
  have hL0 : 1 ≤ s0.listLength := by rw [hlen0]; exact hL
  have hmain := runOps_eq ops s0 s1 hids0 hL0 hrun
  refine ⟨?_, hmain.2.1, ?_⟩
  · simp only [num_used_blocks]
    have h1 := hmain.1
    simp only [freeBlocksOf] at h1 hfree0 ⊢
    omega
  · intro pre suf s2 hsplit hpre
    have hpre_ids : ∀ op ∈ pre, opId op < s0.localSz.length := by
      intro op hop
      exact hids0 op (by rw [hsplit]; exact List.mem_append_left _ hop)
    have hp := runOps_eq pre s0 s2 hpre_ids hL0 hpre
    have hsuf : runOps suf s2 = Except.ok s1 := by
      rw [← runOps_append pre suf s0 s2 hpre, ← hsplit]
      exact hrun
    have hsuf_ids : ∀ op ∈ suf, opId op < s2.localSz.length := by
      intro op hop
      rw [hp.2.2.1]
      exact hids0 op (by rw [hsplit]; exact List.mem_append_right _ hop)
    have hs := runOps_eq suf s2 s1 hsuf_ids (by rw [hp.2.2.2]; exact hL0) hsuf
    exact ⟨hp.2.1, hs.2.1⟩

theorem C7_allocator_conservation_witness :
    num_used_blocks ⟨2, 100, 6, 2, [2]⟩ = 0 ∧
    num_allocated_blocks ⟨2, 100, 6, 3, [0]⟩ ≤ num_allocated_blocks ⟨2, 100, 6, 2, [2]⟩ ∧
    (∀ pre suf s2,
      [AllocOp.alloc 0, AllocOp.alloc 0, AllocOp.free 0, AllocOp.free 0] = pre ++ suf →
      runOps pre ⟨2, 100, 6, 3, [0]⟩ = Except.ok s2 →
      num_allocated_blocks ⟨2, 100, 6, 3, [0]⟩ ≤ num_allocated_blocks s2 ∧
      num_allocated_blocks s2 ≤ num_allocated_blocks ⟨2, 100, 6, 2, [2]⟩) :=
  C7_allocator_conservation 8 4 2 100 1 0 (by decide)
    [AllocOp.alloc 0, AllocOp.alloc 0, AllocOp.free 0, AllocOp.free 0]
    ⟨2, 100, 6, 3, [0]⟩ ⟨2, 100, 6, 2, [2]⟩ (by rfl) (by decide) (by decide) (by rfl)

/-- C8: Allocator exhaustion is fatal.  Whenever an allocate_blocks call (or
an alloc that must allocate, or a reserve) would raise blocks_allocated above
max_blocks, the call exits with status 1 and no block is returned; and a
constructor max_blocks argument of 0 defaults the cap to three quarters of
physical memory divided by the block size. -/
theorem C8_allocator_exhaustion_fatal :
    (∀ (s : AllocState) (num : Nat), s.maxBlocks < s.blocksAllocated + num →
      allocate_blocks num s = Except.error 1) ∧
    (∀ (s : AllocState) (id : Nat), s.localSz.getD id 0 = 0 → s.globalLists = 0 →
      s.maxBlocks < s.blocksAllocated + s.listLength →
      alloc id s = Except.error 1) ∧
    (∀ (s : AllocState) (n tc : Nat),
      s.maxBlocks < s.blocksAllocated +
        s.listLength * (tc + (n + s.listLength - 1) / s.listLength) →
      reserve n tc s = Except.error 1) ∧
    (∀ (blockSize listLength_ threadCount memorySize : Nat),
      (initState blockSize listLength_ 0 threadCount memorySize).maxBlocks =
        3 * memorySize / 4 / blockSize) := by
  refine ⟨?_, ?_, ?_, ?_⟩
  · intro s num hcap
    rw [allocate_blocks, if_pos hcap]
  · intro s id h0 hg hcap
    rw [alloc, if_pos h0, get_list, if_neg (by omega), allocate_blocks, if_pos hcap]
  · intro s n tc hcap
    rw [reserve, allocate_blocks, if_pos hcap]
  · intro blockSize listLength_ threadCount memorySize
    show (if (0 : Nat) = 0 then 3 * memorySize / blockSize / 4 else 0) =
      3 * memorySize / 4 / blockSize
    rw [if_pos rfl, Nat.div_div_eq_div_mul, Nat.div_div_eq_div_mul,
      Nat.mul_comm blockSize 4]

theorem C8_allocator_exhaustion_fatal_witness :
    allocate_blocks 5 ⟨2, 10, 8, 0, [0]⟩ = Except.error 1 ∧
    alloc 0 ⟨2, 10, 9, 0, [0]⟩ = Except.error 1 ∧
    reserve 4 1 ⟨2, 10, 9, 0, [0]⟩ = Except.error 1 ∧
    (initState 4 2 0 1 100).maxBlocks = 3 * 100 / 4 / 4 :=
  ⟨C8_allocator_exhaustion_fatal.1 ⟨2, 10, 8, 0, [0]⟩ 5 (by decide),
   C8_allocator_exhaustion_fatal.2.1 ⟨2, 10, 9, 0, [0]⟩ 0 (by decide) (by decide) (by decide),
   C8_allocator_exhaustion_fatal.2.2.1 ⟨2, 10, 9, 0, [0]⟩ 4 1 (by decide),
   C8_allocator_exhaustion_fatal.2.2.2 4 2 1 100⟩

/-- The weight type parameter of a graph, as dispatched by the two enable_if
overloads of wBFS: signed 32-bit integers, pbbs::empty (unweighted), or
float. -/
inductive WeightType where
  | int32
  | empty
  | float
deriving DecidableEq, Repr

/-- Result of a benchmark driver call: an abort (a failed assert with
assertions enabled), or a vector of distances. -/
inductive BFSResult where
  | aborted
  | dists (v : List Nat)
deriving DecidableEq, Repr

def INT_E_MAX : Nat := 2 ^ 31 - 1

/-- The non-int32 wBFS overload (wBFS.h lines 150-159): `assert(false)`
first — with assertions enabled the call aborts; with NDEBUG it falls
through and returns a vector of n entries all INT_E_MAX, carrying no distance
information. -/
def wBFS_nonInt32 (asserts : Bool) (n : Nat) : BFSResult :=
  if asserts then BFSResult.aborted
  else BFSResult.dists (List.replicate n INT_E_MAX)

/-- wBFS overload dispatch on the weight type: the int32 overload runs the
real weighted BFS (abstracted here as an arbitrary result, since only the
non-int32 path is at issue); any other weight type selects the assert(false)
overload. -/
def wBFS (w : WeightType) (int32Result : BFSResult) (asserts : Bool) (n : Nat) :
    BFSResult :=
  match w with
  | WeightType.int32 => int32Result
  | WeightType.empty => wBFS_nonInt32 asserts n
  | WeightType.float => wBFS_nonInt32 asserts n

/-- C9: Weighted BFS on a graph whose weight type is not int32 is a contract
violation: with assertions enabled the call aborts on `assert(false)` before
computing anything, and even with assertions disabled it returns only the
all-INT_E_MAX vector, never a meaningful distance result. -/
theorem C9_wbfs_contract_violation (w : WeightType) (hw : w ≠ WeightType.int32)
    (int32Result : BFSResult) (n : Nat) :
    wBFS w int32Result true n = BFSResult.aborted ∧
    wBFS w int32Result false n = BFSResult.dists (List.replicate n INT_E_MAX) := by
  cases w with
  | int32 => exact absurd rfl hw
  | empty => exact ⟨rfl, rfl⟩
  | float => exact ⟨rfl, rfl⟩

theorem C9_wbfs_contract_violation_witness :
    wBFS WeightType.empty (BFSResult.dists []) true 4 = BFSResult.aborted ∧
    wBFS WeightType.empty (BFSResult.dists []) false 4 =
      BFSResult.dists (List.replicate 4 INT_E_MAX) :=
  C9_wbfs_contract_violation WeightType.empty (by decide) (BFSResult.dists []) 4

def UINT_E_MAX : Nat := 2 ^ 32 - 1

/-- BFS_F::updateAtomic from BFS.h: a compare-and-swap of Parents[d] from
UINT_E_MAX to s; returns the new array and whether the CAS succeeded. -/
def BFS_F_updateAtomic (parents : List Nat) (s d : Nat) : List Nat × Bool :=
  if parents.getD d 0 = UINT_E_MAX then (parents.set d s, true) else (parents, false)

/-- BFS_F::cond from BFS.h: only unvisited destinations are offered. -/
def BFS_F_cond (parents : List Nat) (d : Nat) : Bool :=
  decide (parents.getD d 0 = UINT_E_MAX)

/-- Modelled from the spec: the inner loop of sparse edgeMap (ligra.h is not
under src/) for one frontier vertex `s`: each out-neighbor `d` with `cond d`
is passed to updateAtomic, and the destinations whose update succeeded enter
the output frontier. -/
def edgeMapInner (parents : List Nat) (s : Nat) : List Nat → List Nat × List Nat
  | [] => (parents, [])
  | d :: ds =>
    if BFS_F_cond parents d then
      let r := BFS_F_updateAtomic parents s d
      let rest := edgeMapInner r.1 s ds
      if r.2 then (rest.1, d :: rest.2) else (rest.1, rest.2)
    else edgeMapInner parents s ds

/-- Modelled from the spec: sparse edgeMap over the whole frontier, in
order. -/
def edgeMapSparse (G : Nat → List Nat) (parents : List Nat) :
    List Nat → List Nat × List Nat
  | [] => (parents, [])
  | s :: ss =>
    let r := edgeMapInner parents s (G s)
    let rest := edgeMapSparse G r.1 ss
    (rest.1, r.2 ++ rest.2)

/-- The Parents array and initial frontier set up by BFS before its loop. -/
def BFS_init (n src : Nat) : List Nat × List Nat :=
  ((List.replicate n UINT_E_MAX).set src src, [src])

/-- The edgeMap loop of BFS, fuel-bounded: stop on an empty frontier. -/
def BFS_run (G : Nat → List Nat) : Nat → List Nat × List Nat → List Nat × List Nat
  | 0, st => st
  | fuel + 1, st =>
    if st.2 = [] then st
    else BFS_run G fuel (edgeMapSparse G st.1 st.2)

theorem edgeMapInner_cons_true (parents : List Nat) (s d2 : Nat) (ds : List Nat)
    (hc : parents.getD d2 0 = UINT_E_MAX) :
    edgeMapInner parents s (d2 :: ds) =
      ((edgeMapInner (parents.set d2 s) s ds).1,
        d2 :: (edgeMapInner (parents.set d2 s) s ds).2) := by
  rw [edgeMapInner]
  rw [if_pos (show BFS_F_cond parents d2 = true from by
    rw [BFS_F_cond]; exact decide_eq_true hc)]
  rw [BFS_F_updateAtomic, if_pos hc]
  rfl

theorem edgeMapInner_cons_false (parents : List Nat) (s d2 : Nat) (ds : List Nat)
    (hc : parents.getD d2 0 ≠ UINT_E_MAX) :
    edgeMapInner parents s (d2 :: ds) = edgeMapInner parents s ds := by
  rw [edgeMapInner]
  rw [if_neg (show ¬ BFS_F_cond parents d2 = true from by
    rw [BFS_F_cond]; exact fun h => hc (of_decide_eq_true h))]

theorem edgeMapSparse_cons (G : Nat → List Nat) (parents : List Nat) (s : Nat)
    (ss : List Nat) :
    edgeMapSparse G parents (s :: ss) =
      ((edgeMapSparse G (edgeMapInner parents s (G s)).1 ss).1,
        (edgeMapInner parents s (G s)).2 ++
          (edgeMapSparse G (edgeMapInner parents s (G s)).1 ss).2) := by
  rw [edgeMapSparse]

theorem edgeMapInner_preserves : ∀ (ds : List Nat) (parents : List Nat)
    (s d : Nat), parents.getD d 0 ≠ UINT_E_MAX →
    (edgeMapInner parents s ds).1.getD d 0 = parents.getD d 0 := by
  intro ds
  induction ds with
  | nil =>
    intro parents s d _
    rfl
  | cons d2 ds ih =>
    intro parents s d hd
    by_cases hc : parents.getD d2 0 = UINT_E_MAX
    · rw [edgeMapInner_cons_true parents s d2 ds hc]
      have hne : d ≠ d2 := fun hdd => hd (by rw [hdd]; exact hc)
      have hset : (parents.set d2 s).getD d 0 = parents.getD d 0 :=
        getD_set_ne parents d2 d s 0 hne
      show (edgeMapInner (parents.set d2 s) s ds).1.getD d 0 = parents.getD d 0
      rw [ih (parents.set d2 s) s d (by rw [hset]; exact hd), hset]
    · rw [edgeMapInner_cons_false parents s d2 ds hc]
      exact ih parents s d hd

theorem edgeMapSparse_preserves (G : Nat → List Nat) : ∀ (frontier : List Nat)
    (parents : List Nat) (d : Nat), parents.getD d 0 ≠ UINT_E_MAX →
    (edgeMapSparse G parents frontier).1.getD d 0 = parents.getD d 0 := by
  intro frontier
  induction frontier with
  | nil =>
    intro parents d _
    rfl
  | cons s ss ih =>
    intro parents d hd
    rw [edgeMapSparse_cons]
    show (edgeMapSparse G (edgeMapInner parents s (G s)).1 ss).1.getD d 0 =
      parents.getD d 0
    have h1 := edgeMapInner_preserves (G s) parents s d hd
    rw [ih (edgeMapInner parents s (G s)).1 d (by rw [h1]; exact hd), h1]

theorem edgeMapInner_new : ∀ (ds : List Nat) (parents : List Nat)
    (s d : Nat), s ≠ UINT_E_MAX →
    (edgeMapInner parents s ds).1.getD d 0 ≠ parents.getD d 0 →
    parents.getD d 0 = UINT_E_MAX ∧ (edgeMapInner parents s ds).1.getD d 0 = s := by
  intro ds
  induction ds with
  | nil =>
    intro parents s d _ hch
    exact absurd rfl hch
  | cons d2 ds ih =>
    intro parents s d hs hch
    by_cases hc : parents.getD d2 0 = UINT_E_MAX
    · rw [edgeMapInner_cons_true parents s d2 ds hc] at hch ⊢
      replace hch : (edgeMapInner (parents.set d2 s) s ds).1.getD d 0 ≠
        parents.getD d 0 := hch
      show parents.getD d 0 = UINT_E_MAX ∧
        (edgeMapInner (parents.set d2 s) s ds).1.getD d 0 = s
      by_cases hdd : d = d2
      · subst hdd
        have hlt : d < parents.length := by
          by_contra hge
          push_neg at hge
          rw [List.getD_eq_default _ _ hge] at hc
          simp [UINT_E_MAX] at hc
        have hset : (parents.set d s).getD d 0 = s := getD_set_self parents d s 0 hlt
        refine ⟨hc, ?_⟩
        rw [edgeMapInner_preserves ds (parents.set d s) s d (by rw [hset]; exact hs),
          hset]
      · have hset : (parents.set d2 s).getD d 0 = parents.getD d 0 :=
          getD_set_ne parents d2 d s 0 hdd
        rw [show ((edgeMapInner (parents.set d2 s) s ds).1.getD d 0 ≠ parents.getD d 0) ↔
            ((edgeMapInner (parents.set d2 s) s ds).1.getD d 0 ≠
              (parents.set d2 s).getD d 0) from by rw [hset]] at hch
        have hres := ih (parents.set d2 s) s d hs hch
        rw [hset] at hres
        exact hres
    · rw [edgeMapInner_cons_false parents s d2 ds hc] at hch ⊢
      exact ih parents s d hs hch

theorem edgeMapSparse_new (G : Nat → List Nat) : ∀ (frontier : List Nat)
    (parents : List Nat) (d : Nat), (∀ s ∈ frontier, s ≠ UINT_E_MAX) →
    (edgeMapSparse G parents frontier).1.getD d 0 ≠ parents.getD d 0 →
    parents.getD d 0 = UINT_E_MAX ∧
      (edgeMapSparse G parents frontier).1.getD d 0 ∈ frontier := by
  intro frontier
  induction frontier with
  | nil =>
    intro parents d _ hch
    exact absurd rfl hch
  | cons s ss ih =>
    intro parents d hfr hch
    rw [edgeMapSparse_cons] at hch ⊢
    replace hch : (edgeMapSparse G (edgeMapInner parents s (G s)).1 ss).1.getD d 0 ≠
      parents.getD d 0 := hch
    show parents.getD d 0 = UINT_E_MAX ∧
      (edgeMapSparse G (edgeMapInner parents s (G s)).1 ss).1.getD d 0 ∈ s :: ss
    by_cases hinner : (edgeMapInner parents s (G s)).1.getD d 0 = parents.getD d 0
    · rw [show ((edgeMapSparse G (edgeMapInner parents s (G s)).1 ss).1.getD d 0 ≠
          parents.getD d 0) ↔
          ((edgeMapSparse G (edgeMapInner parents s (G s)).1 ss).1.getD d 0 ≠
            (edgeMapInner parents s (G s)).1.getD d 0) from by rw [hinner]] at hch
      have hres := ih (edgeMapInner parents s (G s)).1 d
        (fun t ht => hfr t (List.mem_cons_of_mem _ ht)) hch
      rw [hinner] at hres
      exact ⟨hres.1, List.mem_cons_of_mem _ hres.2⟩
    · have hs : s ≠ UINT_E_MAX := hfr s (List.mem_cons_self _ _)
      have hnew := edgeMapInner_new (G s) parents s d hs hinner
      refine ⟨hnew.1, ?_⟩
      rw [edgeMapSparse_preserves G ss (edgeMapInner parents s (G s)).1 d
        (by rw [hnew.2]; exact hs), hnew.2]
      exact List.mem_cons_self _ _

/-- C10 (implicit): BFS assigns each parent at most once.  Parents[src] is
src before the loop; an edgeMap round never changes an already assigned
entry (updateAtomic only succeeds by compare-and-swap from UINT_E_MAX and
cond excludes visited destinations); any entry an edgeMap round does change
was UINT_E_MAX and receives the id of a vertex of that round's frontier; and
hence an assigned entry survives unchanged through the rest of the whole
run. -/
theorem C10_bfs_parents_once (G : Nat → List Nat) :
    (∀ n src, src < n → (BFS_init n src).1.getD src 0 = src) ∧
    (∀ parents frontier d, parents.getD d 0 ≠ UINT_E_MAX →
      (edgeMapSparse G parents frontier).1.getD d 0 = parents.getD d 0) ∧
    (∀ parents frontier d, (∀ s ∈ frontier, s ≠ UINT_E_MAX) →
      (edgeMapSparse G parents frontier).1.getD d 0 ≠ parents.getD d 0 →
      parents.getD d 0 = UINT_E_MAX ∧
        (edgeMapSparse G parents frontier).1.getD d 0 ∈ frontier) ∧
    (∀ st fuel d, st.1.getD d 0 ≠ UINT_E_MAX →
      (BFS_run G fuel st).1.getD d 0 = st.1.getD d 0) := by
  refine ⟨?_, ?_, ?_, ?_⟩
  · intro n src hsrc
    show ((List.replicate n UINT_E_MAX).set src src).getD src 0 = src
    exact getD_set_self _ _ _ _ (by simpa using hsrc)
  · intro parents frontier d hd
    exact edgeMapSparse_preserves G frontier parents d hd
  · intro parents frontier d hfr hch
    exact edgeMapSparse_new G frontier parents d hfr hch
  · intro st fuel
    induction fuel generalizing st with
    | zero =>
      intro d _
      rfl
    | succ fuel ih =>
      intro d hd
      rw [BFS_run]
      by_cases hemp : st.2 = []
      · rw [if_pos hemp]
      · rw [if_neg hemp]
        have h1 := edgeMapSparse_preserves G st.2 st.1 d hd
        rw [ih (edgeMapSparse G st.1 st.2) d (by rw [h1]; exact hd), h1]

/-- A three-vertex path graph 0 - 1 - 2. -/
def pathG : Nat → List Nat :=
  fun v => if v = 0 then [1] else if v = 1 then [0, 2] else [1]

theorem C10_bfs_parents_once_witness :
    (BFS_init 3 0).1.getD 0 0 = 0 ∧
    (edgeMapSparse pathG ((List.replicate 3 UINT_E_MAX).set 0 0) [0]).1.getD 0 0 =
      ((List.replicate 3 UINT_E_MAX).set 0 0).getD 0 0 ∧
    (((List.replicate 3 UINT_E_MAX).set 0 0).getD 1 0 = UINT_E_MAX ∧
      (edgeMapSparse pathG ((List.replicate 3 UINT_E_MAX).set 0 0) [0]).1.getD 1 0 ∈
        [0]) ∧
    (BFS_run pathG 5 (BFS_init 3 0)).1.getD 0 0 = (BFS_init 3 0).1.getD 0 0 :=
  ⟨(C10_bfs_parents_once pathG).1 3 0 (by decide),
   (C10_bfs_parents_once pathG).2.1 ((List.replicate 3 UINT_E_MAX).set 0 0) [0] 0
     (by decide),
   (C10_bfs_parents_once pathG).2.2.1 ((List.replicate 3 UINT_E_MAX).set 0 0) [0] 1
     (by decide) (by decide),
   (C10_bfs_parents_once pathG).2.2.2 (BFS_init 3 0) 5 0 (by decide)⟩

end BytePD
